import Mathlib

/-!
# Separate-chaining hash map of `domwst/aads` (`src/hash_map.h`)

A shallow embedding of the container and of its traversal cursor.

* `std::vector<std::forward_list<std::pair<const K, V>>>` is a list of chains,
  each chain a list of `(key, value)` pairs; the head of a chain is the node
  that `push_front` created last.
* `size_t` values are natural numbers; the arithmetic on the size counter
  wraps modulo `2 ^ 64` exactly where the source increments, decrements or
  multiplies it.
* Undefined behaviour of the source (indexing `sizes` or `buckets` out of
  range, dereferencing or incrementing a past-the-end list iterator) is the
  result `none`; the one exception the source throws, `std::out_of_range`
  in `at`, is a result of its own.
* The hash functor is a function `hasher : K → Nat` that is passed to every
  operation, so that a map state is plain data with decidable equality.
* `src/hashmap.h` holds the same private and facade methods statement for
  statement (`cur_len` for `cur_capacity`, the thresholds 130 and 30 written
  as literals, `push_front` for `emplace_front`), so what is proved of
  `change_size` .. `clear` of `src/hash_map.h` holds for both files. The
  second file is also embedded on its own, in the namespace `Alt`, with its
  nested iterator classes and its own `find`, `begin` and `end`; the last
  part of the development proves that the two embeddings agree.
* A list iterator is identified by its chain and its offset, so the `end()`
  iterators of two different chains are different values; every equality of
  cursors proved below therefore also holds for an implementation in which
  all past-the-end list iterators compare equal.
-/

namespace Aads

set_option linter.unusedSectionVars false

/-! ## Data model -/

/-- The capacity schedule `sizes[]` of the source (24 entries). -/
def sizes : List Nat :=
  [5, 11, 23, 47, 97, 197, 397, 797, 1597, 3203, 6421,
   12853, 25717, 51437, 102877, 205759, 411527, 823117,
   1646237, 3292489, 6584983, 13169977, 26339969, 52679969]

/-- Grow threshold of the load factor, in percent. -/
def growLoadFactorThreshold : Nat := 130

/-- Shrink threshold of the load factor, in percent (the source spells it so). -/
def shrintLoadFactorThreshold : Nat := 30

/-- Number of values of `size_t`: unsigned arithmetic wraps modulo this. -/
def size_t_mod : Nat := 2 ^ 64

/-- The private state of `HashMap`: size counter, capacity level, bucket table.
The hash functor is passed to the operations instead of being stored. -/
structure HashMap (K V : Type) where
  cur_size : Nat
  cur_capacity : Nat
  buckets : List (List (K × V))
deriving DecidableEq

/-- A `forward_list` iterator: the chain it walks (bucket number) and the
number of `++` steps from that chain's `begin()`; `pos = length` is `end()`. -/
structure list_iter where
  chain : Nat
  pos : Nat
deriving DecidableEq

/-- State of `base_hashmap_iterator`: the vector iterators `cur` and `end`
as bucket numbers and the list iterator `biter`. -/
structure base_hashmap_iterator where
  cur : Nat
  end_ : Nat
  biter : list_iter
deriving DecidableEq

/-- A `ValueType&` into the table: the chain and the node it designates. -/
structure value_ref where
  bucket : Nat
  pos : Nat
deriving DecidableEq

/-- Outcome of `at`: the value, the thrown `std::out_of_range`, or
undefined behaviour (bucket index outside the table). -/
inductive at_result (V : Type) where
  | value (y : V)
  | out_of_range
  | undefined
deriving DecidableEq

/-! ## Chains -/

section chains

variable {K V : Type} [DecidableEq K]

/-- The scan all lookups share (`for (auto &[x, y] : chain) if (x == key) ...`):
position and value of the first node whose key equals `key`. -/
def chain_scan (key : K) : List (K × V) → Option (Nat × V)
  | [] => none
  | e :: rest =>
    if e.1 = key then some (0, e.2)
    else (chain_scan key rest).map (fun r => (r.1 + 1, r.2))

/-- The loop of `erase` on one chain: `erase_after` on the first node whose
key equals `key`, then `break`; `none` when the loop ends without a match. -/
def erase_first (key : K) : List (K × V) → Option (List (K × V))
  | [] => none
  | e :: rest =>
    if e.1 = key then some rest
    else (erase_first key rest).map (fun r => e :: r)

end chains

/-! ## The map -/

namespace HashMap

variable {K V : Type} [DecidableEq K]

/-- The constructor `explicit HashMap(const Hash&)`: `buckets(sizes[0])`, size and level 0. -/
def new : HashMap K V :=
  { cur_size := 0, cur_capacity := 0, buckets := List.replicate (sizes.getD 0 0) [] }

/-- The two nested loops of `change_size`: every entry of every chain, in
order, is pushed to the front of chain `hasher(x.first) % n` of a table of
`n` empty chains. -/
def rehash (hasher : K → Nat) (n : Nat) (bs : List (List (K × V))) : List (List (K × V)) :=
  bs.foldl (fun nb b => b.foldl (fun nb x => nb.modify (fun c => x :: c) (hasher x.1 % n)) nb)
    (List.replicate n [])

/-- The method `change_size(new_capacity)`: nothing when the level is the
current one; otherwise the level is stored, `sizes` is indexed with it and
the table is rehashed into that many chains. -/
def change_size (hasher : K → Nat) (m : HashMap K V) (new_capacity : Nat) : Option (HashMap K V) :=
  if new_capacity = m.cur_capacity then some m
  else
    match sizes[new_capacity]? with
    | none => none
    | some n =>
      some { cur_size := m.cur_size, cur_capacity := new_capacity,
             buckets := rehash hasher n m.buckets }

/-- The method `load_factor()`: `cur_size * 100 / sizes[cur_capacity]` in `size_t`. -/
def load_factor (m : HashMap K V) : Option Nat :=
  match sizes[m.cur_capacity]? with
  | none => none
  | some n => some (m.cur_size * 100 % size_t_mod / n)

/-- The method `trySizeUp()`: the new state and the returned flag. Where
`load_factor()` is defined the level is below 24, so `cur_capacity + 1`
does not wrap. -/
def trySizeUp (hasher : K → Nat) (m : HashMap K V) : Option (HashMap K V × Bool) :=
  match load_factor m with
  | none => none
  | some lf =>
    if lf > growLoadFactorThreshold then
      (change_size hasher m (m.cur_capacity + 1)).map (fun m1 => (m1, true))
    else some (m, false)

/-- The method `trySizeDown()`: the new state and the returned flag. -/
def trySizeDown (hasher : K → Nat) (m : HashMap K V) : Option (HashMap K V × Bool) :=
  match load_factor m with
  | none => none
  | some lf =>
    if lf < shrintLoadFactorThreshold ∧ m.cur_capacity > 0 then
      (change_size hasher m (m.cur_capacity - 1)).map (fun m1 => (m1, true))
    else some (m, false)

/-- The method `size()`. -/
def size (m : HashMap K V) : Nat := m.cur_size

/-- The method `empty()`. -/
def empty (m : HashMap K V) : Bool := m.cur_size == 0

/-- The method `count(key)`. -/
def count (hasher : K → Nat) (m : HashMap K V) (key : K) : Option Nat :=
  match m.buckets[hasher key % m.buckets.length]? with
  | none => none
  | some b =>
    match chain_scan key b with
    | some _ => some 1
    | none => some 0

/-- The method `insert(val)`. -/
def insert (hasher : K → Nat) (m : HashMap K V) (val : K × V) : Option (HashMap K V) :=
  match count hasher m val.1 with
  | none => none
  | some c =>
    if c ≠ 0 then some m
    else
      (trySizeUp hasher
        { m with
          buckets := m.buckets.modify (fun c => val :: c) (hasher val.1 % m.buckets.length)
          cur_size := (m.cur_size + 1) % size_t_mod }).map Prod.fst

/-- The method `erase(key)`. -/
def erase (hasher : K → Nat) (m : HashMap K V) (key : K) : Option (HashMap K V) :=
  match m.buckets[hasher key % m.buckets.length]? with
  | none => none
  | some b =>
    let m1 : HashMap K V :=
      match erase_first key b with
      | some b1 =>
        { m with
          buckets := m.buckets.set (hasher key % m.buckets.length) b1
          cur_size := (m.cur_size + size_t_mod - 1) % size_t_mod }
      | none => m
    (trySizeDown hasher m1).map Prod.fst

/-- The method `operator[](key)`, with the depth of its self-call bounded by `fuel`
(`none` also when the fuel runs out). The result is the new state and the
returned reference. -/
def index_fuel [Inhabited V] (hasher : K → Nat) :
    Nat → HashMap K V → K → Option (HashMap K V × value_ref)
  | 0, _, _ => none
  | fuel + 1, m, key =>
    match sizes[m.cur_capacity]? with
    | none => none
    | some n =>
      match m.buckets[hasher key % n]? with
      | none => none
      | some b =>
        match chain_scan key b with
        | some r => some (m, ⟨hasher key % n, r.1⟩)
        | none =>
          match trySizeUp hasher
              { m with
                buckets := m.buckets.set (hasher key % n) ((key, default) :: b)
                cur_size := (m.cur_size + 1) % size_t_mod } with
          | none => none
          | some (m1, true) => index_fuel hasher fuel m1 key
          | some (m1, false) => some (m1, ⟨hasher key % n, 0⟩)

/-- Reading through a `ValueType&`. -/
def read (m : HashMap K V) (r : value_ref) : Option V :=
  match m.buckets[r.bucket]? with
  | none => none
  | some b => (b[r.pos]?).map Prod.snd

/-- Assigning through a `ValueType&` (as in `m[k] = v`): the key of the
node is `const`, its value is replaced. -/
def write (m : HashMap K V) (r : value_ref) (v : V) : Option (HashMap K V) :=
  match m.buckets[r.bucket]? with
  | none => none
  | some b =>
    match b[r.pos]? with
    | none => none
    | some e => some { m with buckets := m.buckets.set r.bucket (b.set r.pos (e.1, v)) }

/-- The method `at(key)`. -/
def at_ (hasher : K → Nat) (m : HashMap K V) (key : K) : at_result V :=
  match m.buckets[hasher key % m.buckets.length]? with
  | none => .undefined
  | some b =>
    match chain_scan key b with
    | some r => .value r.2
    | none => .out_of_range

/-- The method `clear()`. -/
def clear (hasher : K → Nat) (m : HashMap K V) : Option (HashMap K V) :=
  change_size hasher { m with buckets := m.buckets.map (fun _ => []), cur_size := 0 } 0

/-- The method `base_find(val)`: the pair (bucket number, offset in the chain). -/
def base_find (hasher : K → Nat) (m : HashMap K V) (val : K) : Option (Nat × Nat) :=
  match m.buckets[hasher val % m.buckets.length]? with
  | none => none
  | some b =>
    match chain_scan val b with
    | some r => some (hasher val % m.buckets.length, r.1)
    | none =>
      match m.buckets.getLast? with
      | none => none
      | some last => some (m.buckets.length, last.length)

end HashMap

/-! ## The traversal cursor -/

namespace base_hashmap_iterator

variable {K V : Type}

/-- The loop of `push()`, at most `fuel` tests of its condition
(`none` when the fuel runs out or `cur` is dereferenced outside the table). -/
def push_fuel (bs : List (List (K × V))) : Nat → base_hashmap_iterator → Option base_hashmap_iterator
  | 0, _ => none
  | fuel + 1, it =>
    if it.cur = it.end_ then some it
    else
      match bs[it.cur]? with
      | none => none
      | some b =>
        if it.biter = ⟨it.cur, b.length⟩ then
          if it.cur + 1 ≠ it.end_ then
            match bs[it.cur + 1]? with
            | none => none
            | some _ => push_fuel bs fuel { it with cur := it.cur + 1, biter := ⟨it.cur + 1, 0⟩ }
          else push_fuel bs fuel { it with cur := it.cur + 1 }
        else some it

/-- The method `push()`: the loop leaves after at most `buckets.size() + 1` tests. -/
def push (bs : List (List (K × V))) (it : base_hashmap_iterator) : Option base_hashmap_iterator :=
  push_fuel bs (bs.length + 1) it

/-- The constructor `base_hashmap_iterator(buckets, back)`. -/
def mk_from (bs : List (List (K × V))) (back : Bool) : Option base_hashmap_iterator :=
  match bs[0]? with
  | none => none
  | some _ =>
    if !back then push bs { cur := 0, end_ := bs.length, biter := ⟨0, 0⟩ }
    else
      match bs.getLast? with
      | none => none
      | some last =>
        some { cur := bs.length, end_ := bs.length, biter := ⟨bs.length - 1, last.length⟩ }

/-- Prefix `operator++`. -/
def incr (bs : List (List (K × V))) (it : base_hashmap_iterator) : Option base_hashmap_iterator :=
  match bs[it.biter.chain]? with
  | none => none
  | some b =>
    if it.biter.pos < b.length then push bs { it with biter := ⟨it.biter.chain, it.biter.pos + 1⟩ }
    else none

/-- The dereference `operator*`. -/
def deref (bs : List (List (K × V))) (it : base_hashmap_iterator) : Option (K × V) :=
  match bs[it.biter.chain]? with
  | none => none
  | some b => b[it.biter.pos]?

/-- The comparison `operator==`: `it.cur == cur && it.biter == biter`. -/
def eq (a b : base_hashmap_iterator) : Bool :=
  decide (b.cur = a.cur) && decide (b.biter = a.biter)

/-- The cursor after `n` applications of `++`. -/
def advance (bs : List (List (K × V))) : Nat → base_hashmap_iterator → Option base_hashmap_iterator
  | 0, it => some it
  | n + 1, it =>
    match incr bs it with
    | none => none
    | some it1 => advance bs n it1

end base_hashmap_iterator

namespace HashMap

variable {K V : Type} [DecidableEq K]

/-- The method `begin()`. -/
def begin_ (m : HashMap K V) : Option base_hashmap_iterator :=
  base_hashmap_iterator.mk_from m.buckets false

/-- The method `end()`. -/
def end_ (m : HashMap K V) : Option base_hashmap_iterator :=
  base_hashmap_iterator.mk_from m.buckets true

/-- The method `find(val)`. -/
def find (hasher : K → Nat) (m : HashMap K V) (val : K) : Option base_hashmap_iterator :=
  match base_find hasher m val with
  | none => none
  | some (block_idx, item_idx) =>
    match m.buckets[min block_idx (m.buckets.length - 1)]? with
    | none => none
    | some b =>
      if item_idx ≤ b.length then
        some { cur := block_idx, end_ := m.buckets.length,
               biter := ⟨min block_idx (m.buckets.length - 1), item_idx⟩ }
      else none

end HashMap

/-! ## Specification-level notions -/

namespace HashMap

variable {K V : Type} [DecidableEq K]

/-- All entries held in the table: the chains concatenated in bucket order. -/
def entries (m : HashMap K V) : List (K × V) := m.buckets.flatten

/-- The reference `r` designates, in the table of `m`, the node `(key, v)`. -/
def designates (m : HashMap K V) (r : value_ref) (key : K) (v : V) : Prop :=
  ∃ b, m.buckets[r.bucket]? = some b ∧ b[r.pos]? = some (key, v)

/-- The range constructor `HashMap(beg, end, Hasher)`: the default
constructor followed by `insert(*it)` for every element in order. -/
def from_range (hasher : K → Nat) (l : List (K × V)) : Option (HashMap K V) :=
  l.foldl (fun acc val => acc.bind (fun m => insert hasher m val)) (some new)

/-- The structural invariants of the data model: the table length is the
schedule entry of the level, every entry sits in the chain of its hash,
keys are pairwise distinct over the whole table, the size counter is the
number of entries, and the load factor lies in the band kept by the resize
policy. -/
structure WF (hasher : K → Nat) (m : HashMap K V) : Prop where
  level : sizes[m.cur_capacity]? = some m.buckets.length
  placed : ∀ i b, m.buckets[i]? = some b → ∀ e ∈ b, hasher e.1 % m.buckets.length = i
  nodup : (m.buckets.flatten.map Prod.fst).Nodup
  size : m.cur_size = m.buckets.flatten.length
  band_hi : m.cur_size * 100 / m.buckets.length ≤ growLoadFactorThreshold
  band_lo : m.cur_capacity = 0 ∨ shrintLoadFactorThreshold ≤ m.cur_size * 100 / m.buckets.length

/-- The invariants without the load-factor band, as they hold between the
entry manipulation and the resize check of a mutating call. -/
structure Sound (hasher : K → Nat) (m : HashMap K V) : Prop where
  level : sizes[m.cur_capacity]? = some m.buckets.length
  placed : ∀ i b, m.buckets[i]? = some b → ∀ e ∈ b, hasher e.1 % m.buckets.length = i
  nodup : (m.buckets.flatten.map Prod.fst).Nodup
  size : m.cur_size = m.buckets.flatten.length

/-- The maps a client can reach from a freshly constructed one: by `insert`,
`erase`, `operator[]`, assignment through a reference into the current
table, and `clear`, each call having returned. -/
inductive Reachable [Inhabited V] (hasher : K → Nat) : HashMap K V → Prop where
  | new : Reachable hasher HashMap.new
  | insert {m m1 : HashMap K V} (val : K × V) :
      Reachable hasher m → HashMap.insert hasher m val = some m1 → Reachable hasher m1
  | erase {m m1 : HashMap K V} (key : K) :
      Reachable hasher m → HashMap.erase hasher m key = some m1 → Reachable hasher m1
  | index {m m1 : HashMap K V} {r : value_ref} (fuel : Nat) (key : K) :
      Reachable hasher m → index_fuel hasher fuel m key = some (m1, r) → Reachable hasher m1
  | write {m m1 : HashMap K V} (r : value_ref) (v : V) :
      Reachable hasher m → HashMap.write m r v = some m1 → Reachable hasher m1
  | clear {m m1 : HashMap K V} :
      Reachable hasher m → HashMap.clear hasher m = some m1 → Reachable hasher m1

end HashMap

namespace base_hashmap_iterator

variable {K V : Type}

/-- The cursor `it` is normalised and the entries from it to the end of the
table are `R`: either nothing is left and `it` is the `end()` cursor, or
`it` rests on a node of chain `it.cur` and `R` starts with that node. -/
def Pos (bs : List (List (K × V))) (it : base_hashmap_iterator) (R : List (K × V)) : Prop :=
  (R = [] ∧ mk_from bs true = some it) ∨
  (∃ c b p, it = ⟨c, bs.length, ⟨c, p⟩⟩ ∧ bs[c]? = some b ∧ p < b.length ∧
    R = b.drop p ++ (bs.drop (c + 1)).flatten)

end base_hashmap_iterator

/-! ## Concrete maps -/

/-- The map after `insert` of the keys 1..6 with value `10 * key`, hash = identity. -/
def ex_map6 : HashMap Nat Nat :=
  { cur_size := 6, cur_capacity := 0,
    buckets := [[(5, 50)], [(6, 60), (1, 10)], [(2, 20)], [(3, 30)], [(4, 40)]] }

/-! ## Further notions of the specification -/

namespace HashMap

variable {K V : Type} [DecidableEq K]

/-- Uniqueness of keys over the whole table: two positions of the table
(chain number, offset in the chain) that hold entries with equal keys are the
same position. -/
def unique_keys (m : HashMap K V) : Prop :=
  ∀ (i j p q : Nat) (b b2 : List (K × V)) (e f : K × V),
    m.buckets[i]? = some b → b[p]? = some e → m.buckets[j]? = some b2 → b2[q]? = some f →
    e.1 = f.1 → i = j ∧ p = q

/-- Placement: the table length is the schedule entry of the capacity level
and every entry sits in the chain numbered `hash(key) mod table length`. -/
def placement (hasher : K → Nat) (m : HashMap K V) : Prop :=
  sizes[m.cur_capacity]? = some m.buckets.length ∧
  ∀ (i : Nat) (b : List (K × V)), m.buckets[i]? = some b →
    ∀ e ∈ b, i = hasher e.1 % m.buckets.length

/-- One completed call of `insert`, `erase`, `operator[]` or `clear` leads
from `m` to `m1`. -/
def step [Inhabited V] (hasher : K → Nat) (m m1 : HashMap K V) : Prop :=
  (∃ val, insert hasher m val = some m1) ∨ (∃ key, erase hasher m key = some m1) ∨
  (∃ fuel key r, index_fuel hasher fuel m key = some (m1, r)) ∨ clear hasher m = some m1

end HashMap

namespace HashMap

variable {K V : Type} [DecidableEq K]

/-- A run of `erase(key)` calls, one for every key of the list in order. -/
def erase_all (hasher : K → Nat) (keys : List K) (m : HashMap K V) : Option (HashMap K V) :=
  keys.foldl (fun acc key => acc.bind (fun m => erase hasher m key)) (some m)

end HashMap

/-- The map after `insert` of the keys 1..7 with value `10 * key`, hash =
identity: the seventh insert has grown the table to level 1. -/
def ex_map7 : HashMap Nat Nat :=
  { cur_size := 7, cur_capacity := 1,
    buckets := [[], [(1, 10)], [(2, 20)], [(3, 30)], [(4, 40)], [(5, 50)], [(6, 60)],
      [(7, 70)], [], [], []] }

/-- The map `ex_map7` after `erase` of the keys 5, 6 and 7 (load factor 36 at level 1). -/
def ex_map4 : HashMap Nat Nat :=
  { cur_size := 4, cur_capacity := 1,
    buckets := [[], [(1, 10)], [(2, 20)], [(3, 30)], [(4, 40)], [], [], [], [], [], []] }

/-- A table of `L` chains at the last level of the schedule (level 23) whose
chain 0 holds the `N` keys `0, L, 2 * L, ..` (hash = identity) and whose
other chains are empty. -/
def tall_map (L N : Nat) : HashMap Nat Nat :=
  { cur_size := N, cur_capacity := 23,
    buckets := ((List.range N).map (fun j => (j * L, 0))) :: List.replicate (L - 1) [] }

/-- The fullest map of the last level: table length `sizes[23] = 52679969`,
69010759 entries, load factor 130. -/
def full_map : HashMap Nat Nat := tall_map 52679969 69010759

/-! ## The second file, `src/hashmap.h`

The class `HashMap` of `src/hashmap.h` with its nested classes `iterator` and
`const_iterator` (the two are the same code up to `const`). The chain loops
have the shape of `chain_scan` and `erase_first`, and the two nested loops of
`change_size` are `HashMap.rehash`. -/

namespace Alt

/-- The private state of `HashMap` in `src/hashmap.h`: size counter, capacity
level `cur_len`, bucket table. -/
structure HashMap (K V : Type) where
  cur_size : Nat
  cur_len : Nat
  buckets : List (List (K × V))
deriving DecidableEq

/-- The schedule `sizes[]` as `src/hashmap.h` defines it after the class. -/
def sizes : List Nat :=
  [5, 11, 23, 47, 97, 197, 397, 797, 1597, 3203, 6421,
   12853, 25717, 51437, 102877, 205759, 411527, 823117,
   1646237, 3292489, 6584983, 13169977, 26339969, 52679969]

/-- State of the nested classes `iterator` and `const_iterator`. -/
structure iterator where
  cur : Nat
  end_ : Nat
  biter : list_iter
deriving DecidableEq

namespace HashMap

variable {K V : Type} [DecidableEq K]

/-- The constructor `HashMap(const Hash&)` of `src/hashmap.h`. -/
def new : HashMap K V :=
  { cur_size := 0, cur_len := 0, buckets := List.replicate (sizes.getD 0 0) [] }

/-- The method `change_size(new_sz)` of `src/hashmap.h`:
`new_sz = sizes[cur_len = new_sz]`, then the rehash loops and the swap. -/
def change_size (hasher : K → Nat) (m : HashMap K V) (new_sz : Nat) : Option (HashMap K V) :=
  if new_sz = m.cur_len then some m
  else
    match sizes[new_sz]? with
    | none => none
    | some n =>
      some { cur_size := m.cur_size, cur_len := new_sz,
             buckets := Aads.HashMap.rehash hasher n m.buckets }

/-- The method `load_factor()` of `src/hashmap.h`. -/
def load_factor (m : HashMap K V) : Option Nat :=
  match sizes[m.cur_len]? with
  | none => none
  | some n => some (m.cur_size * 100 % size_t_mod / n)

/-- The method `trySizeUp()` of `src/hashmap.h` (threshold written `130`). -/
def trySizeUp (hasher : K → Nat) (m : HashMap K V) : Option (HashMap K V × Bool) :=
  match load_factor m with
  | none => none
  | some lf =>
    if lf > 130 then (change_size hasher m (m.cur_len + 1)).map (fun m1 => (m1, true))
    else some (m, false)

/-- The method `trySizeDown()` of `src/hashmap.h`: `load_factor() < 30 && cur_len`. -/
def trySizeDown (hasher : K → Nat) (m : HashMap K V) : Option (HashMap K V × Bool) :=
  match load_factor m with
  | none => none
  | some lf =>
    if lf < 30 ∧ m.cur_len ≠ 0 then
      (change_size hasher m (m.cur_len - 1)).map (fun m1 => (m1, true))
    else some (m, false)

/-- The method `size()` of `src/hashmap.h`. -/
def size (m : HashMap K V) : Nat := m.cur_size

/-- The method `empty()` of `src/hashmap.h`. -/
def empty (m : HashMap K V) : Bool := m.cur_size == 0

/-- The method `count(key)` of `src/hashmap.h`. -/
def count (hasher : K → Nat) (m : HashMap K V) (key : K) : Option Nat :=
  match m.buckets[hasher key % m.buckets.length]? with
  | none => none
  | some b =>
    match chain_scan key b with
    | some _ => some 1
    | none => some 0

/-- The method `insert(val)` of `src/hashmap.h`. -/
def insert (hasher : K → Nat) (m : HashMap K V) (val : K × V) : Option (HashMap K V) :=
  match count hasher m val.1 with
  | none => none
  | some c =>
    if c ≠ 0 then some m
    else
      (trySizeUp hasher
        { m with
          buckets := m.buckets.modify (fun c => val :: c) (hasher val.1 % m.buckets.length)
          cur_size := (m.cur_size + 1) % size_t_mod }).map Prod.fst

/-- The method `erase(key)` of `src/hashmap.h`. -/
def erase (hasher : K → Nat) (m : HashMap K V) (key : K) : Option (HashMap K V) :=
  match m.buckets[hasher key % m.buckets.length]? with
  | none => none
  | some b =>
    let m1 : HashMap K V :=
      match erase_first key b with
      | some b1 =>
        { m with
          buckets := m.buckets.set (hasher key % m.buckets.length) b1
          cur_size := (m.cur_size + size_t_mod - 1) % size_t_mod }
      | none => m
    (trySizeDown hasher m1).map Prod.fst

/-- The method `operator[](key)` of `src/hashmap.h`, the depth of its
self-call bounded by `fuel`. -/
def index_fuel [Inhabited V] (hasher : K → Nat) :
    Nat → HashMap K V → K → Option (HashMap K V × value_ref)
  | 0, _, _ => none
  | fuel + 1, m, key =>
    match sizes[m.cur_len]? with
    | none => none
    | some n =>
      match m.buckets[hasher key % n]? with
      | none => none
      | some b =>
        match chain_scan key b with
        | some r => some (m, ⟨hasher key % n, r.1⟩)
        | none =>
          match trySizeUp hasher
              { m with
                buckets := m.buckets.set (hasher key % n) ((key, default) :: b)
                cur_size := (m.cur_size + 1) % size_t_mod } with
          | none => none
          | some (m1, true) => index_fuel hasher fuel m1 key
          | some (m1, false) => some (m1, ⟨hasher key % n, 0⟩)

/-- The method `at(key)` of `src/hashmap.h`. -/
def at_ (hasher : K → Nat) (m : HashMap K V) (key : K) : at_result V :=
  match m.buckets[hasher key % m.buckets.length]? with
  | none => .undefined
  | some b =>
    match chain_scan key b with
    | some r => .value r.2
    | none => .out_of_range

/-- The method `clear()` of `src/hashmap.h`. -/
def clear (hasher : K → Nat) (m : HashMap K V) : Option (HashMap K V) :=
  change_size hasher { m with buckets := m.buckets.map (fun _ => []), cur_size := 0 } 0

end HashMap

namespace iterator

variable {K V : Type}

/-- The loop of `push()` of the nested iterator classes, at most `fuel`
tests of its condition. -/
def push_fuel (bs : List (List (K × V))) : Nat → iterator → Option iterator
  | 0, _ => none
  | fuel + 1, it =>
    if it.cur = it.end_ then some it
    else
      match bs[it.cur]? with
      | none => none
      | some b =>
        if it.biter = ⟨it.cur, b.length⟩ then
          if it.cur + 1 ≠ it.end_ then
            match bs[it.cur + 1]? with
            | none => none
            | some _ => push_fuel bs fuel { it with cur := it.cur + 1, biter := ⟨it.cur + 1, 0⟩ }
          else push_fuel bs fuel { it with cur := it.cur + 1 }
        else some it

/-- The method `push()` of the nested iterator classes. -/
def push (bs : List (List (K × V))) (it : iterator) : Option iterator :=
  push_fuel bs (bs.length + 1) it

/-- The constructor `iterator(HashMap &mp)`: `cur(mp.buckets.begin())`,
`end(mp.buckets.end())`, `biter(cur->begin())`, and no `push()`. -/
def of_map (bs : List (List (K × V))) : Option iterator :=
  match bs[0]? with
  | none => none
  | some _ => some { cur := 0, end_ := bs.length, biter := ⟨0, 0⟩ }

end iterator

namespace HashMap

variable {K V : Type} [DecidableEq K]

/-- The method `begin()` of `src/hashmap.h`: `iterator iter(*this); iter.push();`. -/
def begin_ (m : HashMap K V) : Option iterator :=
  match iterator.of_map m.buckets with
  | none => none
  | some it => iterator.push m.buckets it

/-- The method `end()` of `src/hashmap.h`: `iter.cur = iter.end;
iter.biter = buckets.back().end();`. -/
def end_ (m : HashMap K V) : Option iterator :=
  match iterator.of_map m.buckets with
  | none => none
  | some it =>
    match m.buckets.getLast? with
    | none => none
    | some last =>
      some { it with cur := it.end_, biter := ⟨m.buckets.length - 1, last.length⟩ }

/-- The method `find(val)` of `src/hashmap.h`: the chain of the hash is
scanned; on a match the cursor is positioned there, otherwise `end()`. -/
def find (hasher : K → Nat) (m : HashMap K V) (val : K) : Option iterator :=
  match m.buckets[hasher val % m.buckets.length]? with
  | none => none
  | some b =>
    match chain_scan val b with
    | some r =>
      match iterator.of_map m.buckets with
      | none => none
      | some it =>
        some { it with cur := hasher val % m.buckets.length,
                       biter := ⟨hasher val % m.buckets.length, r.1⟩ }
    | none => end_ m

/-- The state of `src/hash_map.h` with the same fields. -/
def to_main (m : HashMap K V) : Aads.HashMap K V :=
  { cur_size := m.cur_size, cur_capacity := m.cur_len, buckets := m.buckets }

end HashMap

/-- The cursor of `src/hash_map.h` with the same fields. -/
def iterator.to_main (it : iterator) : base_hashmap_iterator :=
  { cur := it.cur, end_ := it.end_, biter := it.biter }

end Alt

/-- One call of the mutating interface. -/
inductive call (K V : Type) where
  | insert (val : K × V)
  | erase (key : K)
  | index (key : K)
  | clear

/-- The state after one call on the map of `src/hash_map.h`. -/
def HashMap.run_call {K V : Type} [DecidableEq K] [Inhabited V] (hasher : K → Nat)
    (fuel : Nat) (c : call K V) (m : HashMap K V) : Option (HashMap K V) :=
  match c with
  | .insert val => HashMap.insert hasher m val
  | .erase key => HashMap.erase hasher m key
  | .index key => (HashMap.index_fuel hasher fuel m key).map Prod.fst
  | .clear => HashMap.clear hasher m

/-- The state after a sequence of calls on the map of `src/hash_map.h`. -/
def HashMap.run {K V : Type} [DecidableEq K] [Inhabited V] (hasher : K → Nat)
    (fuel : Nat) (cs : List (call K V)) (m : HashMap K V) : Option (HashMap K V) :=
  cs.foldl (fun acc c => acc.bind (HashMap.run_call hasher fuel c)) (some m)

/-- The state after one call on the map of `src/hashmap.h`. -/
def Alt.HashMap.run_call {K V : Type} [DecidableEq K] [Inhabited V] (hasher : K → Nat)
    (fuel : Nat) (c : call K V) (m : Alt.HashMap K V) : Option (Alt.HashMap K V) :=
  match c with
  | .insert val => Alt.HashMap.insert hasher m val
  | .erase key => Alt.HashMap.erase hasher m key
  | .index key => (Alt.HashMap.index_fuel hasher fuel m key).map Prod.fst
  | .clear => Alt.HashMap.clear hasher m

/-- The state after a sequence of calls on the map of `src/hashmap.h`. -/
def Alt.HashMap.run {K V : Type} [DecidableEq K] [Inhabited V] (hasher : K → Nat)
    (fuel : Nat) (cs : List (call K V)) (m : Alt.HashMap K V) : Option (Alt.HashMap K V) :=
  cs.foldl (fun acc c => acc.bind (Alt.HashMap.run_call hasher fuel c)) (some m)

/-! # Theorems -/

/-! ## Lemmas on chains -/

section chain_lemmas

variable {K V : Type} [DecidableEq K]

theorem chain_scan_eq_none {key : K} {b : List (K × V)} :
    chain_scan key b = none ↔ ∀ e ∈ b, e.1 ≠ key := by
  induction b with
  | nil => simp [chain_scan]
  | cons e rest ih =>
    by_cases h : e.1 = key
    · simp [chain_scan, h]
    · simp [chain_scan, h, ih]

theorem chain_scan_some_getElem? {key : K} {b : List (K × V)} {r : Nat × V}
    (h : chain_scan key b = some r) : b[r.1]? = some (key, r.2) := by
  induction b generalizing r with
  | nil => simp [chain_scan] at h
  | cons e rest ih =>
    by_cases he : e.1 = key
    · simp [chain_scan, he] at h
      subst h
      simp [← he]
    · simp only [chain_scan, he, if_false, Option.map_eq_some'] at h
      obtain ⟨r1, hr1, rfl⟩ := h
      simpa using ih hr1

theorem chain_scan_some_mem {key : K} {b : List (K × V)} {r : Nat × V}
    (h : chain_scan key b = some r) : (key, r.2) ∈ b :=
  List.getElem?_mem (chain_scan_some_getElem? h)

theorem chain_scan_some_first {key : K} {b : List (K × V)} {r : Nat × V}
    (h : chain_scan key b = some r) :
    ∀ j, j < r.1 → ∀ e, b[j]? = some e → e.1 ≠ key := by
  induction b generalizing r with
  | nil => simp [chain_scan] at h
  | cons e rest ih =>
    by_cases he : e.1 = key
    · simp [chain_scan, he] at h
      subst h
      intro j hj
      simp at hj
    · simp only [chain_scan, he, if_false, Option.map_eq_some'] at h
      obtain ⟨r1, hr1, rfl⟩ := h
      intro j hj e1 hj1
      cases j with
      | zero => simp at hj1; subst hj1; exact he
      | succ j => exact ih hr1 j (by simpa using hj) e1 (by simpa using hj1)

/-- In a chain with pairwise distinct keys the scan finds every entry. -/
theorem chain_scan_of_mem {key : K} {v : V} {b : List (K × V)}
    (hnd : (b.map Prod.fst).Nodup) (hm : (key, v) ∈ b) :
    ∃ i, chain_scan key b = some (i, v) := by
  induction b with
  | nil => simp at hm
  | cons e rest ih =>
    rw [List.map_cons, List.nodup_cons] at hnd
    by_cases he : e.1 = key
    · rcases List.mem_cons.1 hm with h | h
      · exact ⟨0, by simp [chain_scan, he, ← h]⟩
      · exact absurd (List.mem_map.2 ⟨(key, v), h, he.symm⟩) hnd.1
    · rcases List.mem_cons.1 hm with h | h
      · exact absurd (by rw [← h]) he
      · obtain ⟨i, hi⟩ := ih hnd.2 h
        exact ⟨i + 1, by simp [chain_scan, he, hi]⟩

theorem erase_first_eq_none {key : K} {b : List (K × V)} :
    erase_first key b = none ↔ ∀ e ∈ b, e.1 ≠ key := by
  induction b with
  | nil => simp [erase_first]
  | cons e rest ih =>
    by_cases h : e.1 = key
    · simp [erase_first, h]
    · simp [erase_first, h, ih]

/-- A successful `erase_first` removes exactly one entry, whose key is `key`. -/
theorem erase_first_some_perm {key : K} {b b1 : List (K × V)}
    (h : erase_first key b = some b1) : ∃ v, b.Perm ((key, v) :: b1) := by
  induction b generalizing b1 with
  | nil => simp [erase_first] at h
  | cons e rest ih =>
    by_cases he : e.1 = key
    · simp [erase_first, he] at h
      subst h
      exact ⟨e.2, by rw [← he]⟩
    · simp only [erase_first, he, if_false, Option.map_eq_some'] at h
      obtain ⟨r1, hr1, rfl⟩ := h
      obtain ⟨v, hv⟩ := ih hr1
      exact ⟨v, (List.Perm.cons e hv).trans (List.Perm.swap _ _ _)⟩

end chain_lemmas

/-! ## Lemmas on bucket tables -/

section table_lemmas

variable {α : Type}

/-- Splitting a table at one chain: the rest does not depend on that chain. -/
theorem flatten_split {bs : List (List α)} {i : Nat} {b : List α} (h : bs[i]? = some b) :
    ∃ rest : List α, bs.flatten.Perm (b ++ rest) ∧
      ∀ b1 : List α, (bs.set i b1).flatten.Perm (b1 ++ rest) := by
  induction bs generalizing i with
  | nil => simp at h
  | cons c cs ih =>
    cases i with
    | zero =>
      simp at h
      subst h
      exact ⟨cs.flatten, by simp, fun b1 => by simp⟩
    | succ i =>
      simp at h
      obtain ⟨rest, h1, h2⟩ := ih h
      refine ⟨c ++ rest, ?_, fun b1 => ?_⟩
      · simp only [List.flatten_cons]
        exact (List.Perm.append_left c h1).trans (by
          rw [← List.append_assoc, ← List.append_assoc]
          exact List.Perm.append_right rest List.perm_append_comm)
      · simp only [List.set_cons_succ, List.flatten_cons]
        exact (List.Perm.append_left c (h2 b1)).trans (by
          rw [← List.append_assoc, ← List.append_assoc]
          exact List.Perm.append_right rest List.perm_append_comm)

theorem flatten_set_cons_perm {bs : List (List α)} {i : Nat} {b : List α} (x : α)
    (h : bs[i]? = some b) : (bs.set i (x :: b)).flatten.Perm (x :: bs.flatten) := by
  obtain ⟨rest, h1, h2⟩ := flatten_split h
  exact (h2 (x :: b)).trans (List.Perm.cons x h1.symm)

theorem modify_cons_eq_set {bs : List (List α)} {i : Nat} {b : List α} (x : α)
    (h : bs[i]? = some b) : bs.modify (fun c => x :: c) i = bs.set i (x :: b) := by
  rw [List.modify_eq_set_get?, List.get?_eq_getElem?, h]
  rfl

theorem mem_flatten_of_getElem? {bs : List (List α)} {i : Nat} {b : List α} {x : α}
    (h : bs[i]? = some b) (hx : x ∈ b) : x ∈ bs.flatten :=
  List.mem_flatten.2 ⟨b, List.getElem?_mem h, hx⟩

theorem sublist_flatten_of_getElem? {bs : List (List α)} {i : Nat} {b : List α}
    (h : bs[i]? = some b) : b.Sublist bs.flatten :=
  List.sublist_flatten_of_mem (List.getElem?_mem h)

end table_lemmas

/-! ## The capacity schedule -/

theorem sizes_length : sizes.length = 24 := rfl

theorem sizes_bounds {c n : Nat} (h : sizes[c]? = some n) :
    c < 24 ∧ 5 ≤ n ∧ n ≤ 52679969 := by
  have hc : c < 24 := by
    obtain ⟨hlt, _⟩ := List.getElem?_eq_some.1 h
    simpa [sizes_length] using hlt
  refine ⟨hc, ?_⟩
  interval_cases c <;> simp [sizes] at h <;> omega

theorem sizes_step {c n n1 : Nat} (h : sizes[c]? = some n) (h1 : sizes[c + 1]? = some n1) :
    2 * n ≤ n1 ∧ n1 ≤ 3 * n := by
  have hc : c < 24 := (sizes_bounds h).1
  interval_cases c <;> simp [sizes] at h h1 <;> omega

theorem sizes_isSome {c : Nat} (hc : c < 24) : ∃ n, sizes[c]? = some n := by
  have : c < sizes.length := by simpa [sizes_length] using hc
  exact ⟨sizes[c], List.getElem?_eq_getElem this⟩

/-! ## Rehashing -/

section rehash_lemmas

variable {α : Type}

theorem foldl_push_length (f : α → Nat) (xs : List α) (nb : List (List α)) :
    (xs.foldl (fun nb x => nb.modify (fun c => x :: c) (f x)) nb).length = nb.length := by
  induction xs generalizing nb with
  | nil => rfl
  | cons x xs ih => simp [ih]

theorem foldl_push_perm (f : α → Nat) (xs : List α) (nb : List (List α))
    (hf : ∀ x ∈ xs, f x < nb.length) :
    (xs.foldl (fun nb x => nb.modify (fun c => x :: c) (f x)) nb).flatten.Perm
      (xs ++ nb.flatten) := by
  induction xs generalizing nb with
  | nil => simp
  | cons x xs ih =>
    have hx : f x < nb.length := hf x (List.mem_cons_self _ _)
    have hb : nb[f x]? = some nb[f x] := List.getElem?_eq_getElem hx
    simp only [List.foldl_cons]
    refine (ih _ (fun y hy => by simpa using hf y (List.mem_cons_of_mem _ hy))).trans ?_
    rw [modify_cons_eq_set x hb]
    refine (List.Perm.append_left xs (flatten_set_cons_perm x hb)).trans ?_
    exact List.perm_middle

theorem foldl_push_placed (f : α → Nat) (xs : List α) (nb : List (List α))
    (hp : ∀ i b, nb[i]? = some b → ∀ e ∈ b, f e = i) :
    ∀ i b, (xs.foldl (fun nb x => nb.modify (fun c => x :: c) (f x)) nb)[i]? = some b →
      ∀ e ∈ b, f e = i := by
  induction xs generalizing nb with
  | nil => simpa using hp
  | cons x xs ih =>
    simp only [List.foldl_cons]
    apply ih
    intro i b hb e he
    by_cases hi : f x = i
    · subst hi
      rw [List.getElem?_modify_eq] at hb
      obtain ⟨c, hc, rfl⟩ := Option.map_eq_some'.1 hb
      rcases List.mem_cons.1 he with h | h
      · rw [h]
      · exact hp _ c hc e h
    · rw [List.getElem?_modify_ne _ _ hi] at hb
      exact hp i b hb e he

end rehash_lemmas

namespace HashMap

variable {K V : Type} [DecidableEq K]

theorem rehash_eq (hasher : K → Nat) (n : Nat) (bs : List (List (K × V))) :
    rehash hasher n bs =
      bs.flatten.foldl (fun nb x => nb.modify (fun c => x :: c) (hasher x.1 % n))
        (List.replicate n []) := by
  unfold rehash
  rw [List.foldl_flatten]

theorem rehash_length (hasher : K → Nat) (n : Nat) (bs : List (List (K × V))) :
    (rehash hasher n bs).length = n := by
  rw [rehash_eq, foldl_push_length]
  simp

theorem rehash_perm (hasher : K → Nat) {n : Nat} (hn : 0 < n) (bs : List (List (K × V))) :
    (rehash hasher n bs).flatten.Perm bs.flatten := by
  rw [rehash_eq]
  refine (foldl_push_perm (fun x : K × V => hasher x.1 % n) bs.flatten _ ?_).trans ?_
  · intro x _
    simpa using Nat.mod_lt _ hn
  · simp

theorem rehash_placed (hasher : K → Nat) (n : Nat) (bs : List (List (K × V))) :
    ∀ i b, (rehash hasher n bs)[i]? = some b → ∀ e ∈ b, hasher e.1 % n = i := by
  rw [rehash_eq]
  apply foldl_push_placed (fun x : K × V => hasher x.1 % n)
  intro i b hb e he
  rw [List.getElem?_replicate] at hb
  split at hb
  · simp at hb; subst hb; simp at he
  · simp at hb

/-! ## Structural invariants: first consequences -/

theorem WF.sound {hasher : K → Nat} {m : HashMap K V} (h : WF hasher m) : Sound hasher m :=
  ⟨h.level, h.placed, h.nodup, h.size⟩

theorem Sound.length_pos {hasher : K → Nat} {m : HashMap K V} (h : Sound hasher m) :
    0 < m.buckets.length := by
  have := (sizes_bounds h.level).2.1
  omega

theorem Sound.bucket {hasher : K → Nat} {m : HashMap K V} (h : Sound hasher m) (key : K) :
    ∃ b, m.buckets[hasher key % m.buckets.length]? = some b :=
  ⟨_, List.getElem?_eq_getElem (Nat.mod_lt _ h.length_pos)⟩

theorem new_wf (hasher : K → Nat) : WF hasher (new : HashMap K V) := by
  refine ⟨by simp [new, sizes], ?_, by simp [new], by simp [new], by simp [new], Or.inl rfl⟩
  intro i b hb e he
  simp only [new, List.getElem?_replicate] at hb
  split at hb
  · simp at hb; subst hb; simp at he
  · simp at hb

/-- The method `change_size` to a level of the schedule keeps the structural
invariants and the entries. -/
theorem change_size_sound {hasher : K → Nat} {m m1 : HashMap K V} {c : Nat}
    (hs : Sound hasher m) (h : change_size hasher m c = some m1) :
    Sound hasher m1 ∧ m1.buckets.flatten.Perm m.buckets.flatten ∧
      m1.cur_size = m.cur_size ∧ m1.cur_capacity = c := by
  unfold change_size at h
  split at h
  · next hc =>
    simp at h
    subst h
    exact ⟨hs, List.Perm.refl _, rfl, hc.symm⟩
  · split at h
    · simp at h
    · next n hn =>
      simp at h
      subst h
      have hpos : 0 < n := by have := (sizes_bounds hn).2.1; omega
      have hperm := rehash_perm hasher hpos m.buckets
      refine ⟨⟨?_, ?_, ?_, ?_⟩, hperm, rfl, rfl⟩
      · simpa [rehash_length] using hn
      · simpa [rehash_length] using rehash_placed hasher n m.buckets
      · exact ((hperm.map Prod.fst).nodup_iff).2 hs.nodup
      · simpa [hperm.length_eq] using hs.size

end HashMap

namespace HashMap

variable {K V : Type} [DecidableEq K]

/-! ## Lookups under the invariants -/

theorem Sound.mem_bucket {hasher : K → Nat} {m : HashMap K V} (hs : Sound hasher m)
    {e : K × V} (he : e ∈ m.entries) :
    ∃ b, m.buckets[hasher e.1 % m.buckets.length]? = some b ∧ e ∈ b := by
  obtain ⟨b, hb, heb⟩ := List.mem_flatten.1 he
  obtain ⟨i, hi⟩ := List.mem_iff_getElem?.1 hb
  have := hs.placed i b hi e heb
  exact ⟨b, by rw [this]; exact hi, heb⟩

theorem Sound.nodup_bucket {hasher : K → Nat} {m : HashMap K V} (hs : Sound hasher m)
    {i : Nat} {b : List (K × V)} (hb : m.buckets[i]? = some b) : (b.map Prod.fst).Nodup :=
  List.Nodup.sublist ((sublist_flatten_of_getElem? hb).map Prod.fst) hs.nodup

/-- The scan of the chain of `hash(key)` sees exactly the entries of the table. -/
theorem Sound.scan_iff {hasher : K → Nat} {m : HashMap K V} (hs : Sound hasher m)
    {key : K} {b : List (K × V)} (hb : m.buckets[hasher key % m.buckets.length]? = some b)
    (v : V) : (∃ i, chain_scan key b = some (i, v)) ↔ (key, v) ∈ m.entries := by
  constructor
  · rintro ⟨i, hi⟩
    exact mem_flatten_of_getElem? hb (chain_scan_some_mem hi)
  · intro hm
    obtain ⟨b1, hb1, hm1⟩ := hs.mem_bucket hm
    rw [hb] at hb1
    cases hb1
    exact chain_scan_of_mem (hs.nodup_bucket hb) hm1

theorem Sound.scan_none_iff {hasher : K → Nat} {m : HashMap K V} (hs : Sound hasher m)
    {key : K} {b : List (K × V)} (hb : m.buckets[hasher key % m.buckets.length]? = some b) :
    chain_scan key b = none ↔ ∀ v, (key, v) ∉ m.entries := by
  constructor
  · intro hn v hv
    obtain ⟨i, hi⟩ := (hs.scan_iff hb v).2 hv
    rw [hn] at hi
    cases hi
  · intro h
    cases hsc : chain_scan key b with
    | none => rfl
    | some r => exact absurd ((hs.scan_iff hb r.2).1 ⟨r.1, hsc⟩) (h r.2)

theorem Sound.at_value_iff {hasher : K → Nat} {m : HashMap K V} (hs : Sound hasher m)
    (key : K) (v : V) : at_ hasher m key = .value v ↔ (key, v) ∈ m.entries := by
  obtain ⟨b, hb⟩ := hs.bucket key
  rw [← hs.scan_iff hb v]
  cases hsc : chain_scan key b with
  | none => simp [at_, hb, hsc]
  | some r =>
    obtain ⟨i, w⟩ := r
    simp [at_, hb, hsc]

theorem Sound.at_out_of_range_iff {hasher : K → Nat} {m : HashMap K V} (hs : Sound hasher m)
    (key : K) : at_ hasher m key = .out_of_range ↔ ∀ v, (key, v) ∉ m.entries := by
  obtain ⟨b, hb⟩ := hs.bucket key
  rw [← hs.scan_none_iff hb]
  cases hsc : chain_scan key b with
  | none => simp [at_, hb, hsc]
  | some r => simp [at_, hb, hsc]

theorem Sound.at_ne_undefined {hasher : K → Nat} {m : HashMap K V} (hs : Sound hasher m)
    (key : K) : at_ hasher m key ≠ .undefined := by
  obtain ⟨b, hb⟩ := hs.bucket key
  cases hsc : chain_scan key b with
  | none => simp [at_, hb, hsc]
  | some r => simp [at_, hb, hsc]

theorem Sound.count_eq_one_iff {hasher : K → Nat} {m : HashMap K V} (hs : Sound hasher m)
    (key : K) : count hasher m key = some 1 ↔ ∃ v, (key, v) ∈ m.entries := by
  obtain ⟨b, hb⟩ := hs.bucket key
  cases hsc : chain_scan key b with
  | none =>
    have := (hs.scan_none_iff hb).1 hsc
    simpa [count, hb, hsc] using this
  | some r =>
    have := (hs.scan_iff hb r.2).1 ⟨r.1, hsc⟩
    simpa [count, hb, hsc] using ⟨r.2, this⟩

theorem Sound.count_eq_zero_iff {hasher : K → Nat} {m : HashMap K V} (hs : Sound hasher m)
    (key : K) : count hasher m key = some 0 ↔ ∀ v, (key, v) ∉ m.entries := by
  obtain ⟨b, hb⟩ := hs.bucket key
  cases hsc : chain_scan key b with
  | none =>
    have := (hs.scan_none_iff hb).1 hsc
    simpa [count, hb, hsc] using this
  | some r =>
    have := (hs.scan_iff hb r.2).1 ⟨r.1, hsc⟩
    simpa [count, hb, hsc] using ⟨r.2, this⟩

theorem Sound.count_isSome {hasher : K → Nat} {m : HashMap K V} (hs : Sound hasher m)
    (key : K) : count hasher m key = some 0 ∨ count hasher m key = some 1 := by
  obtain ⟨b, hb⟩ := hs.bucket key
  cases hsc : chain_scan key b with
  | none => simp [count, hb, hsc]
  | some r => simp [count, hb, hsc]

/-- Two tables with the invariants and the same entries for `key` answer
`at(key)` alike. -/
theorem Sound.at_congr {hasher : K → Nat} {m m1 : HashMap K V} (hs : Sound hasher m)
    (hs1 : Sound hasher m1) {key : K}
    (h : ∀ v, (key, v) ∈ m1.entries ↔ (key, v) ∈ m.entries) :
    at_ hasher m1 key = at_ hasher m key := by
  cases hm : at_ hasher m key with
  | value v => exact (hs1.at_value_iff key v).2 ((h v).2 ((hs.at_value_iff key v).1 hm))
  | out_of_range =>
    exact (hs1.at_out_of_range_iff key).2
      (fun v hv => (hs.at_out_of_range_iff key).1 hm v ((h v).1 hv))
  | undefined => exact absurd hm (hs.at_ne_undefined key)

/-! ## The resize policy under the invariants -/

theorem load_factor_eq {hasher : K → Nat} {m : HashMap K V} (hs : Sound hasher m)
    (hsz : m.cur_size * 100 < size_t_mod) :
    load_factor m = some (m.cur_size * 100 / m.buckets.length) := by
  unfold load_factor
  rw [hs.level, Nat.mod_eq_of_lt hsz]

theorem WF.size_bound {hasher : K → Nat} {m : HashMap K V} (h : WF hasher m) :
    m.cur_size * 100 < 131 * m.buckets.length ∧ m.buckets.length ≤ 52679969 ∧
      5 ≤ m.buckets.length := by
  have hb := sizes_bounds h.level
  have hpos : 0 < m.buckets.length := by omega
  have := h.band_hi
  unfold growLoadFactorThreshold at this
  have h2 : m.cur_size * 100 / m.buckets.length < 131 := by omega
  rw [Nat.div_lt_iff_lt_mul hpos] at h2
  omega

theorem WF.lo_bound {hasher : K → Nat} {m : HashMap K V} (h : WF hasher m) :
    m.cur_capacity = 0 ∨ 30 * m.buckets.length ≤ m.cur_size * 100 := by
  have hb := sizes_bounds h.level
  have hpos : 0 < m.buckets.length := by omega
  rcases h.band_lo with h0 | h1
  · exact Or.inl h0
  · unfold shrintLoadFactorThreshold at h1
    rw [Nat.le_div_iff_mul_le hpos] at h1
    exact Or.inr h1

theorem WF.of_sound {hasher : K → Nat} {m : HashMap K V} (hs : Sound hasher m)
    (hi : m.cur_size * 100 < 131 * m.buckets.length)
    (lo : m.cur_capacity = 0 ∨ 30 * m.buckets.length ≤ m.cur_size * 100) : WF hasher m := by
  have hpos := hs.length_pos
  refine ⟨hs.level, hs.placed, hs.nodup, hs.size, ?_, ?_⟩
  · unfold growLoadFactorThreshold
    have : m.cur_size * 100 / m.buckets.length < 131 := by
      rw [Nat.div_lt_iff_lt_mul hpos]; omega
    omega
  · rcases lo with h0 | h1
    · exact Or.inl h0
    · right
      unfold shrintLoadFactorThreshold
      rw [Nat.le_div_iff_mul_le hpos]
      exact h1

/-- The grow check after one entry was added to a map in the band. -/
theorem trySizeUp_wf {hasher : K → Nat} {m1 m2 : HashMap K V} {flag : Bool}
    (hs : Sound hasher m1)
    (hi : m1.cur_size * 100 < 131 * m1.buckets.length + 100)
    (lo : m1.cur_capacity = 0 ∨ 30 * m1.buckets.length ≤ m1.cur_size * 100)
    (h : trySizeUp hasher m1 = some (m2, flag)) :
    WF hasher m2 ∧ m2.entries.Perm m1.entries ∧ m2.cur_size = m1.cur_size ∧
      (flag = false → m2 = m1) ∧
      (flag = true → m2.cur_capacity = m1.cur_capacity + 1) ∧
      (flag = true ↔ growLoadFactorThreshold < m1.cur_size * 100 / m1.buckets.length) := by
  have hb := sizes_bounds hs.level
  have hpos := hs.length_pos
  have hsz : m1.cur_size * 100 < size_t_mod := by unfold size_t_mod; omega
  unfold trySizeUp at h
  rw [load_factor_eq hs hsz] at h
  simp only at h
  split at h
  · next hgt =>
    obtain ⟨m3, hm3, heq⟩ := Option.map_eq_some'.1 h
    simp only [Prod.mk.injEq] at heq
    obtain ⟨rfl, rfl⟩ := heq
    obtain ⟨hs3, hperm, hsize, hcap⟩ := change_size_sound hs hm3
    have hlev := hs3.level
    rw [hcap] at hlev
    have hstep := sizes_step hs.level hlev
    unfold growLoadFactorThreshold at hgt
    have hge : 131 ≤ m1.cur_size * 100 / m1.buckets.length := hgt
    rw [Nat.le_div_iff_mul_le hpos] at hge
    refine ⟨WF.of_sound hs3 (by rw [hsize]; omega) (Or.inr (by rw [hsize]; omega)),
      hperm, hsize, by simp, fun _ => hcap, by simpa [growLoadFactorThreshold] using hgt⟩
  · next hle =>
    simp only [Option.some.injEq, Prod.mk.injEq] at h
    obtain ⟨rfl, rfl⟩ := h
    unfold growLoadFactorThreshold at hle
    have hlt : m1.cur_size * 100 / m1.buckets.length < 131 := by omega
    rw [Nat.div_lt_iff_lt_mul hpos] at hlt
    refine ⟨WF.of_sound hs (by omega) lo, List.Perm.refl _, rfl, fun _ => rfl, by simp, ?_⟩
    simp [growLoadFactorThreshold]
    omega

theorem trySizeUp_isSome {hasher : K → Nat} {m1 : HashMap K V}
    (hs : Sound hasher m1) (hsz : m1.cur_size * 100 < size_t_mod)
    (hc : m1.cur_capacity < 23) : ∃ r, trySizeUp hasher m1 = some r := by
  unfold trySizeUp
  rw [load_factor_eq hs hsz]
  simp only
  split
  · obtain ⟨n, hn⟩ := sizes_isSome (show m1.cur_capacity + 1 < 24 by omega)
    unfold change_size
    simp [hn]
  · exact ⟨_, rfl⟩

/-- The shrink check after at most one entry was removed from a map in the band. -/
theorem trySizeDown_wf {hasher : K → Nat} {m1 m2 : HashMap K V} {flag : Bool}
    (hs : Sound hasher m1)
    (hi : m1.cur_size * 100 < 131 * m1.buckets.length)
    (lo : m1.cur_capacity = 0 ∨ 30 * m1.buckets.length ≤ (m1.cur_size + 1) * 100)
    (h : trySizeDown hasher m1 = some (m2, flag)) :
    WF hasher m2 ∧ m2.entries.Perm m1.entries ∧ m2.cur_size = m1.cur_size ∧
      (flag = false → m2 = m1) ∧
      (flag = true → m2.cur_capacity + 1 = m1.cur_capacity) ∧
      (flag = true ↔ m1.cur_size * 100 / m1.buckets.length < shrintLoadFactorThreshold ∧
        0 < m1.cur_capacity) := by
  have hb := sizes_bounds hs.level
  have hpos := hs.length_pos
  have hsz : m1.cur_size * 100 < size_t_mod := by unfold size_t_mod; omega
  unfold trySizeDown at h
  rw [load_factor_eq hs hsz] at h
  simp only at h
  split at h
  · next hlt =>
    obtain ⟨m3, hm3, heq⟩ := Option.map_eq_some'.1 h
    simp only [Prod.mk.injEq] at heq
    obtain ⟨rfl, rfl⟩ := heq
    obtain ⟨hs3, hperm, hsize, hcap⟩ := change_size_sound hs hm3
    have hlev := hs3.level
    rw [hcap] at hlev
    have hlev1 := hs.level
    have hc1 : m1.cur_capacity = (m1.cur_capacity - 1) + 1 := by omega
    rw [hc1] at hlev1
    have hstep := sizes_step hlev hlev1
    have hb3 := sizes_bounds hlev
    have hlt1 := hlt.1
    unfold shrintLoadFactorThreshold at hlt1
    rw [Nat.div_lt_iff_lt_mul hpos] at hlt1
    have hlo : 30 * m1.buckets.length ≤ (m1.cur_size + 1) * 100 := by
      rcases lo with h0 | h1
      · omega
      · exact h1
    refine ⟨WF.of_sound hs3 (by rw [hsize]; omega) (Or.inr (by rw [hsize]; omega)),
      hperm, hsize, by simp, fun _ => by omega, by simpa using hlt⟩
  · next hnot =>
    simp only [Option.some.injEq, Prod.mk.injEq] at h
    obtain ⟨rfl, rfl⟩ := h
    refine ⟨WF.of_sound hs hi ?_, List.Perm.refl _, rfl, fun _ => rfl, by simp, by simpa using hnot⟩
    by_cases h0 : m1.cur_capacity = 0
    · exact Or.inl h0
    · right
      have : ¬ m1.cur_size * 100 / m1.buckets.length < shrintLoadFactorThreshold := by
        intro hh
        exact hnot ⟨hh, by omega⟩
      unfold shrintLoadFactorThreshold at this
      have h30 : 30 ≤ m1.cur_size * 100 / m1.buckets.length := by omega
      rw [Nat.le_div_iff_mul_le hpos] at h30
      omega

theorem trySizeDown_isSome {hasher : K → Nat} {m1 : HashMap K V}
    (hs : Sound hasher m1) (hsz : m1.cur_size * 100 < size_t_mod) :
    ∃ r, trySizeDown hasher m1 = some r := by
  have hb := sizes_bounds hs.level
  unfold trySizeDown
  rw [load_factor_eq hs hsz]
  simp only
  split
  · next hlt =>
    obtain ⟨n, hn⟩ := sizes_isSome (show m1.cur_capacity - 1 < 24 by omega)
    have hne : m1.cur_capacity - 1 ≠ m1.cur_capacity := by omega
    unfold change_size
    simp [hn, hne]
  · exact ⟨_, rfl⟩

/-- On a map in the band the shrink check does nothing. -/
theorem trySizeDown_noop {hasher : K → Nat} {m : HashMap K V} (h : WF hasher m) :
    trySizeDown hasher m = some (m, false) := by
  have hb := h.size_bound
  have hpos := h.sound.length_pos
  have hsz : m.cur_size * 100 < size_t_mod := by unfold size_t_mod; omega
  unfold trySizeDown
  rw [load_factor_eq h.sound hsz]
  simp only
  rw [if_neg]
  rintro ⟨h1, h2⟩
  rcases h.band_lo with h0 | h3
  · omega
  · omega

end HashMap

namespace HashMap

variable {K V : Type} [DecidableEq K]

/-! ## insert -/

/-- The state of `insert` between `++cur_size` and `trySizeUp()`. -/
theorem insert_mid_sound {hasher : K → Nat} {m : HashMap K V} (h : WF hasher m)
    (val : K × V) (habs : ∀ v, (val.1, v) ∉ m.entries) {b : List (K × V)}
    (hb : m.buckets[hasher val.1 % m.buckets.length]? = some b) :
    Sound hasher
        { m with
          buckets := m.buckets.set (hasher val.1 % m.buckets.length) (val :: b)
          cur_size := (m.cur_size + 1) % size_t_mod } ∧
      (m.buckets.set (hasher val.1 % m.buckets.length) (val :: b)).flatten.Perm
        (val :: m.entries) ∧
      (m.cur_size + 1) % size_t_mod = m.cur_size + 1 := by
  have hbd := h.size_bound
  have hperm := flatten_set_cons_perm val hb
  have hsz : (m.cur_size + 1) % size_t_mod = m.cur_size + 1 := by
    apply Nat.mod_eq_of_lt
    unfold size_t_mod
    omega
  refine ⟨⟨?_, ?_, ?_, ?_⟩, hperm, hsz⟩
  · simpa using h.level
  · intro i c hc e he
    simp only [List.length_set]
    simp only [List.getElem?_set] at hc
    split at hc
    · next hi =>
      split at hc
      · simp only [Option.some.injEq] at hc
        subst hc
        rcases List.mem_cons.1 he with he1 | he1
        · rw [he1]; exact hi
        · rw [← hi]; exact h.placed _ b hb e he1
      · cases hc
    · exact h.placed i c hc e he
  · simp only
    rw [(hperm.map Prod.fst).nodup_iff, List.map_cons, List.nodup_cons]
    refine ⟨?_, h.nodup⟩
    intro hmem
    obtain ⟨e, he, hek⟩ := List.mem_map.1 hmem
    exact habs e.2 (by rw [← hek]; exact he)
  · simp only
    rw [hsz, hperm.length_eq, List.length_cons, h.size]

theorem insert_unfold_absent {hasher : K → Nat} {m : HashMap K V} (h : WF hasher m)
    (val : K × V) (habs : ∀ v, (val.1, v) ∉ m.entries) {b : List (K × V)}
    (hb : m.buckets[hasher val.1 % m.buckets.length]? = some b) :
    insert hasher m val =
      (trySizeUp hasher
        { m with
          buckets := m.buckets.set (hasher val.1 % m.buckets.length) (val :: b)
          cur_size := (m.cur_size + 1) % size_t_mod }).map Prod.fst := by
  unfold insert
  rw [(h.sound.count_eq_zero_iff val.1).2 habs]
  simp only [ne_eq, not_true_eq_false, if_false]
  rw [modify_cons_eq_set val hb]

/-- Inserting an absent key adds exactly that entry and keeps the invariants. -/
theorem insert_absent {hasher : K → Nat} {m m1 : HashMap K V} (h : WF hasher m)
    (val : K × V) (habs : ∀ v, (val.1, v) ∉ m.entries)
    (hi : insert hasher m val = some m1) :
    WF hasher m1 ∧ m1.entries.Perm (val :: m.entries) ∧ m1.cur_size = m.cur_size + 1 := by
  obtain ⟨b, hb⟩ := h.sound.bucket val.1
  rw [insert_unfold_absent h val habs hb] at hi
  obtain ⟨r, hr, rfl⟩ := Option.map_eq_some'.1 hi
  obtain ⟨m2, flag⟩ := r
  obtain ⟨hs1, hperm, hsz⟩ := insert_mid_sound h val habs hb
  have hbd := h.size_bound
  obtain ⟨hwf, hp2, hs2, _⟩ := trySizeUp_wf hs1
    (by simp only [List.length_set]; rw [hsz]; omega)
    (by
      simp only [List.length_set]
      rcases h.lo_bound with h0 | h1
      · exact Or.inl h0
      · right; rw [hsz]; omega) hr
  exact ⟨hwf, hp2.trans hperm, by rw [hs2]; exact hsz⟩

/-- Below the last level of the schedule `insert` always returns. -/
theorem insert_isSome {hasher : K → Nat} {m : HashMap K V} (h : WF hasher m)
    (hc : m.cur_capacity < 23) (val : K × V) : ∃ m1, insert hasher m val = some m1 := by
  by_cases habs : ∀ v, (val.1, v) ∉ m.entries
  · obtain ⟨b, hb⟩ := h.sound.bucket val.1
    rw [insert_unfold_absent h val habs hb]
    obtain ⟨hs1, _, hsz⟩ := insert_mid_sound h val habs hb
    have hbd := h.size_bound
    obtain ⟨r, hr⟩ := trySizeUp_isSome hs1
      (by simp only; rw [hsz]; unfold size_t_mod; omega) hc
    exact ⟨r.1, by rw [hr]; rfl⟩
  · have hex : ∃ v, (val.1, v) ∈ m.entries := by
      by_contra hcon
      exact habs (fun v hv => hcon ⟨v, hv⟩)
    unfold insert
    rw [(h.sound.count_eq_one_iff val.1).2 hex]
    exact ⟨m, by simp⟩

/-- Inserting a present key changes nothing. -/
theorem insert_present {hasher : K → Nat} {m : HashMap K V} (h : WF hasher m)
    (val : K × V) (hex : ∃ v, (val.1, v) ∈ m.entries) : insert hasher m val = some m := by
  unfold insert
  rw [(h.sound.count_eq_one_iff val.1).2 hex]
  simp

theorem insert_wf {hasher : K → Nat} {m m1 : HashMap K V} (h : WF hasher m)
    {val : K × V} (hi : insert hasher m val = some m1) : WF hasher m1 := by
  by_cases habs : ∀ v, (val.1, v) ∉ m.entries
  · exact (insert_absent h val habs hi).1
  · have hex : ∃ v, (val.1, v) ∈ m.entries := by
      by_contra hcon
      exact habs (fun v hv => hcon ⟨v, hv⟩)
    rw [insert_present h val hex] at hi
    cases hi
    exact h

/-! ## erase -/

theorem erase_absent {hasher : K → Nat} {m : HashMap K V} (h : WF hasher m)
    {key : K} (habs : ∀ v, (key, v) ∉ m.entries) : erase hasher m key = some m := by
  obtain ⟨b, hb⟩ := h.sound.bucket key
  have hn : erase_first key b = none :=
    erase_first_eq_none.2 (chain_scan_eq_none.1 ((h.sound.scan_none_iff hb).2 habs))
  unfold erase
  rw [hb]
  simp only [hn]
  rw [trySizeDown_noop h]
  rfl

/-- Erasing a present key removes exactly its entry and keeps the invariants. -/
theorem erase_present {hasher : K → Nat} {m : HashMap K V} (h : WF hasher m)
    {key : K} {v : V} (hex : (key, v) ∈ m.entries) :
    ∃ m1, erase hasher m key = some m1 ∧ WF hasher m1 ∧
      m.entries.Perm ((key, v) :: m1.entries) ∧ m1.cur_size + 1 = m.cur_size := by
  obtain ⟨b, hb, hmem⟩ := h.sound.mem_bucket hex
  simp only at hb
  have hbd := h.size_bound
  have hne : erase_first key b ≠ none := by
    intro hn
    exact erase_first_eq_none.1 hn _ hmem rfl
  obtain ⟨b1, hb1⟩ := Option.ne_none_iff_exists'.1 hne
  obtain ⟨w, hw⟩ := erase_first_some_perm hb1
  obtain ⟨rest, hr1, hr2⟩ := flatten_split hb
  have hperm : m.entries.Perm ((key, w) :: (m.buckets.set (hasher key % m.buckets.length) b1).flatten) :=
    (hr1.trans (List.Perm.append_right rest hw)).trans (List.Perm.cons _ (hr2 b1).symm)
  have hwv : w = v := by
    have hnd := (hperm.map Prod.fst).nodup_iff.1 h.nodup
    rw [List.map_cons, List.nodup_cons] at hnd
    rcases List.mem_cons.1 (hperm.subset hex) with heq | hin
    · exact (Prod.mk.inj heq).2.symm
    · exact absurd (List.mem_map.2 ⟨(key, v), hin, rfl⟩) hnd.1
  subst hwv
  have hlen := hperm.length_eq
  rw [List.length_cons] at hlen
  have hsize : (m.cur_size + size_t_mod - 1) % size_t_mod = m.cur_size - 1 := by
    have h1 : 1 ≤ m.cur_size := by
      rw [h.size]; unfold entries at hlen; omega
    have h2 : m.cur_size + size_t_mod - 1 = (m.cur_size - 1) + size_t_mod := by omega
    rw [h2, Nat.add_mod_right]
    apply Nat.mod_eq_of_lt
    unfold size_t_mod
    omega
  have hs1 : Sound hasher
      { m with
        buckets := m.buckets.set (hasher key % m.buckets.length) b1
        cur_size := (m.cur_size + size_t_mod - 1) % size_t_mod } := by
    refine ⟨?_, ?_, ?_, ?_⟩
    · simpa using h.level
    · intro i c hc e he
      simp only [List.length_set]
      simp only [List.getElem?_set] at hc
      split at hc
      · next hi =>
        split at hc
        · simp only [Option.some.injEq] at hc
          subst hc
          rw [← hi]
          exact h.placed _ b hb e (hw.symm.subset (List.mem_cons_of_mem _ he))
        · cases hc
      · exact h.placed i c hc e he
    · have hnd := (hperm.map Prod.fst).nodup_iff.1 h.nodup
      rw [List.map_cons, List.nodup_cons] at hnd
      exact hnd.2
    · simp only
      rw [hsize, h.size]
      unfold entries at hlen
      omega
  obtain ⟨r, hr⟩ := trySizeDown_isSome hs1
    (by simp only; rw [hsize]; unfold size_t_mod; omega)
  obtain ⟨m2, flag⟩ := r
  obtain ⟨hwf, hp2, hs2, _⟩ := trySizeDown_wf hs1
    (by simp only [List.length_set]; rw [hsize]; omega)
    (by
      simp only [List.length_set]
      rcases h.lo_bound with h0 | h1
      · exact Or.inl h0
      · right
        rw [hsize]
        have : 1 ≤ m.cur_size := by rw [h.size]; unfold entries at hlen; omega
        omega) hr
  refine ⟨m2, ?_, hwf, hperm.trans (List.Perm.cons _ hp2.symm), ?_⟩
  · unfold erase
    rw [hb]
    simp only [hb1]
    rw [hr]
    rfl
  · rw [hs2]
    simp only
    rw [hsize]
    have : 1 ≤ m.cur_size := by rw [h.size]; unfold entries at hlen; omega
    omega

theorem erase_wf {hasher : K → Nat} {m m1 : HashMap K V} (h : WF hasher m)
    {key : K} (he : erase hasher m key = some m1) : WF hasher m1 := by
  by_cases habs : ∀ v, (key, v) ∉ m.entries
  · rw [erase_absent h habs] at he
    cases he
    exact h
  · have hex : ∃ v, (key, v) ∈ m.entries := by
      by_contra hcon
      exact habs (fun v hv => hcon ⟨v, hv⟩)
    obtain ⟨v, hv⟩ := hex
    obtain ⟨m2, h2, hwf, _⟩ := erase_present h hv
    rw [h2] at he
    cases he
    exact hwf

/-! ## clear -/

theorem clear_eq {hasher : K → Nat} {m : HashMap K V} (h : WF hasher m) :
    clear hasher m = some new := by
  have h0 : sizes[0]? = some 5 := rfl
  unfold clear change_size
  simp only
  split
  · next hc =>
    have hl := h.level
    rw [← hc, h0] at hl
    simp only [Option.some.injEq] at hl
    simp only [new, Option.some.injEq]
    rw [← hc]
    congr 1
    rw [List.eq_replicate_iff]
    constructor
    · simp [← hl, sizes]
    · intro c hc1
      obtain ⟨_, _, rfl⟩ := List.mem_map.1 hc1
      rfl
  · rw [h0]
    simp only [new, Option.some.injEq]
    congr 1
    rw [rehash_eq]
    simp [sizes]

end HashMap

theorem list_split {α : Type} {b : List α} {p : Nat} {e : α} (h : b[p]? = some e) :
    ∃ rest : List α, b.Perm (e :: rest) ∧ ∀ x : α, (b.set p x).Perm (x :: rest) := by
  induction b generalizing p with
  | nil => simp at h
  | cons c cs ih =>
    cases p with
    | zero =>
      simp at h
      subst h
      exact ⟨cs, List.Perm.refl _, fun x => by simp⟩
    | succ p =>
      simp at h
      obtain ⟨rest, h1, h2⟩ := ih h
      refine ⟨c :: rest, ?_, fun x => ?_⟩
      · exact (List.Perm.cons c h1).trans (List.Perm.swap _ _ _)
      · simp only [List.set_cons_succ]
        exact (List.Perm.cons c (h2 x)).trans (List.Perm.swap _ _ _)

namespace HashMap

variable {K V : Type} [DecidableEq K]

theorem designates.read {m : HashMap K V} {r : value_ref} {key : K} {v : V}
    (h : designates m r key v) : read m r = some v := by
  obtain ⟨b, hb, hp⟩ := h
  simp [HashMap.read, hb, hp]

theorem designates.mem {m : HashMap K V} {r : value_ref} {key : K} {v : V}
    (h : designates m r key v) : (key, v) ∈ m.entries := by
  obtain ⟨b, hb, hp⟩ := h
  exact mem_flatten_of_getElem? hb (List.getElem?_mem hp)

/-! ## operator[] -/

/-- On a present key `operator[]` returns at once: the map is unchanged and
the reference designates the stored entry. -/
theorem index_present [Inhabited V] {hasher : K → Nat} {m : HashMap K V} (h : WF hasher m)
    {key : K} {v : V} (hex : (key, v) ∈ m.entries) :
    ∃ r, (∀ fuel, index_fuel hasher (fuel + 1) m key = some (m, r)) ∧
      designates m r key v := by
  obtain ⟨b, hb⟩ := h.sound.bucket key
  obtain ⟨i, hi⟩ := (h.sound.scan_iff hb v).2 hex
  refine ⟨⟨hasher key % m.buckets.length, i⟩, fun fuel => ?_, b, hb,
    chain_scan_some_getElem? hi⟩
  simp only [index_fuel, h.level, hb, hi]

theorem index_unfold_absent [Inhabited V] {hasher : K → Nat} {m : HashMap K V}
    (h : WF hasher m) {key : K} (habs : ∀ v, (key, v) ∉ m.entries) {b : List (K × V)}
    (hb : m.buckets[hasher key % m.buckets.length]? = some b) (fuel : Nat) :
    index_fuel hasher (fuel + 1) m key =
      match trySizeUp hasher
          { m with
            buckets := m.buckets.set (hasher key % m.buckets.length) ((key, default) :: b)
            cur_size := (m.cur_size + 1) % size_t_mod } with
      | none => none
      | some (m1, true) => index_fuel hasher fuel m1 key
      | some (m1, false) => some (m1, ⟨hasher key % m.buckets.length, 0⟩) := by
  have hn := (h.sound.scan_none_iff hb).2 habs
  simp only [index_fuel, h.level, hb, hn]

/-- On an absent key `operator[]` adds the entry `(key, ValueType())`, keeps
the invariants, and returns a reference to that entry in the final table. -/
theorem index_absent [Inhabited V] {hasher : K → Nat} {m m1 : HashMap K V} {r : value_ref}
    (h : WF hasher m) {key : K} (habs : ∀ v, (key, v) ∉ m.entries) {fuel : Nat}
    (hi : index_fuel hasher fuel m key = some (m1, r)) :
    WF hasher m1 ∧ m1.entries.Perm ((key, default) :: m.entries) ∧
      m1.cur_size = m.cur_size + 1 ∧ designates m1 r key default := by
  cases fuel with
  | zero => simp [index_fuel] at hi
  | succ fuel =>
    obtain ⟨b, hb⟩ := h.sound.bucket key
    rw [index_unfold_absent h habs hb] at hi
    obtain ⟨hs1, hperm, hsz⟩ :=
      insert_mid_sound h (key, (default : V)) habs hb
    have hbd := h.size_bound
    cases hts : trySizeUp hasher
          { m with
            buckets := m.buckets.set (hasher key % m.buckets.length) ((key, default) :: b)
            cur_size := (m.cur_size + 1) % size_t_mod } with
    | none => rw [hts] at hi; cases hi
    | some res =>
      obtain ⟨m2, flag⟩ := res
      rw [hts] at hi
      obtain ⟨hwf, hp2, hs2, hfalse, _⟩ := trySizeUp_wf hs1
        (by simp only [List.length_set]; rw [hsz]; omega)
        (by
          simp only [List.length_set]
          rcases h.lo_bound with h0 | h1
          · exact Or.inl h0
          · right; rw [hsz]; omega) hts
      cases flag with
      | false =>
        simp only [Option.some.injEq, Prod.mk.injEq] at hi
        obtain ⟨rfl, rfl⟩ := hi
        have := hfalse rfl
        subst this
        refine ⟨hwf, hperm, hsz, (key, default) :: b, ?_, by simp⟩
        exact List.getElem?_set_self (Nat.mod_lt (hasher key) h.sound.length_pos)
      | true =>
        simp only at hi
        have hmem : (key, (default : V)) ∈ m2.entries :=
          hp2.symm.subset (hperm.symm.subset (List.mem_cons_self _ _))
        cases fuel with
        | zero => simp [index_fuel] at hi
        | succ fuel =>
          obtain ⟨r1, hr1, hd⟩ := index_present hwf hmem
          rw [hr1 fuel] at hi
          simp only [Option.some.injEq, Prod.mk.injEq] at hi
          obtain ⟨rfl, rfl⟩ := hi
          exact ⟨hwf, hp2.trans hperm, by rw [hs2]; exact hsz, hd⟩

/-- Below the last level two levels of self-call are enough for `operator[]`
to return, and more fuel does not change the result. -/
theorem index_isSome [Inhabited V] {hasher : K → Nat} {m : HashMap K V} (h : WF hasher m)
    (hc : m.cur_capacity < 23) (key : K) (fuel : Nat) :
    ∃ res, index_fuel hasher 2 m key = some res ∧
      index_fuel hasher (fuel + 2) m key = some res := by
  by_cases habs : ∀ v, (key, v) ∉ m.entries
  · obtain ⟨b, hb⟩ := h.sound.bucket key
    rw [index_unfold_absent h habs hb, index_unfold_absent h habs hb]
    obtain ⟨hs1, hperm, hsz⟩ :=
      insert_mid_sound h (key, (default : V)) habs hb
    have hbd := h.size_bound
    obtain ⟨res, hts⟩ := trySizeUp_isSome hs1
      (by simp only; rw [hsz]; unfold size_t_mod; omega) hc
    obtain ⟨m2, flag⟩ := res
    obtain ⟨hwf, hp2, _⟩ := trySizeUp_wf hs1
      (by simp only [List.length_set]; rw [hsz]; omega)
      (by
        simp only [List.length_set]
        rcases h.lo_bound with h0 | h1
        · exact Or.inl h0
        · right; rw [hsz]; omega) hts
    rw [hts]
    cases flag with
    | false => exact ⟨_, rfl, rfl⟩
    | true =>
      simp only
      have hmem : (key, (default : V)) ∈ m2.entries :=
        hp2.symm.subset (hperm.symm.subset (List.mem_cons_self _ _))
      obtain ⟨r1, hr1, _⟩ := index_present hwf hmem
      exact ⟨_, hr1 0, hr1 fuel⟩
  · have hex : ∃ v, (key, v) ∈ m.entries := by
      by_contra hcon
      exact habs (fun v hv => hcon ⟨v, hv⟩)
    obtain ⟨v, hv⟩ := hex
    obtain ⟨r1, hr1, _⟩ := index_present h hv
    exact ⟨_, hr1 1, hr1 (fuel + 1)⟩

theorem index_wf [Inhabited V] {hasher : K → Nat} {m m1 : HashMap K V} {r : value_ref}
    (h : WF hasher m) {key : K} {fuel : Nat}
    (hi : index_fuel hasher fuel m key = some (m1, r)) : WF hasher m1 := by
  by_cases habs : ∀ v, (key, v) ∉ m.entries
  · exact (index_absent h habs hi).1
  · have hex : ∃ v, (key, v) ∈ m.entries := by
      by_contra hcon
      exact habs (fun v hv => hcon ⟨v, hv⟩)
    obtain ⟨v, hv⟩ := hex
    cases fuel with
    | zero => simp [index_fuel] at hi
    | succ fuel =>
      obtain ⟨r1, hr1, _⟩ := index_present h hv
      rw [hr1 fuel] at hi
      simp only [Option.some.injEq, Prod.mk.injEq] at hi
      rw [← hi.1]
      exact h

/-! ## Assignment through a reference -/

/-- Assigning through a reference replaces the value of one entry, keeps its
key, and keeps the invariants. -/
theorem write_spec {hasher : K → Nat} {m m1 : HashMap K V} {r : value_ref} {v : V}
    (h : WF hasher m) (hw : write m r v = some m1) :
    WF hasher m1 ∧ ∃ (e : K × V) (rest : List (K × V)), designates m r e.1 e.2 ∧
      designates m1 r e.1 v ∧
      m.entries.Perm (e :: rest) ∧ m1.entries.Perm ((e.1, v) :: rest) := by
  unfold write at hw
  split at hw
  · cases hw
  · next b hb =>
    split at hw
    · cases hw
    · next e he =>
      simp only [Option.some.injEq] at hw
      subst hw
      obtain ⟨rest, hr1, hr2⟩ := list_split he
      obtain ⟨R, hR1, hR2⟩ := flatten_split hb
      have hp : m.entries.Perm (e :: (rest ++ R)) :=
        hR1.trans (List.Perm.append_right R hr1)
      have hp1 : (m.buckets.set r.bucket (b.set r.pos (e.1, v))).flatten.Perm
          ((e.1, v) :: (rest ++ R)) :=
        (hR2 _).trans (List.Perm.append_right R (hr2 (e.1, v)))
      have hlt : r.bucket < m.buckets.length := (List.getElem?_eq_some.1 hb).1
      have hlt2 : r.pos < b.length := (List.getElem?_eq_some.1 he).1
      refine ⟨?_, e, rest ++ R, ⟨b, hb, he⟩, ⟨_, List.getElem?_set_self hlt, ?_⟩, hp, hp1⟩
      · have hs : Sound hasher { m with buckets := m.buckets.set r.bucket (b.set r.pos (e.1, v)) } := by
          refine ⟨by simpa using h.level, ?_, ?_, ?_⟩
          · intro i c hc x hx
            simp only [List.length_set]
            by_cases hi : r.bucket = i
            · subst hi
              rw [List.getElem?_set_self hlt] at hc
              simp only [Option.some.injEq] at hc
              subst hc
              rcases List.mem_cons.1 ((hr2 (e.1, v)).subset hx) with hx1 | hx1
              · rw [hx1]
                exact h.placed _ b hb e (List.getElem?_mem he)
              · exact h.placed _ b hb x (hr1.symm.subset (List.mem_cons_of_mem _ hx1))
            · rw [List.getElem?_set_ne hi] at hc
              exact h.placed i c hc x hx
          · simp only
            rw [(hp1.map Prod.fst).nodup_iff]
            have := (hp.map Prod.fst).nodup_iff.1 h.nodup
            simpa using this
          · simp only
            rw [hp1.length_eq, h.size]
            simpa [entries] using hp.length_eq
        have hbd := h.size_bound
        exact WF.of_sound hs (by simpa using hbd.1) (by simpa using h.lo_bound)
      · exact List.getElem?_set_self hlt2

/-! ## Reachable maps -/

/-- Every reachable map satisfies the structural invariants. -/
theorem Reachable.wf [Inhabited V] {hasher : K → Nat} {m : HashMap K V}
    (h : Reachable hasher m) : WF hasher m := by
  induction h with
  | new => exact new_wf hasher
  | insert val _ hi ih => exact insert_wf ih hi
  | erase key _ he ih => exact erase_wf ih he
  | index fuel key _ hi ih => exact index_wf ih hi
  | write r v _ hw ih => exact (write_spec ih hw).1
  | clear _ hc ih =>
    rw [clear_eq ih] at hc
    cases hc
    exact new_wf hasher

end HashMap

/-! ## The traversal cursor over a table -/

namespace base_hashmap_iterator

variable {K V : Type}

theorem mk_from_back {bs : List (List (K × V))} {c : Nat} {b : List (K × V)}
    (hb : bs[c]? = some b) (hc : c + 1 = bs.length) :
    mk_from bs true = some ⟨bs.length, bs.length, ⟨c, b.length⟩⟩ := by
  have hlast : bs.getLast? = some b := by
    rw [List.getLast?_eq_getElem?]
    have : bs.length - 1 = c := by omega
    rw [this, hb]
  have h0 : ∃ b0, bs[0]? = some b0 :=
    ⟨bs[0], List.getElem?_eq_getElem (by omega)⟩
  obtain ⟨b0, hb0⟩ := h0
  have : bs.length - 1 = c := by omega
  simp [mk_from, hb0, hlast, this]

/-- The loop of `push()` from a position in chain `c`: with enough fuel it
stops at the next node of the table, or at `end()`. -/
theorem push_fuel_spec (bs : List (List (K × V))) (fuel : Nat) :
    ∀ (c p : Nat) (b : List (K × V)), bs[c]? = some b → p ≤ b.length →
      bs.length - c < fuel →
      ∃ it, push_fuel bs fuel ⟨c, bs.length, ⟨c, p⟩⟩ = some it ∧
        Pos bs it (b.drop p ++ (bs.drop (c + 1)).flatten) := by
  induction fuel with
  | zero => intro c p b _ _ hf; omega
  | succ fuel ih =>
    intro c p b hb hp hf
    have hc : c < bs.length := (List.getElem?_eq_some.1 hb).1
    have hne : c ≠ bs.length := by omega
    by_cases hpe : p = b.length
    · subst hpe
      by_cases hlast : c + 1 = bs.length
      · refine ⟨⟨bs.length, bs.length, ⟨c, b.length⟩⟩, ?_, Or.inl ⟨?_, mk_from_back hb hlast⟩⟩
        · have hfuel : fuel = (fuel - 1) + 1 := by omega
          simp only [push_fuel, hne, if_false, hb, if_true, hlast, ne_eq, not_true_eq_false]
          rw [hfuel]
          simp [push_fuel]
        · simp [hlast]
      · have hc1 : c + 1 < bs.length := by omega
        have hb1 : bs[c + 1]? = some bs[c + 1] := List.getElem?_eq_getElem hc1
        obtain ⟨it, hit, hpos⟩ := ih (c + 1) 0 bs[c + 1] hb1 (Nat.zero_le _) (by omega)
        refine ⟨it, ?_, ?_⟩
        · simp only [push_fuel, hne, if_false, hb, if_true, ne_eq, hlast, not_false_eq_true,
            hb1]
          exact hit
        · have hd : bs.drop (c + 1) = bs[c + 1] :: bs.drop (c + 1 + 1) :=
            List.drop_eq_getElem_cons hc1
          rw [List.drop_length, List.nil_append, hd, List.flatten_cons]
          rw [List.drop_zero] at hpos
          exact hpos
    · have hlt : p < b.length := by omega
      refine ⟨⟨c, bs.length, ⟨c, p⟩⟩, ?_, Or.inr ⟨c, b, p, rfl, hb, hlt, rfl⟩⟩
      have hne2 : ¬ (⟨c, p⟩ : list_iter) = ⟨c, b.length⟩ := by
        intro h
        exact hpe (list_iter.mk.inj h).2
      simp only [push_fuel, hne, if_false, hb, hne2]

theorem begin_pos {bs : List (List (K × V))} (h : 0 < bs.length) :
    ∃ it, mk_from bs false = some it ∧ Pos bs it bs.flatten := by
  have hb0 : bs[0]? = some bs[0] := List.getElem?_eq_getElem h
  obtain ⟨it, hit, hpos⟩ := push_fuel_spec bs (bs.length + 1) 0 0 bs[0] hb0 (Nat.zero_le _)
    (by omega)
  refine ⟨it, ?_, ?_⟩
  · simp only [mk_from, hb0, Bool.not_false, if_true, push]
    exact hit
  · have hd : bs = bs[0] :: bs.drop 1 := by
      have := List.drop_eq_getElem_cons (l := bs) (n := 0) h
      simpa using this
    have hf : bs.flatten = bs[0] ++ (bs.drop 1).flatten := by
      conv_lhs => rw [hd]
      rfl
    rw [hf]
    simpa using hpos

/-- On a cursor that is not at the end, `*` yields the next entry and `++`
moves to the rest. -/
theorem incr_spec {bs : List (List (K × V))} {it : base_hashmap_iterator} {x : K × V}
    {R : List (K × V)} (h : Pos bs it (x :: R)) :
    deref bs it = some x ∧ it.cur < bs.length ∧
      ∃ it1, incr bs it = some it1 ∧ Pos bs it1 R := by
  rcases h with ⟨h0, _⟩ | ⟨c, b, p, rfl, hb, hp, hR⟩
  · cases h0
  · have hc : c < bs.length := (List.getElem?_eq_some.1 hb).1
    have hd : b.drop p = b[p] :: b.drop (p + 1) := List.drop_eq_getElem_cons hp
    rw [hd, List.cons_append] at hR
    obtain ⟨hx, hR1⟩ := List.cons.inj hR
    obtain ⟨it1, hit1, hpos1⟩ := push_fuel_spec bs (bs.length + 1) c (p + 1) b hb (by omega)
      (by omega)
    refine ⟨?_, hc, it1, ?_, ?_⟩
    · simp only [deref, hb]
      rw [hx]
      exact List.getElem?_eq_getElem hp
    · simp only [incr, hb, hp, if_true, push]
      exact hit1
    · rw [hR1]
      exact hpos1

theorem Pos.nil_iff {bs : List (List (K × V))} {it : base_hashmap_iterator}
    {R : List (K × V)} (h : Pos bs it R) {e : base_hashmap_iterator}
    (he : mk_from bs true = some e) : eq it e = true ↔ R = [] := by
  rcases h with ⟨h0, h1⟩ | ⟨c, b, p, rfl, hb, hp, hR⟩
  · rw [h1] at he
    cases he
    simp [eq, h0]
  · have hc : c < bs.length := (List.getElem?_eq_some.1 hb).1
    have hcur : e.cur = bs.length := by
      unfold mk_from at he
      split at he
      · cases he
      · simp only [Bool.not_true, Bool.false_eq_true, if_false] at he
        split at he
        · cases he
        · simp only [Option.some.injEq] at he
          rw [← he]
    have hne : R ≠ [] := by
      intro h0
      have hlen : 0 < R.length := by
        rw [hR, List.length_append, List.length_drop]
        omega
      rw [h0] at hlen
      simp at hlen
    have hne2 : e.cur ≠ c := by omega
    simp [eq, hne, hne2]

/-- After `j` advances the cursor stands before the `j`-th entry. -/
theorem advance_spec {bs : List (List (K × V))} (j : Nat) :
    ∀ (it : base_hashmap_iterator) (R : List (K × V)), Pos bs it R → j ≤ R.length →
      ∃ it1, advance bs j it = some it1 ∧ Pos bs it1 (R.drop j) := by
  induction j with
  | zero => intro it R h _; exact ⟨it, rfl, by simpa using h⟩
  | succ j ih =>
    intro it R h hj
    cases R with
    | nil => simp at hj
    | cons x R =>
      obtain ⟨_, _, it1, hit1, hpos1⟩ := incr_spec h
      obtain ⟨it2, hit2, hpos2⟩ := ih it1 R hpos1 (by simpa using hj)
      exact ⟨it2, by simp only [advance, hit1]; exact hit2, by simpa using hpos2⟩

end base_hashmap_iterator

namespace HashMap

variable {K V : Type} [DecidableEq K]

/-! ## find -/

theorem end_eq {hasher : K → Nat} {m : HashMap K V} (hs : Sound hasher m) :
    ∃ last, m.buckets[m.buckets.length - 1]? = some last ∧
      end_ m = some ⟨m.buckets.length, m.buckets.length,
        ⟨m.buckets.length - 1, last.length⟩⟩ := by
  have hpos := hs.length_pos
  have hl : m.buckets[m.buckets.length - 1]? = some m.buckets[m.buckets.length - 1] :=
    List.getElem?_eq_getElem (by omega)
  refine ⟨_, hl, ?_⟩
  have := base_hashmap_iterator.mk_from_back hl (by omega)
  exact this

/-- For a present key `find` rests on the entry, in the chain of its hash. -/
theorem find_present {hasher : K → Nat} {m : HashMap K V} (hs : Sound hasher m)
    {key : K} {v : V} (hex : (key, v) ∈ m.entries) :
    ∃ it, find hasher m key = some it ∧ it.cur = hasher key % m.buckets.length ∧
      it.cur < m.buckets.length ∧
      base_hashmap_iterator.deref m.buckets it = some (key, v) := by
  obtain ⟨b, hb⟩ := hs.bucket key
  obtain ⟨i, hi⟩ := (hs.scan_iff hb v).2 hex
  have hget := chain_scan_some_getElem? hi
  have hlt : hasher key % m.buckets.length < m.buckets.length := Nat.mod_lt _ hs.length_pos
  have hmin : min (hasher key % m.buckets.length) (m.buckets.length - 1) =
      hasher key % m.buckets.length := by omega
  have hile : i ≤ b.length := Nat.le_of_lt (List.getElem?_eq_some.1 hget).1
  refine ⟨⟨hasher key % m.buckets.length, m.buckets.length,
    ⟨hasher key % m.buckets.length, i⟩⟩, ?_, rfl, hlt, ?_⟩
  · simp only [find, base_find, hb, hi, hmin, hile, if_true]
  · simp only [base_hashmap_iterator.deref, hb]
    exact hget

/-- For an absent key `find` builds the `end()` cursor. -/
theorem find_absent {hasher : K → Nat} {m : HashMap K V} (hs : Sound hasher m)
    {key : K} (habs : ∀ v, (key, v) ∉ m.entries) :
    ∃ it, find hasher m key = some it ∧ end_ m = some it := by
  obtain ⟨b, hb⟩ := hs.bucket key
  have hn := (hs.scan_none_iff hb).2 habs
  obtain ⟨last, hl, he⟩ := end_eq hs
  have hlast : m.buckets.getLast? = some last := by
    rw [List.getLast?_eq_getElem?, hl]
  have hmin : min m.buckets.length (m.buckets.length - 1) = m.buckets.length - 1 := by omega
  refine ⟨_, ?_, he⟩
  simp only [find, base_find, hb, hn, hlast, hmin, hl, le_refl, if_true]

theorem from_range_reachable [Inhabited V] {hasher : K → Nat} (l : List (K × V))
    {m : HashMap K V} (h : from_range hasher l = some m) : Reachable hasher m := by
  have key : ∀ (l : List (K × V)) (acc : Option (HashMap K V)),
      (∀ m0, acc = some m0 → Reachable hasher m0) → ∀ m1,
      l.foldl (fun acc val => acc.bind (fun m => insert hasher m val)) acc = some m1 →
      Reachable hasher m1 := by
    intro l
    induction l with
    | nil => intro acc hacc m1 h1; exact hacc m1 h1
    | cons val l ih =>
      intro acc hacc m1 h1
      refine ih _ ?_ m1 h1
      intro m0 h0
      obtain ⟨m2, hm2, hins⟩ := Option.bind_eq_some.1 h0
      exact Reachable.insert val (hacc m2 hm2) hins
  exact key l (some new) (fun m0 h0 => by cases h0; exact Reachable.new) m h

theorem not_absent_iff {m : HashMap K V} {key : K} :
    (¬ ∀ v, (key, v) ∉ m.entries) ↔ ∃ v, (key, v) ∈ m.entries := by
  constructor
  · intro h
    by_contra hcon
    exact h (fun v hv => hcon ⟨v, hv⟩)
  · rintro ⟨v, hv⟩ h
    exact h v hv

end HashMap

/-! ## The example map -/

theorem ex_map6_reachable : HashMap.Reachable id ex_map6 :=
  HashMap.from_range_reachable [(1, 10), (2, 20), (3, 30), (4, 40), (5, 50), (6, 60)] (by decide)

open HashMap

section props

variable {K V : Type} [DecidableEq K]

theorem perm_cons_other {k k1 : K} {v w : V} {l l1 : List (K × V)}
    (h : l1.Perm ((k, v) :: l)) (hne : k1 ≠ k) : (k1, w) ∈ l1 ↔ (k1, w) ∈ l := by
  rw [h.mem_iff, List.mem_cons]
  constructor
  · rintro (h1 | h1)
    · exact absurd (Prod.mk.inj h1).1 hne
    · exact h1
  · exact Or.inr

/-- What `erase` does to the entries of a map with the invariants. -/
theorem HashMap.erase_spec {hasher : K → Nat} {m : HashMap K V} (h : WF hasher m) (k : K) :
    ∃ m1, erase hasher m k = some m1 ∧ WF hasher m1 ∧ (∀ v, (k, v) ∉ m1.entries) ∧
      (∀ k1 w, k1 ≠ k → ((k1, w) ∈ m1.entries ↔ (k1, w) ∈ m.entries)) ∧
      ((∀ v, (k, v) ∉ m.entries) → m1 = m) ∧
      (∀ v, (k, v) ∈ m.entries →
        m.entries.Perm ((k, v) :: m1.entries) ∧ m1.cur_size + 1 = m.cur_size) := by
  by_cases habs : ∀ v, (k, v) ∉ m.entries
  · exact ⟨m, erase_absent h habs, h, habs, fun _ _ _ => Iff.rfl, fun _ => rfl,
      fun v hv => absurd hv (habs v)⟩
  · obtain ⟨v, hv⟩ := not_absent_iff.1 habs
    obtain ⟨m1, he, hwf, hperm, hsz⟩ := erase_present h hv
    have hnd := (hperm.map Prod.fst).nodup_iff.1 h.nodup
    rw [List.map_cons, List.nodup_cons] at hnd
    refine ⟨m1, he, hwf, ?_, ?_, fun h0 => absurd hv (h0 v), ?_⟩
    · intro w hw
      exact hnd.1 (List.mem_map.2 ⟨(k, w), hw, rfl⟩)
    · intro k1 w hne
      exact (perm_cons_other hperm hne).symm
    · intro w hw
      have hwv : w = v := by
        rcases List.mem_cons.1 (hperm.subset hw) with heq | hin
        · exact (Prod.mk.inj heq).2
        · exact absurd (List.mem_map.2 ⟨(k, w), hin, rfl⟩) hnd.1
      subst hwv
      exact ⟨hperm, hsz⟩

end props

/-! ## Properties of the specification -/

set_option maxRecDepth 100000 in
/-- The scenario of the specification, evaluated: keys 1..200 with value
`key * 10` inserted into a fresh map with the identity hash. -/
theorem scenario_200_run :
    (from_range id ((List.range' 1 200).map (fun i => (i, i * 10)))).map
        (fun m : HashMap Nat Nat => (m.size,
          (List.range' 1 200).all (fun i => decide (at_ id m i = .value (i * 10))))) =
      some (200, true) := by
  decide

/-- C1 (round trip). For every hash function, every reachable map whose
capacity level is below the last index of the schedule, every absent key
`k` and every value `v`: `insert(k, v)` returns, and afterwards `at(k)` is
`v`, `find(k)` dereferences to `(k, v)`, and `m[k]` returns a reference to
`v` without changing the map. The proof covers the inserts that grow and
rehash the table. Scenario: the map built from the keys 1..200 with value
`key * 10` has size 200 and `at(i) = i * 10` for every `i` in 1..200. -/
theorem C1_round_trip :
    (∀ (K V : Type) [DecidableEq K] [Inhabited V] (hasher : K → Nat) (m : HashMap K V)
        (k : K) (v : V),
      Reachable hasher m → m.cur_capacity < sizes.length - 1 →
      count hasher m k = some 0 →
      ∃ m1, insert hasher m (k, v) = some m1 ∧
        at_ hasher m1 k = .value v ∧
        (∃ it, find hasher m1 k = some it ∧
          base_hashmap_iterator.deref m1.buckets it = some (k, v)) ∧
        (∃ r, (∀ fuel, index_fuel hasher (fuel + 1) m1 k = some (m1, r)) ∧
          read m1 r = some v)) ∧
    (∃ m : HashMap Nat Nat,
      from_range id ((List.range' 1 200).map (fun i => (i, i * 10))) = some m ∧
      m.size = 200 ∧ ∀ i, 1 ≤ i → i ≤ 200 → at_ id m i = .value (i * 10)) := by
  constructor
  · intro K V _ _ hasher m k v hr hc habs
    have hwf := hr.wf
    have hc1 : m.cur_capacity < 23 := by simpa [sizes_length] using hc
    have habs1 := (hwf.sound.count_eq_zero_iff k).1 habs
    obtain ⟨m1, hm1⟩ := insert_isSome hwf hc1 (k, v)
    obtain ⟨hwf1, hperm, _⟩ := insert_absent hwf (k, v) habs1 hm1
    have hmem : (k, v) ∈ m1.entries := hperm.symm.subset (List.mem_cons_self _ _)
    obtain ⟨it, hit, _, _, hd⟩ := find_present hwf1.sound hmem
    obtain ⟨r, hr1, hd1⟩ := index_present hwf1 hmem
    exact ⟨m1, hm1, (hwf1.sound.at_value_iff k v).2 hmem, ⟨it, hit, hd⟩, r, hr1, hd1.read⟩
  · obtain ⟨m, hm, heq⟩ := Option.map_eq_some'.1 scenario_200_run
    obtain ⟨hsz, hall⟩ := Prod.mk.inj heq
    refine ⟨m, hm, hsz, fun i h1 h2 => ?_⟩
    rw [List.all_eq_true] at hall
    have := hall i (by rw [List.mem_range']; exact ⟨i - 1, by omega, by omega⟩)
    simpa using this

/-- Witness of C1: the seventh insert into `ex_map6` crosses the grow threshold. -/
theorem C1_round_trip_witness :
    Reachable id ex_map6 ∧ ex_map6.cur_capacity < sizes.length - 1 ∧
      count id ex_map6 7 = some 0 ∧
      ∃ m1, insert id ex_map6 (7, 70) = some m1 ∧
        at_ id m1 7 = .value 70 ∧
        (∃ it, find id m1 7 = some it ∧
          base_hashmap_iterator.deref m1.buckets it = some (7, 70)) ∧
        (∃ r, (∀ fuel, index_fuel id (fuel + 1) m1 7 = some (m1, r)) ∧
          read m1 r = some 70) :=
  ⟨ex_map6_reachable, by decide, by decide,
    C1_round_trip.1 Nat Nat id ex_map6 7 70 ex_map6_reachable (by decide) (by decide)⟩

/-- C2 (first writer wins). In a reachable map where `at(k)` is `v1`,
`insert(k, v2)` returns and leaves buckets, size counter and capacity level
as they were, so `at(k)` is still `v1`. -/
theorem C2_first_writer_wins {K V : Type} [DecidableEq K] [Inhabited V] (hasher : K → Nat)
    (m : HashMap K V) (k : K) (v1 v2 : V) (hr : Reachable hasher m)
    (hp : at_ hasher m k = .value v1) :
    ∃ m1, insert hasher m (k, v2) = some m1 ∧ m1.buckets = m.buckets ∧
      m1.cur_size = m.cur_size ∧ m1.cur_capacity = m.cur_capacity ∧
      at_ hasher m1 k = .value v1 := by
  have hwf := hr.wf
  have hmem := (hwf.sound.at_value_iff k v1).1 hp
  exact ⟨m, insert_present hwf (k, v2) ⟨v1, hmem⟩, rfl, rfl, rfl, hp⟩

/-- Witness of C2: key 3 is present in `ex_map6` with value 30. -/
theorem C2_first_writer_wins_witness :
    Reachable id ex_map6 ∧ at_ id ex_map6 3 = .value 30 ∧
      ∃ m1, insert id ex_map6 (3, 99) = some m1 ∧ m1.buckets = ex_map6.buckets ∧
        m1.cur_size = ex_map6.cur_size ∧ m1.cur_capacity = ex_map6.cur_capacity ∧
        at_ id m1 3 = .value 30 :=
  ⟨ex_map6_reachable, by decide,
    C2_first_writer_wins id ex_map6 3 30 99 ex_map6_reachable (by decide)⟩

/-- C3 (erase correctness). In a reachable map `erase(k)` returns, afterwards
`count(k)` is 0, the size has dropped by exactly 1 when `k` was present and
is unchanged when `k` was absent. -/
theorem C3_erase_correct {K V : Type} [DecidableEq K] [Inhabited V] (hasher : K → Nat)
    (m : HashMap K V) (k : K) (hr : Reachable hasher m) :
    ∃ m1, erase hasher m k = some m1 ∧ count hasher m1 k = some 0 ∧
      (count hasher m k = some 1 → 0 < m.size ∧ m1.size = m.size - 1) ∧
      (count hasher m k = some 0 → m1.size = m.size) ∧
      (count hasher m k = some 1 ∨ count hasher m k = some 0) := by
  have hwf := hr.wf
  obtain ⟨m1, he, hwf1, habs1, _, hsame, hpres⟩ := erase_spec hwf k
  refine ⟨m1, he, (hwf1.sound.count_eq_zero_iff k).2 habs1, ?_, ?_,
    (hwf.sound.count_isSome k).symm⟩
  · intro hc
    obtain ⟨v, hv⟩ := (hwf.sound.count_eq_one_iff k).1 hc
    have := (hpres v hv).2
    unfold size
    omega
  · intro hc
    rw [hsame ((hwf.sound.count_eq_zero_iff k).1 hc)]

/-- Witness of C3: erasing the present key 6 from `ex_map6`. -/
theorem C3_erase_correct_witness :
    Reachable id ex_map6 ∧
      ∃ m1, erase id ex_map6 6 = some m1 ∧ count id m1 6 = some 0 ∧
        (count id ex_map6 6 = some 1 → 0 < ex_map6.size ∧ m1.size = ex_map6.size - 1) ∧
        (count id ex_map6 6 = some 0 → m1.size = ex_map6.size) ∧
        (count id ex_map6 6 = some 1 ∨ count id ex_map6 6 = some 0) :=
  ⟨ex_map6_reachable, C3_erase_correct id ex_map6 6 ex_map6_reachable⟩

/-- C4 (erase of a missing key). In a reachable map with `count(k) == 0`,
`erase(k)` returns the very same state: buckets, size counter and capacity
level unchanged; the unconditional shrink check finds nothing to do. -/
theorem C4_erase_missing_noop {K V : Type} [DecidableEq K] [Inhabited V] (hasher : K → Nat)
    (m : HashMap K V) (k : K) (hr : Reachable hasher m) (habs : count hasher m k = some 0) :
    erase hasher m k = some m ∧ trySizeDown hasher m = some (m, false) := by
  have hwf := hr.wf
  exact ⟨erase_absent hwf ((hwf.sound.count_eq_zero_iff k).1 habs), trySizeDown_noop hwf⟩

/-- Witness of C4: key 7 is missing from `ex_map6`. -/
theorem C4_erase_missing_noop_witness :
    Reachable id ex_map6 ∧ count id ex_map6 7 = some 0 ∧
      erase id ex_map6 7 = some ex_map6 ∧ trySizeDown id ex_map6 = some (ex_map6, false) :=
  ⟨ex_map6_reachable, by decide,
    C4_erase_missing_noop id ex_map6 7 ex_map6_reachable (by decide)⟩

open HashMap

section props2

variable {K V : Type} [DecidableEq K]

/-- Assigning through a reference that designates the entry of `k`. -/
theorem HashMap.write_designated {hasher : K → Nat} {m : HashMap K V} {r : value_ref}
    {k : K} {v0 : V} (h : WF hasher m) (hd : designates m r k v0) (v : V) :
    ∃ m2, write m r v = some m2 ∧ WF hasher m2 ∧ designates m2 r k v := by
  obtain ⟨b, hb, hp⟩ := hd
  have hw : write m r v =
      some { m with buckets := m.buckets.set r.bucket (b.set r.pos (k, v)) } := by
    simp [write, hb, hp]
  obtain ⟨hwf, e, _, ⟨b1, hb1, hp1⟩, hd2, _⟩ := write_spec h hw
  rw [hb] at hb1
  cases hb1
  rw [hp] at hp1
  cases hp1
  exact ⟨_, hw, hwf, hd2⟩

theorem HashMap.absent_iff_buckets {m : HashMap K V} {k : K} :
    (∀ v, (k, v) ∉ m.entries) ↔ ∀ b ∈ m.buckets, ∀ e ∈ b, e.1 ≠ k := by
  constructor
  · intro h b hb e he hk
    exact h e.2 (List.mem_flatten.2 ⟨b, hb, by rw [← hk]; exact he⟩)
  · intro h v hv
    obtain ⟨b, hb, he⟩ := List.mem_flatten.1 hv
    exact h b hb _ he rfl

end props2

/-- C5 (resize preserves content). In a reachable map below the last level,
for keys `k1 ≠ k`: `at(k1)` gives the same result before and after
`insert(k, v)`, `erase(k)` and `m[k]`, each of which returns; and the
entries held in all chains change, as a multiset, only by the one entry for
`k` (a permutation otherwise), whether or not the call rehashed. -/
theorem C5_resize_preserves_content {K V : Type} [DecidableEq K] [Inhabited V]
    (hasher : K → Nat) (m : HashMap K V) (k k1 : K) (v : V) (hr : Reachable hasher m)
    (hc : m.cur_capacity < sizes.length - 1) (hne : k1 ≠ k) :
    (∃ m1, insert hasher m (k, v) = some m1 ∧ at_ hasher m1 k1 = at_ hasher m k1 ∧
      (count hasher m k = some 0 → m1.buckets.flatten.Perm ((k, v) :: m.buckets.flatten)) ∧
      (count hasher m k = some 1 → m1 = m)) ∧
    (∃ m2, erase hasher m k = some m2 ∧ at_ hasher m2 k1 = at_ hasher m k1 ∧
      (count hasher m k = some 0 → m2 = m) ∧
      (∀ w, at_ hasher m k = .value w →
        m.buckets.flatten.Perm ((k, w) :: m2.buckets.flatten))) ∧
    (∃ m3 r, (∀ fuel, index_fuel hasher (fuel + 2) m k = some (m3, r)) ∧
      at_ hasher m3 k1 = at_ hasher m k1 ∧
      (count hasher m k = some 0 →
        m3.buckets.flatten.Perm ((k, default) :: m.buckets.flatten)) ∧
      (count hasher m k = some 1 → m3 = m)) := by
  have hwf := hr.wf
  have hc1 : m.cur_capacity < 23 := by simpa [sizes_length] using hc
  refine ⟨?_, ?_, ?_⟩
  · obtain ⟨m1, hm1⟩ := insert_isSome hwf hc1 (k, v)
    have hwf1 := insert_wf hwf hm1
    refine ⟨m1, hm1, ?_, ?_, ?_⟩
    · by_cases habs : ∀ w, (k, w) ∉ m.entries
      · obtain ⟨_, hperm, _⟩ := insert_absent hwf (k, v) habs hm1
        exact hwf.sound.at_congr hwf1.sound (fun w => perm_cons_other hperm hne)
      · rw [insert_present hwf (k, v) (not_absent_iff.1 habs)] at hm1
        cases hm1
        rfl
    · intro h0
      exact (insert_absent hwf (k, v) ((hwf.sound.count_eq_zero_iff k).1 h0) hm1).2.1
    · intro h1
      rw [insert_present hwf (k, v) ((hwf.sound.count_eq_one_iff k).1 h1)] at hm1
      cases hm1
      rfl
  · obtain ⟨m2, he, hwf2, _, hoth, hsame, hpres⟩ := erase_spec hwf k
    refine ⟨m2, he, hwf.sound.at_congr hwf2.sound (fun w => hoth k1 w hne), ?_, ?_⟩
    · intro h0
      exact hsame ((hwf.sound.count_eq_zero_iff k).1 h0)
    · intro w hw
      exact (hpres w ((hwf.sound.at_value_iff k w).1 hw)).1
  · obtain ⟨res, h2, _⟩ := index_isSome hwf hc1 k 0
    obtain ⟨m3, r⟩ := res
    have hall : ∀ fuel, index_fuel hasher (fuel + 2) m k = some (m3, r) := by
      intro fuel
      obtain ⟨res1, h3, h4⟩ := index_isSome hwf hc1 k fuel
      rw [h2] at h3
      cases h3
      exact h4
    have hwf3 := index_wf hwf h2
    refine ⟨m3, r, hall, ?_, ?_, ?_⟩
    · by_cases habs : ∀ w, (k, w) ∉ m.entries
      · obtain ⟨_, hperm, _⟩ := index_absent hwf habs h2
        exact hwf.sound.at_congr hwf3.sound (fun w => perm_cons_other hperm hne)
      · obtain ⟨w, hw⟩ := not_absent_iff.1 habs
        obtain ⟨r1, hr1, _⟩ := index_present hwf hw
        rw [hr1 1] at h2
        cases h2
        rfl
    · intro h0
      exact (index_absent hwf ((hwf.sound.count_eq_zero_iff k).1 h0) h2).2.1
    · intro h1
      obtain ⟨w, hw⟩ := (hwf.sound.count_eq_one_iff k).1 h1
      obtain ⟨r1, hr1, _⟩ := index_present hwf hw
      rw [hr1 1] at h2
      cases h2
      rfl

/-- Witness of C5: in `ex_map6` the calls on key 7 (the insert grows the
table) leave the lookup of key 3 alone. -/
theorem C5_resize_preserves_content_witness :
    Reachable id ex_map6 ∧ ex_map6.cur_capacity < sizes.length - 1 ∧ (3 : Nat) ≠ 7 ∧
    ((∃ m1, insert id ex_map6 (7, 70) = some m1 ∧ at_ id m1 3 = at_ id ex_map6 3 ∧
      (count id ex_map6 7 = some 0 →
        m1.buckets.flatten.Perm ((7, 70) :: ex_map6.buckets.flatten)) ∧
      (count id ex_map6 7 = some 1 → m1 = ex_map6)) ∧
    (∃ m2, erase id ex_map6 7 = some m2 ∧ at_ id m2 3 = at_ id ex_map6 3 ∧
      (count id ex_map6 7 = some 0 → m2 = ex_map6) ∧
      (∀ w, at_ id ex_map6 7 = .value w →
        ex_map6.buckets.flatten.Perm ((7, w) :: m2.buckets.flatten))) ∧
    (∃ m3 r, (∀ fuel, index_fuel id (fuel + 2) ex_map6 7 = some (m3, r)) ∧
      at_ id m3 3 = at_ id ex_map6 3 ∧
      (count id ex_map6 7 = some 0 →
        m3.buckets.flatten.Perm ((7, default) :: ex_map6.buckets.flatten)) ∧
      (count id ex_map6 7 = some 1 → m3 = ex_map6))) :=
  ⟨ex_map6_reachable, by decide, by decide,
    C5_resize_preserves_content id ex_map6 7 3 70 ex_map6_reachable (by decide) (by decide)⟩

/-- C6 (`at` fails exactly on missing keys). In a reachable map `at(k)`
throws `out_of_range` if and only if no chain holds an entry with key `k`;
otherwise it returns the value of the one entry with key `k`; it never runs
into undefined behaviour. (`at_` has no state result: the map is read only.) -/
theorem C6_at_fails_exactly_on_missing {K V : Type} [DecidableEq K] [Inhabited V]
    (hasher : K → Nat) (m : HashMap K V) (k : K) (hr : Reachable hasher m) :
    (at_ hasher m k = .out_of_range ↔ ∀ b ∈ m.buckets, ∀ e ∈ b, e.1 ≠ k) ∧
    ((∃ b ∈ m.buckets, ∃ e ∈ b, e.1 = k) →
      ∃ v, at_ hasher m k = .value v ∧ (k, v) ∈ m.buckets.flatten ∧
        (∀ e ∈ m.buckets.flatten, e.1 = k → e = (k, v)) ∧
        (m.buckets.flatten.map Prod.fst).count k = 1) ∧
    at_ hasher m k ≠ .undefined := by
  have hwf := hr.wf
  refine ⟨?_, ?_, hwf.sound.at_ne_undefined k⟩
  · rw [hwf.sound.at_out_of_range_iff k]
    exact absent_iff_buckets
  · rintro ⟨b, hb, e, he, hk⟩
    have hmem : (k, e.2) ∈ m.entries := List.mem_flatten.2 ⟨b, hb, by rw [← hk]; exact he⟩
    refine ⟨e.2, (hwf.sound.at_value_iff k e.2).2 hmem, hmem, ?_, ?_⟩
    · intro e1 he1 hk1
      have h1 := (hwf.sound.at_value_iff k e1.2).2 (by rw [← hk1]; exact he1)
      have h2 := (hwf.sound.at_value_iff k e.2).2 hmem
      rw [h1] at h2
      have h3 : e1.2 = e.2 := by injection h2
      rw [← hk1, ← h3]
    · exact List.count_eq_one_of_mem hwf.nodup (List.mem_map.2 ⟨(k, e.2), hmem, rfl⟩)

/-- Witness of C6 on `ex_map6` and the present key 3. -/
theorem C6_at_fails_exactly_on_missing_witness :
    Reachable id ex_map6 ∧
    ((at_ id ex_map6 3 = .out_of_range ↔ ∀ b ∈ ex_map6.buckets, ∀ e ∈ b, e.1 ≠ 3) ∧
    ((∃ b ∈ ex_map6.buckets, ∃ e ∈ b, e.1 = 3) →
      ∃ v, at_ id ex_map6 3 = .value v ∧ (3, v) ∈ ex_map6.buckets.flatten ∧
        (∀ e ∈ ex_map6.buckets.flatten, e.1 = 3 → e = (3, v)) ∧
        (ex_map6.buckets.flatten.map Prod.fst).count 3 = 1) ∧
    at_ id ex_map6 3 ≠ .undefined) :=
  ⟨ex_map6_reachable, C6_at_fails_exactly_on_missing id ex_map6 3 ex_map6_reachable⟩

/-- C7 (get-or-create). In a reachable map below the last level, `m[k]`
(a) on a present key returns a reference to the stored value and leaves the
map unchanged; (b) on an absent key returns, with any fuel from 2 on, a map
in which `count(k)` is 1, `at(k)` is the default value and the size is one
more, together with a reference that designates the entry of `k` in the
final table, so that assigning `v` through it makes `at(k)` equal `v`. -/
theorem C7_get_or_create {K V : Type} [DecidableEq K] [Inhabited V]
    (hasher : K → Nat) (m : HashMap K V) (k : K) (hr : Reachable hasher m)
    (hc : m.cur_capacity < sizes.length - 1) :
    (∀ v, at_ hasher m k = .value v →
      ∃ r, (∀ fuel, index_fuel hasher (fuel + 1) m k = some (m, r)) ∧ read m r = some v) ∧
    (count hasher m k = some 0 →
      ∃ m1 r, (∀ fuel, index_fuel hasher (fuel + 2) m k = some (m1, r)) ∧
        count hasher m1 k = some 1 ∧ at_ hasher m1 k = .value default ∧
        m1.size = m.size + 1 ∧ read m1 r = some default ∧
        (∃ b, m1.buckets[r.bucket]? = some b ∧ b[r.pos]? = some (k, default)) ∧
        ∀ v, ∃ m2, write m1 r v = some m2 ∧ at_ hasher m2 k = .value v ∧
          read m2 r = some v) := by
  have hwf := hr.wf
  have hc1 : m.cur_capacity < 23 := by simpa [sizes_length] using hc
  constructor
  · intro v hv
    obtain ⟨r, hr1, hd⟩ := index_present hwf ((hwf.sound.at_value_iff k v).1 hv)
    exact ⟨r, hr1, hd.read⟩
  · intro h0
    have habs := (hwf.sound.count_eq_zero_iff k).1 h0
    obtain ⟨res, h2, _⟩ := index_isSome hwf hc1 k 0
    obtain ⟨m1, r⟩ := res
    have hall : ∀ fuel, index_fuel hasher (fuel + 2) m k = some (m1, r) := by
      intro fuel
      obtain ⟨res1, h3, h4⟩ := index_isSome hwf hc1 k fuel
      rw [h2] at h3
      cases h3
      exact h4
    obtain ⟨hwf1, _, hsz, hd⟩ := index_absent hwf habs h2
    refine ⟨m1, r, hall, (hwf1.sound.count_eq_one_iff k).2 ⟨default, hd.mem⟩,
      (hwf1.sound.at_value_iff k default).2 hd.mem, hsz, hd.read, hd, fun v => ?_⟩
    obtain ⟨m2, hw, hwf2, hd2⟩ := write_designated hwf1 hd v
    exact ⟨m2, hw, (hwf2.sound.at_value_iff k v).2 hd2.mem, hd2.read⟩

/-- Witness of C7: `m[7]` on `ex_map6` creates the entry and grows the table. -/
theorem C7_get_or_create_witness :
    Reachable id ex_map6 ∧ ex_map6.cur_capacity < sizes.length - 1 ∧
    ((∀ v, at_ id ex_map6 7 = .value v →
      ∃ r, (∀ fuel, index_fuel id (fuel + 1) ex_map6 7 = some (ex_map6, r)) ∧
        read ex_map6 r = some v) ∧
    (count id ex_map6 7 = some 0 →
      ∃ m1 r, (∀ fuel, index_fuel id (fuel + 2) ex_map6 7 = some (m1, r)) ∧
        count id m1 7 = some 1 ∧ at_ id m1 7 = .value default ∧
        m1.size = ex_map6.size + 1 ∧ read m1 r = some default ∧
        (∃ b, m1.buckets[r.bucket]? = some b ∧ b[r.pos]? = some (7, default)) ∧
        ∀ v, ∃ m2, write m1 r v = some m2 ∧ at_ id m2 7 = .value v ∧
          read m2 r = some v)) :=
  ⟨ex_map6_reachable, by decide,
    C7_get_or_create id ex_map6 7 ex_map6_reachable (by decide)⟩

open HashMap

/-- C8 (size consistency of traversal). In a reachable map `begin()` and
`end()` are defined; for every `j` up to `size()` the cursor reached from
`begin()` by `j` applications of `++` exists, is equal to `end()` exactly
when `j = size()`, and for `j < size()` dereferences to the `j`-th entry of
the chains concatenated in bucket order; the keys of these entries are
pairwise distinct and `size()` is the sum of the chain lengths. -/
theorem C8_traversal_size {K V : Type} [DecidableEq K] [Inhabited V] (hasher : K → Nat)
    (m : HashMap K V) (hr : Reachable hasher m) :
    ∃ b e, begin_ m = some b ∧ end_ m = some e ∧
      (∀ j, j ≤ m.size →
        ∃ it, base_hashmap_iterator.advance m.buckets j b = some it ∧
          (base_hashmap_iterator.eq it e = true ↔ j = m.size) ∧
          (j < m.size → base_hashmap_iterator.deref m.buckets it = m.buckets.flatten[j]?)) ∧
      (m.buckets.flatten.map Prod.fst).Nodup ∧
      m.size = (m.buckets.map List.length).sum := by
  have hwf := hr.wf
  have hsize : m.size = m.buckets.flatten.length := hwf.size
  obtain ⟨b, hb, hpos⟩ := base_hashmap_iterator.begin_pos hwf.sound.length_pos
  obtain ⟨last, _, he⟩ := end_eq hwf.sound
  refine ⟨b, _, hb, he, ?_, hwf.nodup, by rw [hsize, List.length_flatten]⟩
  intro j hj
  rw [hsize] at hj
  obtain ⟨it, hit, hpj⟩ := base_hashmap_iterator.advance_spec j b _ hpos hj
  refine ⟨it, hit, ?_, ?_⟩
  · rw [hpj.nil_iff he, List.drop_eq_nil_iff, hsize]
    omega
  · intro hlt
    rw [hsize] at hlt
    rw [List.drop_eq_getElem_cons hlt] at hpj
    rw [(base_hashmap_iterator.incr_spec hpj).1]
    exact (List.getElem?_eq_getElem hlt).symm

/-- Witness of C8 on `ex_map6`. -/
theorem C8_traversal_size_witness :
    Reachable id ex_map6 ∧
    ∃ b e, begin_ ex_map6 = some b ∧ end_ ex_map6 = some e ∧
      (∀ j, j ≤ ex_map6.size →
        ∃ it, base_hashmap_iterator.advance ex_map6.buckets j b = some it ∧
          (base_hashmap_iterator.eq it e = true ↔ j = ex_map6.size) ∧
          (j < ex_map6.size →
            base_hashmap_iterator.deref ex_map6.buckets it = ex_map6.buckets.flatten[j]?)) ∧
      (ex_map6.buckets.flatten.map Prod.fst).Nodup ∧
      ex_map6.size = (ex_map6.buckets.map List.length).sum :=
  ⟨ex_map6_reachable, C8_traversal_size id ex_map6 ex_map6_reachable⟩

/-- C9 (find). In a reachable map: when `at(k)` is `v`, `find(k)` is a
cursor different from `end()` whose bucket number is
`hash(k) mod table length` and which dereferences to `(k, v)`; when
`count(k)` is 0, `find(k)` is equal to `end()`, in bucket number and in
chain position. -/
theorem C9_find {K V : Type} [DecidableEq K] [Inhabited V] (hasher : K → Nat)
    (m : HashMap K V) (k : K) (hr : Reachable hasher m) :
    (∀ v, at_ hasher m k = .value v →
      ∃ it e, find hasher m k = some it ∧ end_ m = some e ∧
        base_hashmap_iterator.eq it e = false ∧
        it.cur = hasher k % m.buckets.length ∧
        base_hashmap_iterator.deref m.buckets it = some (k, v)) ∧
    (count hasher m k = some 0 →
      ∃ it e, find hasher m k = some it ∧ end_ m = some e ∧
        base_hashmap_iterator.eq it e = true ∧ it.cur = e.cur ∧ it.biter = e.biter) := by
  have hwf := hr.wf
  obtain ⟨last, _, he⟩ := end_eq hwf.sound
  constructor
  · intro v hv
    obtain ⟨it, hit, hcur, hlt, hd⟩ := find_present hwf.sound ((hwf.sound.at_value_iff k v).1 hv)
    refine ⟨it, _, hit, he, ?_, hcur, hd⟩
    have hne : m.buckets.length ≠ it.cur := by omega
    simp [base_hashmap_iterator.eq, hne]
  · intro h0
    obtain ⟨it, hit, hend⟩ := find_absent hwf.sound ((hwf.sound.count_eq_zero_iff k).1 h0)
    exact ⟨it, it, hit, hend, by simp [base_hashmap_iterator.eq], rfl, rfl⟩

/-- Witness of C9 on `ex_map6`, key 3. -/
theorem C9_find_witness :
    Reachable id ex_map6 ∧
    ((∀ v, at_ id ex_map6 3 = .value v →
      ∃ it e, find id ex_map6 3 = some it ∧ end_ ex_map6 = some e ∧
        base_hashmap_iterator.eq it e = false ∧
        it.cur = id 3 % ex_map6.buckets.length ∧
        base_hashmap_iterator.deref ex_map6.buckets it = some (3, v)) ∧
    (count id ex_map6 3 = some 0 →
      ∃ it e, find id ex_map6 3 = some it ∧ end_ ex_map6 = some e ∧
        base_hashmap_iterator.eq it e = true ∧ it.cur = e.cur ∧ it.biter = e.biter)) :=
  ⟨ex_map6_reachable, C9_find id ex_map6 3 ex_map6_reachable⟩

/-- C10 (clear). In a reachable map, at any level, `clear()` returns a map
with `size() == 0`, `empty()`, every chain empty, capacity level 0, table
length `sizes[0] = 5`, `count(k) == 0` for every key, and `begin() == end()`. -/
theorem C10_clear {K V : Type} [DecidableEq K] [Inhabited V] (hasher : K → Nat)
    (m : HashMap K V) (hr : Reachable hasher m) :
    ∃ m1, clear hasher m = some m1 ∧ m1.size = 0 ∧ m1.empty = true ∧
      (∀ b ∈ m1.buckets, b = []) ∧ m1.cur_capacity = 0 ∧
      sizes[0]? = some 5 ∧ m1.buckets.length = 5 ∧
      (∀ k, count hasher m1 k = some 0) ∧
      ∃ b e, begin_ m1 = some b ∧ end_ m1 = some e ∧
        base_hashmap_iterator.eq b e = true := by
  have hwf := hr.wf
  have hnew : WF hasher (new : HashMap K V) := new_wf hasher
  refine ⟨new, clear_eq hwf, rfl, rfl, ?_, rfl, rfl, rfl, ?_, ?_⟩
  · intro b hb
    exact List.eq_of_mem_replicate hb
  · intro k
    rw [hnew.sound.count_eq_zero_iff k]
    intro v hv
    simp [entries, new] at hv
  · obtain ⟨b, hb, hpos⟩ := base_hashmap_iterator.begin_pos hnew.sound.length_pos
    obtain ⟨last, _, he⟩ := end_eq hnew.sound
    refine ⟨b, _, hb, he, ?_⟩
    rw [hpos.nil_iff he]
    simp [new]

/-- Witness of C10 on `ex_map6`. -/
theorem C10_clear_witness :
    Reachable id ex_map6 ∧
    ∃ m1, clear id ex_map6 = some m1 ∧ m1.size = 0 ∧ m1.empty = true ∧
      (∀ b ∈ m1.buckets, b = []) ∧ m1.cur_capacity = 0 ∧
      sizes[0]? = some 5 ∧ m1.buckets.length = 5 ∧
      (∀ k, count id m1 k = some 0) ∧
      ∃ b e, begin_ m1 = some b ∧ end_ m1 = some e ∧
        base_hashmap_iterator.eq b e = true :=
  ⟨ex_map6_reachable, C10_clear id ex_map6 ex_map6_reachable⟩

/-! ## Presence, invariants and the resize rules -/

namespace HashMap

variable {K V : Type} [DecidableEq K]

theorem Sound.unique_keys {hasher : K → Nat} {m : HashMap K V} (hs : Sound hasher m) :
    unique_keys m := by
  intro i j p q b b2 e f hb hp hc hq hk
  have hi := hs.placed i b hb e (List.getElem?_mem hp)
  have hj := hs.placed j b2 hc f (List.getElem?_mem hq)
  have hij : i = j := by rw [← hi, ← hj, hk]
  subst hij
  rw [hb] at hc
  cases hc
  refine ⟨rfl, ?_⟩
  have hnd := hs.nodup_bucket hb
  obtain ⟨hp1, hp2⟩ := List.getElem?_eq_some.1 hp
  obtain ⟨hq1, hq2⟩ := List.getElem?_eq_some.1 hq
  have hp3 : p < (b.map Prod.fst).length := by simpa using hp1
  have hq3 : q < (b.map Prod.fst).length := by simpa using hq1
  have heq : (b.map Prod.fst)[p] = (b.map Prod.fst)[q] := by
    simp only [List.getElem_map, hp2, hq2, hk]
  exact (hnd.getElem_inj_iff).1 heq

theorem Sound.placement {hasher : K → Nat} {m : HashMap K V} (hs : Sound hasher m) :
    placement hasher m :=
  ⟨hs.level, fun i b hb e he => (hs.placed i b hb e he).symm⟩

theorem step_wf [Inhabited V] {hasher : K → Nat} {m m1 : HashMap K V} (h : WF hasher m)
    (hst : step hasher m m1) : WF hasher m1 := by
  rcases hst with ⟨val, hi⟩ | ⟨key, he⟩ | ⟨fuel, key, r, hx⟩ | hc
  · exact insert_wf h hi
  · exact erase_wf h he
  · exact index_wf h hx
  · rw [clear_eq h] at hc
    cases hc
    exact new_wf hasher

/-- On a map in the band the grow check does nothing. -/
theorem trySizeUp_noop {hasher : K → Nat} {m : HashMap K V} (h : WF hasher m) :
    trySizeUp hasher m = some (m, false) := by
  have hb := h.size_bound
  have hsz : m.cur_size * 100 < size_t_mod := by unfold size_t_mod; omega
  unfold trySizeUp
  rw [load_factor_eq h.sound hsz]
  simp only
  rw [if_neg]
  have := h.band_hi
  omega

end HashMap

open HashMap

/-- C11 (count reports presence). In a reachable map `count(k)` is 1 when
some chain of the table holds an entry with key `k` and 0 when none does;
an entry with key `k` sits only in the chain `hash(k) mod table length`,
the one `count` inspects. -/
theorem C11_count_reports_presence {K V : Type} [DecidableEq K] [Inhabited V]
    (hasher : K → Nat) (m : HashMap K V) (k : K) (hr : Reachable hasher m) :
    ((∃ b ∈ m.buckets, ∃ e ∈ b, e.1 = k) → count hasher m k = some 1) ∧
    ((∀ b ∈ m.buckets, ∀ e ∈ b, e.1 ≠ k) → count hasher m k = some 0) ∧
    (∀ i b, m.buckets[i]? = some b → ∀ e ∈ b, e.1 = k →
      i = hasher k % m.buckets.length) := by
  have hwf := hr.wf
  refine ⟨?_, ?_, ?_⟩
  · rintro ⟨b, hb, e, he, hk⟩
    exact (hwf.sound.count_eq_one_iff k).2
      ⟨e.2, List.mem_flatten.2 ⟨b, hb, by rw [← hk]; exact he⟩⟩
  · intro h
    exact (hwf.sound.count_eq_zero_iff k).2 (absent_iff_buckets.2 h)
  · intro i b hb e he hk
    rw [← hk]
    exact (hwf.placed i b hb e he).symm

/-- Witness of C11 on `ex_map6`, key 6 (second chain, behind key 1). -/
theorem C11_count_reports_presence_witness :
    Reachable id ex_map6 ∧
    (((∃ b ∈ ex_map6.buckets, ∃ e ∈ b, e.1 = 6) → count id ex_map6 6 = some 1) ∧
    ((∀ b ∈ ex_map6.buckets, ∀ e ∈ b, e.1 ≠ 6) → count id ex_map6 6 = some 0) ∧
    (∀ i b, ex_map6.buckets[i]? = some b → ∀ e ∈ b, e.1 = 6 →
      i = id 6 % ex_map6.buckets.length)) :=
  ⟨ex_map6_reachable, C11_count_reports_presence id ex_map6 6 ex_map6_reachable⟩

/-- C13 (uniqueness invariant). In every reachable map no two entries of the
table, in one chain or in two, have equal keys: the keys of all chains
together are pairwise distinct and `count` is 0 or 1. The freshly
constructed map has the property, and every completed `insert`, `erase`,
`operator[]` and `clear` on a reachable map, rehashing or not, leads to a
map that has it. -/
theorem C13_uniqueness {K V : Type} [DecidableEq K] [Inhabited V]
    (hasher : K → Nat) (m : HashMap K V) (hr : Reachable hasher m) :
    unique_keys m ∧ (m.buckets.flatten.map Prod.fst).Nodup ∧
    (∀ k, count hasher m k = some 0 ∨ count hasher m k = some 1) ∧
    unique_keys (new : HashMap K V) ∧
    (∀ m1, step hasher m m1 →
      unique_keys m1 ∧ (m1.buckets.flatten.map Prod.fst).Nodup) := by
  have hwf := hr.wf
  refine ⟨hwf.sound.unique_keys, hwf.nodup, fun k => hwf.sound.count_isSome k,
    (new_wf hasher).sound.unique_keys, fun m1 hst => ?_⟩
  have hwf1 := step_wf hwf hst
  exact ⟨hwf1.sound.unique_keys, hwf1.nodup⟩

/-- Witness of C13 on `ex_map6`. -/
theorem C13_uniqueness_witness :
    Reachable id ex_map6 ∧
    (unique_keys ex_map6 ∧ (ex_map6.buckets.flatten.map Prod.fst).Nodup ∧
    (∀ k, count id ex_map6 k = some 0 ∨ count id ex_map6 k = some 1) ∧
    unique_keys (new : HashMap Nat Nat) ∧
    (∀ m1, step id ex_map6 m1 →
      unique_keys m1 ∧ (m1.buckets.flatten.map Prod.fst).Nodup)) :=
  ⟨ex_map6_reachable, C13_uniqueness id ex_map6 ex_map6_reachable⟩

/-- C14 (placement invariant). In every reachable map the table length is
`sizes[cur_capacity]` and every entry of chain `i` has
`i = hash(key) mod table length`. The freshly constructed map has the
property; every completed `insert`, `erase`, `operator[]` and `clear` on a
reachable map leads to a map that has it; and `change_size` to any level of
the schedule returns a map that has it. -/
theorem C14_placement {K V : Type} [DecidableEq K] [Inhabited V]
    (hasher : K → Nat) (m : HashMap K V) (hr : Reachable hasher m) :
    placement hasher m ∧ placement hasher (new : HashMap K V) ∧
    (∀ m1, step hasher m m1 → placement hasher m1) ∧
    (∀ c, c < sizes.length →
      ∃ m1, change_size hasher m c = some m1 ∧ m1.cur_capacity = c ∧
        placement hasher m1) := by
  have hwf := hr.wf
  refine ⟨hwf.sound.placement, (new_wf hasher).sound.placement,
    fun m1 hst => (step_wf hwf hst).sound.placement, fun c hc => ?_⟩
  obtain ⟨n, hn⟩ := sizes_isSome (by simpa [sizes_length] using hc)
  have hsome : ∃ m1, change_size hasher m c = some m1 := by
    unfold change_size
    split
    · exact ⟨_, rfl⟩
    · rw [hn]
      exact ⟨_, rfl⟩
  obtain ⟨m1, hm1⟩ := hsome
  obtain ⟨hs1, _, _, hcap⟩ := change_size_sound hwf.sound hm1
  exact ⟨m1, hm1, hcap, hs1.placement⟩

/-- Witness of C14 on `ex_map6`. -/
theorem C14_placement_witness :
    Reachable id ex_map6 ∧
    (placement id ex_map6 ∧ placement id (new : HashMap Nat Nat) ∧
    (∀ m1, step id ex_map6 m1 → placement id m1) ∧
    (∀ c, c < sizes.length →
      ∃ m1, change_size id ex_map6 c = some m1 ∧ m1.cur_capacity = c ∧
        placement id m1)) :=
  ⟨ex_map6_reachable, C14_placement id ex_map6 ex_map6_reachable⟩

/-- C19 (load-factor band). In every reachable map `load_factor()` is
defined, equals `size * 100 / sizes[level]`, is at most 130, and is at least
30 unless the level is 0. So after a completed call neither threshold is
crossed: `trySizeUp()` and `trySizeDown()` would change nothing; and an
empty reachable map is at level 0. -/
theorem C19_load_band {K V : Type} [DecidableEq K] [Inhabited V]
    (hasher : K → Nat) (m : HashMap K V) (hr : Reachable hasher m) :
    ∃ s lf, sizes[m.cur_capacity]? = some s ∧ load_factor m = some lf ∧
      lf = m.size * 100 / s ∧ lf ≤ growLoadFactorThreshold ∧
      (m.cur_capacity = 0 ∨ shrintLoadFactorThreshold ≤ lf) ∧
      trySizeUp hasher m = some (m, false) ∧ trySizeDown hasher m = some (m, false) ∧
      (m.size = 0 → m.cur_capacity = 0) := by
  have hwf := hr.wf
  have hb := hwf.size_bound
  have hsz : m.cur_size * 100 < size_t_mod := by unfold size_t_mod; omega
  refine ⟨m.buckets.length, _, hwf.level, load_factor_eq hwf.sound hsz, rfl, hwf.band_hi,
    hwf.band_lo, trySizeUp_noop hwf, trySizeDown_noop hwf, fun h0 => ?_⟩
  rcases hwf.band_lo with h1 | h1
  · exact h1
  · unfold size at h0
    rw [h0] at h1
    simp [shrintLoadFactorThreshold] at h1

/-- Witness of C19 on `ex_map6` (load factor 120 at level 0). -/
theorem C19_load_band_witness :
    Reachable id ex_map6 ∧
    ∃ s lf, sizes[ex_map6.cur_capacity]? = some s ∧ load_factor ex_map6 = some lf ∧
      lf = ex_map6.size * 100 / s ∧ lf ≤ growLoadFactorThreshold ∧
      (ex_map6.cur_capacity = 0 ∨ shrintLoadFactorThreshold ≤ lf) ∧
      trySizeUp id ex_map6 = some (ex_map6, false) ∧
      trySizeDown id ex_map6 = some (ex_map6, false) ∧
      (ex_map6.size = 0 → ex_map6.cur_capacity = 0) :=
  ⟨ex_map6_reachable, C19_load_band id ex_map6 ex_map6_reachable⟩

namespace HashMap

variable {K V : Type} [DecidableEq K]

/-- The grow check of `insert` and `operator[]` on an absent key: what
`trySizeUp()` returns on the state that holds the new entry. -/
theorem trySizeUp_mid {hasher : K → Nat} {m m2 : HashMap K V} {flag : Bool}
    (h : WF hasher m) (val : K × V) (habs : ∀ v, (val.1, v) ∉ m.entries)
    {b : List (K × V)} (hb : m.buckets[hasher val.1 % m.buckets.length]? = some b)
    (hts : trySizeUp hasher
        { m with
          buckets := m.buckets.set (hasher val.1 % m.buckets.length) (val :: b)
          cur_size := (m.cur_size + 1) % size_t_mod } = some (m2, flag)) :
    WF hasher m2 ∧ m2.entries.Perm (val :: m.entries) ∧ m2.cur_size = m.cur_size + 1 ∧
      (flag = false → m2.cur_capacity = m.cur_capacity ∧
        m2.buckets = m.buckets.set (hasher val.1 % m.buckets.length) (val :: b)) ∧
      (flag = true → m2.cur_capacity = m.cur_capacity + 1) ∧
      (flag = true ↔
        growLoadFactorThreshold < (m.cur_size + 1) * 100 / m.buckets.length) := by
  obtain ⟨hs1, hperm, hsz⟩ := insert_mid_sound h val habs hb
  have hbd := h.size_bound
  obtain ⟨hwf, hp2, hs2, hfalse, htrue, hiff⟩ := trySizeUp_wf hs1
    (by simp only [List.length_set]; rw [hsz]; omega)
    (by
      simp only [List.length_set]
      rcases h.lo_bound with h0 | h1
      · exact Or.inl h0
      · right; rw [hsz]; omega) hts
  refine ⟨hwf, hp2.trans hperm, by rw [hs2]; exact hsz, ?_, htrue, ?_⟩
  · intro hf
    rw [hfalse hf]
    exact ⟨rfl, rfl⟩
  · simp only [List.length_set] at hiff
    rw [hsz] at hiff
    exact hiff

/-- The level after `insert` of an absent key follows the grow rule. -/
theorem insert_absent_level {hasher : K → Nat} {m m1 : HashMap K V} (h : WF hasher m)
    (val : K × V) (habs : ∀ v, (val.1, v) ∉ m.entries)
    (hi : insert hasher m val = some m1) :
    m1.cur_size = m.cur_size + 1 ∧
      (growLoadFactorThreshold < (m.cur_size + 1) * 100 / m.buckets.length →
        m1.cur_capacity = m.cur_capacity + 1) ∧
      (¬ growLoadFactorThreshold < (m.cur_size + 1) * 100 / m.buckets.length →
        m1.cur_capacity = m.cur_capacity) := by
  obtain ⟨b, hb⟩ := h.sound.bucket val.1
  rw [insert_unfold_absent h val habs hb] at hi
  obtain ⟨r, hr, rfl⟩ := Option.map_eq_some'.1 hi
  obtain ⟨m2, flag⟩ := r
  obtain ⟨_, _, hsz, hfalse, htrue, hiff⟩ := trySizeUp_mid h val habs hb hr
  refine ⟨hsz, fun hgt => htrue (hiff.2 hgt), fun hle => ?_⟩
  cases flag with
  | false => exact (hfalse rfl).1
  | true => exact absurd (hiff.1 rfl) hle

/-- The level after `operator[]` on an absent key follows the grow rule; when
the table grows, one call level is not enough and the inner call returns at
once on the rehashed table. -/
theorem index_absent_level [Inhabited V] {hasher : K → Nat} {m m1 : HashMap K V}
    {r : value_ref} (h : WF hasher m) {key : K} (habs : ∀ v, (key, v) ∉ m.entries)
    {fuel : Nat} (hi : index_fuel hasher fuel m key = some (m1, r)) :
    (growLoadFactorThreshold < (m.cur_size + 1) * 100 / m.buckets.length →
      m1.cur_capacity = m.cur_capacity + 1 ∧ index_fuel hasher 1 m key = none ∧
        ∀ fuel1, index_fuel hasher (fuel1 + 1) m1 key = some (m1, r)) ∧
    (¬ growLoadFactorThreshold < (m.cur_size + 1) * 100 / m.buckets.length →
      m1.cur_capacity = m.cur_capacity ∧ index_fuel hasher 1 m key = some (m1, r)) := by
  cases fuel with
  | zero => simp [index_fuel] at hi
  | succ fuel =>
    obtain ⟨b, hb⟩ := h.sound.bucket key
    have hu1 := index_unfold_absent h habs hb 0
    rw [index_unfold_absent h habs hb] at hi
    cases hts : trySizeUp hasher
          { m with
            buckets := m.buckets.set (hasher key % m.buckets.length) ((key, default) :: b)
            cur_size := (m.cur_size + 1) % size_t_mod } with
    | none => rw [hts] at hi; cases hi
    | some res =>
      obtain ⟨m2, flag⟩ := res
      rw [hts] at hi hu1
      obtain ⟨hwf, hperm, _, hfalse, htrue, hiff⟩ :=
        trySizeUp_mid h (key, (default : V)) habs hb hts
      cases flag with
      | false =>
        simp only [Option.some.injEq, Prod.mk.injEq] at hi
        obtain ⟨rfl, rfl⟩ := hi
        refine ⟨fun hgt => ?_, fun _ => ⟨(hfalse rfl).1, hu1⟩⟩
        have := hiff.2 hgt
        cases this
      | true =>
        simp only at hi hu1
        have hmem : (key, (default : V)) ∈ m2.entries :=
          hperm.symm.subset (List.mem_cons_self _ _)
        obtain ⟨r1, hr1, _⟩ := index_present hwf hmem
        cases fuel with
        | zero => simp [index_fuel] at hi
        | succ fuel =>
          rw [hr1 fuel] at hi
          simp only [Option.some.injEq, Prod.mk.injEq] at hi
          obtain ⟨rfl, rfl⟩ := hi
          refine ⟨fun _ => ⟨htrue rfl, ?_, hr1⟩, fun hle => absurd (hiff.1 rfl) hle⟩
          rw [hu1]
          rfl

/-- The shrink check of `erase` on a present key: the state that lost the
entry, and what `trySizeDown()` returns on it. -/
theorem erase_present_level {hasher : K → Nat} {m m1 : HashMap K V} (h : WF hasher m)
    {key : K} {v : V} (hex : (key, v) ∈ m.entries) (he : erase hasher m key = some m1) :
    m1.cur_size + 1 = m.cur_size ∧
      (((m.cur_size - 1) * 100 / m.buckets.length < shrintLoadFactorThreshold ∧
          0 < m.cur_capacity) → m1.cur_capacity + 1 = m.cur_capacity) ∧
      (¬ ((m.cur_size - 1) * 100 / m.buckets.length < shrintLoadFactorThreshold ∧
          0 < m.cur_capacity) → m1.cur_capacity = m.cur_capacity) := by
  obtain ⟨b, hb, hmem⟩ := h.sound.mem_bucket hex
  simp only at hb
  have hbd := h.size_bound
  have hne : erase_first key b ≠ none := by
    intro hn
    exact erase_first_eq_none.1 hn _ hmem rfl
  obtain ⟨b1, hb1⟩ := Option.ne_none_iff_exists'.1 hne
  obtain ⟨w, hw⟩ := erase_first_some_perm hb1
  obtain ⟨rest, hr1, hr2⟩ := flatten_split hb
  have hperm : m.entries.Perm
      ((key, w) :: (m.buckets.set (hasher key % m.buckets.length) b1).flatten) :=
    (hr1.trans (List.Perm.append_right rest hw)).trans (List.Perm.cons _ (hr2 b1).symm)
  have hlen := hperm.length_eq
  rw [List.length_cons] at hlen
  have hpos : 1 ≤ m.cur_size := by
    rw [h.size]; unfold entries at hlen; omega
  have hsize : (m.cur_size + size_t_mod - 1) % size_t_mod = m.cur_size - 1 := by
    have h2 : m.cur_size + size_t_mod - 1 = (m.cur_size - 1) + size_t_mod := by omega
    rw [h2, Nat.add_mod_right]
    apply Nat.mod_eq_of_lt
    unfold size_t_mod
    omega
  have hs1 : Sound hasher
      { m with
        buckets := m.buckets.set (hasher key % m.buckets.length) b1
        cur_size := (m.cur_size + size_t_mod - 1) % size_t_mod } := by
    refine ⟨by simpa using h.level, ?_, ?_, ?_⟩
    · intro i c hc e he1
      simp only [List.length_set]
      by_cases hi : hasher key % m.buckets.length = i
      · subst hi
        rw [List.getElem?_set_self (Nat.mod_lt _ h.sound.length_pos)] at hc
        simp only [Option.some.injEq] at hc
        subst hc
        exact h.placed _ b hb e (hw.symm.subset (List.mem_cons_of_mem _ he1))
      · rw [List.getElem?_set_ne hi] at hc
        exact h.placed i c hc e he1
    · have hnd := (hperm.map Prod.fst).nodup_iff.1 h.nodup
      rw [List.map_cons, List.nodup_cons] at hnd
      exact hnd.2
    · simp only
      rw [hsize, h.size]
      unfold entries at hlen
      omega
  have hunf : erase hasher m key =
      (trySizeDown hasher
        { m with
          buckets := m.buckets.set (hasher key % m.buckets.length) b1
          cur_size := (m.cur_size + size_t_mod - 1) % size_t_mod }).map Prod.fst := by
    unfold erase
    rw [hb]
    simp only [hb1]
  rw [hunf] at he
  obtain ⟨res, hres, rfl⟩ := Option.map_eq_some'.1 he
  obtain ⟨m2, flag⟩ := res
  obtain ⟨_, _, hs2, hfalse, htrue, hiff⟩ := trySizeDown_wf hs1
    (by simp only [List.length_set]; rw [hsize]; omega)
    (by
      simp only [List.length_set]
      rcases h.lo_bound with h0 | h1
      · exact Or.inl h0
      · right
        rw [hsize]
        omega) hres
  simp only [List.length_set] at hiff hfalse htrue hs2
  rw [hsize] at hiff hs2
  have hc2 : flag = false → m2.cur_capacity = m.cur_capacity := by
    intro hf
    have h5 := hfalse hf
    subst h5
    simp only
  refine ⟨?_, fun hlt => htrue (hiff.2 hlt), fun hnot => ?_⟩
  · show m2.cur_size + 1 = m.cur_size
    omega
  · cases hflag : flag with
    | false => exact hc2 hflag
    | true => exact absurd (hiff.1 hflag) hnot

end HashMap

open HashMap

set_option maxRecDepth 100000 in
/-- The scenario of the specification, evaluated for sizes and levels: keys
1..200 inserted into a fresh map, then keys 1..190 erased (identity hash). -/
theorem scenario_200_levels :
    (from_range id ((List.range' 1 200).map (fun i => (i, i * 10)))).map
        (fun m : HashMap Nat Nat => (m.size, m.cur_capacity,
          (erase_all id (List.range' 1 190) m).map (fun m2 => (m2.size, m2.cur_capacity)))) =
      some (200, 5, some (10, 2)) := by
  decide

/-- C15 (grow rule). In a reachable map at a level `L` below the last index
of the schedule, `insert` of an absent key returns; with `n` the new size the
level afterwards is `L + 1` if `n * 100 / sizes[L] > 130` and `L` otherwise.
Scenario: a fresh map is still at level 0 after six distinct inserts (load
factor 120), at level 1 after the seventh, and above level 0 after 200. -/
theorem C15_grow_rule :
    (∀ (K V : Type) [DecidableEq K] [Inhabited V] (hasher : K → Nat) (m : HashMap K V)
        (k : K) (v : V) (s : Nat),
      Reachable hasher m → m.cur_capacity < sizes.length - 1 →
      count hasher m k = some 0 → sizes[m.cur_capacity]? = some s →
      ∃ m1, insert hasher m (k, v) = some m1 ∧ m1.size = m.size + 1 ∧
        (growLoadFactorThreshold < m1.size * 100 / s →
          m1.cur_capacity = m.cur_capacity + 1) ∧
        (m1.size * 100 / s ≤ growLoadFactorThreshold →
          m1.cur_capacity = m.cur_capacity)) ∧
    (from_range id [(1, 10), (2, 20), (3, 30), (4, 40), (5, 50), (6, 60)]).map
        (fun m : HashMap Nat Nat => (m.cur_capacity, load_factor m)) = some (0, some 120) ∧
    (from_range id [(1, 10), (2, 20), (3, 30), (4, 40), (5, 50), (6, 60), (7, 70)]).map
        (fun m : HashMap Nat Nat => m.cur_capacity) = some 1 ∧
    (∃ m : HashMap Nat Nat,
      from_range id ((List.range' 1 200).map (fun i => (i, i * 10))) = some m ∧
      m.size = 200 ∧ 0 < m.cur_capacity) := by
  refine ⟨?_, by decide, by decide, ?_⟩
  · intro K V _ _ hasher m k v s hr hc habs hs
    have hwf := hr.wf
    have hc1 : m.cur_capacity < 23 := by simpa [sizes_length] using hc
    have habs1 := (hwf.sound.count_eq_zero_iff k).1 habs
    have hsl : s = m.buckets.length := by
      have := hwf.level
      rw [hs] at this
      exact Option.some.inj this
    subst hsl
    obtain ⟨m1, hm1⟩ := insert_isSome hwf hc1 (k, v)
    obtain ⟨hsz, hgrow, hstay⟩ := insert_absent_level hwf (k, v) habs1 hm1
    refine ⟨m1, hm1, hsz, ?_, ?_⟩
    · intro hgt
      apply hgrow
      unfold size at hgt
      rw [hsz] at hgt
      exact hgt
    · intro hle
      apply hstay
      unfold size at hle
      rw [hsz] at hle
      omega
  · obtain ⟨m, hm, heq⟩ := Option.map_eq_some'.1 scenario_200_levels
    simp only [Prod.mk.injEq] at heq
    exact ⟨m, hm, heq.1, by rw [heq.2.1]; decide⟩

/-- Witness of C15: the seventh insert into `ex_map6` (load factor 140). -/
theorem C15_grow_rule_witness :
    Reachable id ex_map6 ∧ ex_map6.cur_capacity < sizes.length - 1 ∧
    count id ex_map6 7 = some 0 ∧ sizes[ex_map6.cur_capacity]? = some 5 ∧
    ∃ m1, insert id ex_map6 (7, 70) = some m1 ∧ m1.size = ex_map6.size + 1 ∧
      (growLoadFactorThreshold < m1.size * 100 / 5 →
        m1.cur_capacity = ex_map6.cur_capacity + 1) ∧
      (m1.size * 100 / 5 ≤ growLoadFactorThreshold →
        m1.cur_capacity = ex_map6.cur_capacity) :=
  ⟨ex_map6_reachable, by decide, by decide, by decide,
    C15_grow_rule.1 Nat Nat id ex_map6 7 70 5 ex_map6_reachable (by decide) (by decide)
      (by decide)⟩

/-- C16 (shrink rule). In a reachable map at level `L`, `erase` of a present
key returns; with `n` the new size the level afterwards is `L - 1` if
`L > 0` and `n * 100 / sizes[L] < 30`, and `L` otherwise (so level 0 stays
level 0). Scenario: after inserting the keys 1..200 into a fresh map and
erasing the keys 1..190 the size is 10 and the level is lower than after the
insertions. -/
theorem C16_shrink_rule :
    (∀ (K V : Type) [DecidableEq K] [Inhabited V] (hasher : K → Nat) (m : HashMap K V)
        (k : K) (s : Nat),
      Reachable hasher m → count hasher m k = some 1 →
      sizes[m.cur_capacity]? = some s →
      ∃ m1, erase hasher m k = some m1 ∧ m1.size + 1 = m.size ∧
        (0 < m.cur_capacity ∧ m1.size * 100 / s < shrintLoadFactorThreshold →
          m1.cur_capacity = m.cur_capacity - 1) ∧
        (¬ (0 < m.cur_capacity ∧ m1.size * 100 / s < shrintLoadFactorThreshold) →
          m1.cur_capacity = m.cur_capacity)) ∧
    (∃ m m2 : HashMap Nat Nat,
      from_range id ((List.range' 1 200).map (fun i => (i, i * 10))) = some m ∧
      erase_all id (List.range' 1 190) m = some m2 ∧
      m2.size = 10 ∧ m2.cur_capacity < m.cur_capacity) := by
  constructor
  · intro K V _ _ hasher m k s hr hpres hs
    have hwf := hr.wf
    obtain ⟨v, hv⟩ := (hwf.sound.count_eq_one_iff k).1 hpres
    have hsl : s = m.buckets.length := by
      have := hwf.level
      rw [hs] at this
      exact Option.some.inj this
    subst hsl
    obtain ⟨m1, hm1, _, _, hsz⟩ := erase_present hwf hv
    obtain ⟨_, hshrink, hstay⟩ := erase_present_level hwf hv hm1
    have hsz1 : m1.cur_size = m.cur_size - 1 := by omega
    refine ⟨m1, hm1, hsz, ?_, ?_⟩
    · rintro ⟨hpos, hlt⟩
      unfold size at hlt
      rw [hsz1] at hlt
      have := hshrink ⟨hlt, hpos⟩
      omega
    · intro hnot
      apply hstay
      rintro ⟨hlt, hpos⟩
      apply hnot
      unfold size
      rw [hsz1]
      exact ⟨hpos, hlt⟩
  · obtain ⟨m, hm, heq⟩ := Option.map_eq_some'.1 scenario_200_levels
    simp only [Prod.mk.injEq] at heq
    obtain ⟨_, hcap, her⟩ := heq
    obtain ⟨m2, hm2, heq2⟩ := Option.map_eq_some'.1 her
    simp only [Prod.mk.injEq] at heq2
    exact ⟨m, m2, hm, hm2, heq2.1, by rw [heq2.2, hcap]; decide⟩

open HashMap

theorem HashMap.erase_all_reachable {K V : Type} [DecidableEq K] [Inhabited V]
    {hasher : K → Nat} (keys : List K) {m m1 : HashMap K V} (hm : Reachable hasher m)
    (h : erase_all hasher keys m = some m1) : Reachable hasher m1 := by
  have key : ∀ (l : List K) (acc : Option (HashMap K V)),
      (∀ m0, acc = some m0 → Reachable hasher m0) → ∀ m2,
      l.foldl (fun acc key => acc.bind (fun m => erase hasher m key)) acc = some m2 →
      Reachable hasher m2 := by
    intro l
    induction l with
    | nil => intro acc hacc m2 h2; exact hacc m2 h2
    | cons x l ih =>
      intro acc hacc m2 h2
      refine ih _ ?_ m2 h2
      intro m0 h0
      obtain ⟨m3, hm3, her⟩ := Option.bind_eq_some.1 h0
      exact Reachable.erase x (hacc m3 hm3) her
  exact key keys (some m) (fun m0 h0 => by cases h0; exact hm) m1 h

theorem ex_map7_reachable : Reachable id ex_map7 :=
  from_range_reachable [(1, 10), (2, 20), (3, 30), (4, 40), (5, 50), (6, 60), (7, 70)]
    (by decide)

theorem ex_map4_reachable : Reachable id ex_map4 :=
  erase_all_reachable [5, 6, 7] ex_map7_reachable (by decide)

/-- Witness of C16: erasing key 4 from `ex_map4` leaves load factor 27 at
level 1, so the table shrinks to level 0. -/
theorem C16_shrink_rule_witness :
    Reachable id ex_map4 ∧ count id ex_map4 4 = some 1 ∧
    sizes[ex_map4.cur_capacity]? = some 11 ∧
    ∃ m1, erase id ex_map4 4 = some m1 ∧ m1.size + 1 = ex_map4.size ∧
      (0 < ex_map4.cur_capacity ∧ m1.size * 100 / 11 < shrintLoadFactorThreshold →
        m1.cur_capacity = ex_map4.cur_capacity - 1) ∧
      (¬ (0 < ex_map4.cur_capacity ∧ m1.size * 100 / 11 < shrintLoadFactorThreshold) →
        m1.cur_capacity = ex_map4.cur_capacity) :=
  ⟨ex_map4_reachable, by decide, by decide,
    C16_shrink_rule.1 Nat Nat id ex_map4 4 11 ex_map4_reachable (by decide) (by decide)⟩

/-- C18 (one level change per call; the self-call of `operator[]` ends). In a
reachable map below the last level each of `insert`, `erase` and
`operator[]` returns with a level that differs from the level before by at
most 1. When `m[k]` on an absent key grows the table, one call level is not
enough (`fuel = 1` runs out) and two are: the result is the rehashed map with
one entry and one level more, and the inner call on that map finds `k` and
returns the same map and reference, adding nothing. -/
theorem C18_one_level_change {K V : Type} [DecidableEq K] [Inhabited V]
    (hasher : K → Nat) (m : HashMap K V) (hr : Reachable hasher m)
    (hc : m.cur_capacity < sizes.length - 1) :
    (∀ val, ∃ m1, insert hasher m val = some m1 ∧
      m.cur_capacity ≤ m1.cur_capacity ∧ m1.cur_capacity ≤ m.cur_capacity + 1) ∧
    (∀ key, ∃ m1, erase hasher m key = some m1 ∧
      m1.cur_capacity ≤ m.cur_capacity ∧ m.cur_capacity ≤ m1.cur_capacity + 1) ∧
    (∀ key, ∃ m1 r, (∀ fuel, index_fuel hasher (fuel + 2) m key = some (m1, r)) ∧
      m.cur_capacity ≤ m1.cur_capacity ∧ m1.cur_capacity ≤ m.cur_capacity + 1 ∧
      (count hasher m key = some 0 →
        growLoadFactorThreshold < (m.size + 1) * 100 / m.buckets.length →
        index_fuel hasher 1 m key = none ∧
        (∀ fuel, index_fuel hasher (fuel + 1) m1 key = some (m1, r)) ∧
        m1.size = m.size + 1 ∧ m1.cur_capacity = m.cur_capacity + 1 ∧
        m1.buckets.flatten.Perm ((key, default) :: m.buckets.flatten))) := by
  have hwf := hr.wf
  have hc1 : m.cur_capacity < 23 := by simpa [sizes_length] using hc
  refine ⟨fun val => ?_, fun key => ?_, fun key => ?_⟩
  · obtain ⟨m1, hm1⟩ := insert_isSome hwf hc1 val
    refine ⟨m1, hm1, ?_⟩
    by_cases habs : ∀ v, (val.1, v) ∉ m.entries
    · obtain ⟨_, hgrow, hstay⟩ := insert_absent_level hwf val habs hm1
      by_cases hgt : growLoadFactorThreshold < (m.cur_size + 1) * 100 / m.buckets.length
      · have := hgrow hgt; omega
      · have := hstay hgt; omega
    · rw [insert_present hwf val (not_absent_iff.1 habs)] at hm1
      cases hm1
      omega
  · by_cases habs : ∀ v, (key, v) ∉ m.entries
    · exact ⟨m, erase_absent hwf habs, by omega, by omega⟩
    · obtain ⟨v, hv⟩ := not_absent_iff.1 habs
      obtain ⟨m1, hm1, _⟩ := erase_present hwf hv
      obtain ⟨_, hshrink, hstay⟩ := erase_present_level hwf hv hm1
      refine ⟨m1, hm1, ?_⟩
      by_cases hlt : (m.cur_size - 1) * 100 / m.buckets.length < shrintLoadFactorThreshold ∧
          0 < m.cur_capacity
      · have := hshrink hlt; omega
      · have := hstay hlt; omega
  · obtain ⟨res, h2, _⟩ := index_isSome hwf hc1 key 0
    obtain ⟨m1, r⟩ := res
    have hall : ∀ fuel, index_fuel hasher (fuel + 2) m key = some (m1, r) := by
      intro fuel
      obtain ⟨res1, h3, h4⟩ := index_isSome hwf hc1 key fuel
      rw [h2] at h3
      cases h3
      exact h4
    refine ⟨m1, r, hall, ?_⟩
    by_cases habs : ∀ v, (key, v) ∉ m.entries
    · obtain ⟨hgrow, hstay⟩ := index_absent_level hwf habs h2
      obtain ⟨_, hperm, hsz, _⟩ := index_absent hwf habs h2
      by_cases hgt : growLoadFactorThreshold < (m.cur_size + 1) * 100 / m.buckets.length
      · obtain ⟨hcap, hnone, hinner⟩ := hgrow hgt
        exact ⟨by omega, by omega, fun _ _ => ⟨hnone, hinner, hsz, hcap, hperm⟩⟩
      · have := (hstay hgt).1
        exact ⟨by omega, by omega, fun _ hgt1 => absurd hgt1 hgt⟩
    · obtain ⟨v, hv⟩ := not_absent_iff.1 habs
      obtain ⟨r1, hr1, _⟩ := index_present hwf hv
      rw [hr1 1] at h2
      simp only [Option.some.injEq, Prod.mk.injEq] at h2
      rw [← h2.1]
      refine ⟨le_refl _, by omega, fun h0 _ => ?_⟩
      exact absurd hv ((hwf.sound.count_eq_zero_iff key).1 h0 v)

/-- Witness of C18 on `ex_map6`: `m[7]` grows the table from level 0 to 1. -/
theorem C18_one_level_change_witness :
    Reachable id ex_map6 ∧ ex_map6.cur_capacity < sizes.length - 1 ∧
    ((∀ val, ∃ m1, insert id ex_map6 val = some m1 ∧
      ex_map6.cur_capacity ≤ m1.cur_capacity ∧
      m1.cur_capacity ≤ ex_map6.cur_capacity + 1) ∧
    (∀ key, ∃ m1, erase id ex_map6 key = some m1 ∧
      m1.cur_capacity ≤ ex_map6.cur_capacity ∧
      ex_map6.cur_capacity ≤ m1.cur_capacity + 1) ∧
    (∀ key, ∃ m1 r, (∀ fuel, index_fuel id (fuel + 2) ex_map6 key = some (m1, r)) ∧
      ex_map6.cur_capacity ≤ m1.cur_capacity ∧
      m1.cur_capacity ≤ ex_map6.cur_capacity + 1 ∧
      (count id ex_map6 key = some 0 →
        growLoadFactorThreshold < (ex_map6.size + 1) * 100 / ex_map6.buckets.length →
        index_fuel id 1 ex_map6 key = none ∧
        (∀ fuel, index_fuel id (fuel + 1) m1 key = some (m1, r)) ∧
        m1.size = ex_map6.size + 1 ∧ m1.cur_capacity = ex_map6.cur_capacity + 1 ∧
        m1.buckets.flatten.Perm ((key, default) :: ex_map6.buckets.flatten)))) :=
  ⟨ex_map6_reachable, by decide,
    C18_one_level_change id ex_map6 ex_map6_reachable (by decide)⟩

namespace HashMap

variable {K V : Type} [DecidableEq K]

theorem foldl_insert_none (hasher : K → Nat) (l : List (K × V)) :
    l.foldl (fun acc val => acc.bind (fun m => insert hasher m val)) none = none := by
  induction l with
  | nil => rfl
  | cons x l ih => simpa using ih

/-- A run of `insert` calls from a map with the invariants: the final map
holds the entries of the start map and, for every key the start map lacks,
the first pair of the list with that key. -/
theorem foldl_insert_spec (hasher : K → Nat) (l : List (K × V)) :
    ∀ (m0 m : HashMap K V), WF hasher m0 →
      l.foldl (fun acc val => acc.bind (fun m => insert hasher m val)) (some m0) = some m →
      WF hasher m ∧ ∀ k v, (k, v) ∈ m.entries ↔
        ((k, v) ∈ m0.entries ∨
          ((∀ w, (k, w) ∉ m0.entries) ∧ l.find? (fun e => e.1 = k) = some (k, v))) := by
  induction l with
  | nil =>
    intro m0 m h0 h
    simp only [List.foldl_nil, Option.some.injEq] at h
    subst h
    exact ⟨h0, fun k v => by simp⟩
  | cons x l ih =>
    intro m0 m h0 h
    simp only [List.foldl_cons, Option.some_bind] at h
    cases hins : insert hasher m0 x with
    | none =>
      rw [hins, foldl_insert_none] at h
      cases h
    | some m1 =>
      rw [hins] at h
      obtain ⟨hwf, hiff⟩ := ih m1 m (insert_wf h0 hins) h
      refine ⟨hwf, fun k v => ?_⟩
      rw [hiff k v]
      by_cases habs : ∀ w, (x.1, w) ∉ m0.entries
      · obtain ⟨_, hperm, _⟩ := insert_absent h0 x habs hins
        have hmem : ∀ e, e ∈ m1.entries ↔ e = x ∨ e ∈ m0.entries := by
          intro e
          rw [hperm.mem_iff, List.mem_cons]
        by_cases hk : x.1 = k
        · subst hk
          constructor
          · rintro (h1 | ⟨h1, _⟩)
            · rcases (hmem _).1 h1 with h2 | h2
              · right
                refine ⟨habs, ?_⟩
                rw [h2]
                simp [List.find?_cons]
              · exact Or.inl h2
            · exact absurd ((hmem _).2 (Or.inl rfl)) (h1 x.2)
          · rintro (h1 | ⟨_, h1⟩)
            · exact Or.inl ((hmem _).2 (Or.inr h1))
            · left
              simp only [List.find?_cons, decide_True, Option.some.injEq] at h1
              rw [← h1]
              exact (hmem _).2 (Or.inl rfl)
        · have hfind : (x :: l).find? (fun e => e.1 = k) = l.find? (fun e => e.1 = k) := by
            simp [List.find?_cons, hk]
          rw [hfind]
          have hne : ∀ w, (k, w) ≠ x := fun w hw => hk (by rw [← hw])
          constructor
          · rintro (h1 | ⟨h1, h2⟩)
            · rcases (hmem _).1 h1 with h3 | h3
              · exact absurd h3 (hne v)
              · exact Or.inl h3
            · exact Or.inr ⟨fun w hw => h1 w ((hmem _).2 (Or.inr hw)), h2⟩
          · rintro (h1 | ⟨h1, h2⟩)
            · exact Or.inl ((hmem _).2 (Or.inr h1))
            · refine Or.inr ⟨fun w hw => ?_, h2⟩
              rcases (hmem _).1 hw with h3 | h3
              · exact hne w h3
              · exact h1 w h3
      · obtain ⟨w0, hw0⟩ := not_absent_iff.1 habs
        rw [insert_present h0 x ⟨w0, hw0⟩] at hins
        cases hins
        have hfind : (∀ w, (k, w) ∉ m0.entries) →
            (x :: l).find? (fun e => e.1 = k) = l.find? (fun e => e.1 = k) := by
          intro hk
          have : x.1 ≠ k := fun h1 => hk w0 (by rw [← h1]; exact hw0)
          simp [List.find?_cons, this]
        constructor
        · rintro (h1 | ⟨h1, h2⟩)
          · exact Or.inl h1
          · exact Or.inr ⟨h1, by rw [hfind h1]; exact h2⟩
        · rintro (h1 | ⟨h1, h2⟩)
          · exact Or.inl h1
          · exact Or.inr ⟨h1, by rw [← hfind h1]; exact h2⟩

/-- The map built by the range constructor, when the construction returns:
`at(k)` is the value of the first pair with key `k` and throws when there is
none, and the size is the number of distinct keys. -/
theorem from_range_spec (hasher : K → Nat) (l : List (K × V)) {m : HashMap K V}
    (h : from_range hasher l = some m) :
    WF hasher m ∧
    (∀ k, at_ hasher m k =
      match l.find? (fun e => e.1 = k) with
      | some e => .value e.2
      | none => .out_of_range) ∧
    m.size = (l.map Prod.fst).dedup.length := by
  obtain ⟨hwf, hiff⟩ := foldl_insert_spec hasher l new m (new_wf hasher) h
  have hnew : ∀ (k : K) (w : V), (k, w) ∉ (new : HashMap K V).entries := by
    intro k w hw
    simp [entries, new] at hw
  have hiff1 : ∀ k v, (k, v) ∈ m.entries ↔ l.find? (fun e => e.1 = k) = some (k, v) := by
    intro k v
    rw [hiff k v]
    constructor
    · rintro (h1 | ⟨_, h1⟩)
      · exact absurd h1 (hnew k v)
      · exact h1
    · intro h1
      exact Or.inr ⟨hnew k, h1⟩
  refine ⟨hwf, fun k => ?_, ?_⟩
  · cases hf : l.find? (fun e => e.1 = k) with
    | none =>
      simp only
      rw [hwf.sound.at_out_of_range_iff]
      intro v hv
      rw [hiff1, hf] at hv
      cases hv
    | some e =>
      simp only
      rw [hwf.sound.at_value_iff, hiff1, hf]
      have hk := List.find?_some hf
      simp only [decide_eq_true_eq] at hk
      rw [← hk]
  · have hkeys : (m.entries.map Prod.fst).toFinset = (l.map Prod.fst).toFinset := by
      ext k
      simp only [List.mem_toFinset, List.mem_map]
      constructor
      · rintro ⟨e, he, hk⟩
        have h1 : (k, e.2) ∈ m.entries := by rw [← hk]; exact he
        rw [hiff1] at h1
        exact ⟨(k, e.2), List.mem_of_find?_eq_some h1, rfl⟩
      · rintro ⟨e, he, hk⟩
        cases hf : l.find? (fun e => e.1 = k) with
        | none =>
          have := List.find?_eq_none.1 hf e he
          simp only [decide_eq_true_eq] at this
          exact absurd hk this
        | some e1 =>
          have hk1 := List.find?_some hf
          simp only [decide_eq_true_eq] at hk1
          have h1 : (k, e1.2) ∈ m.entries := by
            rw [hiff1, hf, ← hk1]
          exact ⟨(k, e1.2), h1, rfl⟩
    have h1 : m.size = (m.entries.map Prod.fst).length := by
      rw [List.length_map]
      exact hwf.size
    have hnd : (m.entries.map Prod.fst).Nodup := hwf.nodup
    rw [h1, ← List.toFinset_card_of_nodup hnd, hkeys, List.card_toFinset]

end HashMap

namespace HashMap

variable {K V : Type} [DecidableEq K]

/-- At the last level a load factor above 130 makes `trySizeUp()` index the
schedule at 24, outside its 24 entries. -/
theorem trySizeUp_overrun {hasher : K → Nat} {m1 : HashMap K V} (hs : Sound hasher m1)
    (hcap : m1.cur_capacity = 23) (hsz : m1.cur_size * 100 < size_t_mod)
    (hgt : growLoadFactorThreshold < m1.cur_size * 100 / m1.buckets.length) :
    trySizeUp hasher m1 = none := by
  have h24 : sizes[24]? = none := by decide
  unfold trySizeUp
  rw [load_factor_eq hs hsz]
  simp only [hgt, if_true]
  unfold change_size
  rw [hcap]
  simp only [Nat.reduceAdd, Nat.reduceEqDiff, if_false, h24, Option.map_none']

theorem insert_overrun {hasher : K → Nat} {m : HashMap K V} (h : WF hasher m)
    (hcap : m.cur_capacity = 23) (val : K × V) (habs : ∀ v, (val.1, v) ∉ m.entries)
    (hgt : growLoadFactorThreshold < (m.cur_size + 1) * 100 / m.buckets.length) :
    insert hasher m val = none := by
  obtain ⟨b, hb⟩ := h.sound.bucket val.1
  obtain ⟨hs1, _, hsz⟩ := insert_mid_sound h val habs hb
  have hbd := h.size_bound
  rw [insert_unfold_absent h val habs hb, trySizeUp_overrun hs1 hcap]
  · rfl
  · simp only
    rw [hsz]
    unfold size_t_mod
    omega
  · simp only [List.length_set]
    rw [hsz]
    exact hgt

theorem index_overrun [Inhabited V] {hasher : K → Nat} {m : HashMap K V} (h : WF hasher m)
    (hcap : m.cur_capacity = 23) (key : K) (habs : ∀ v, (key, v) ∉ m.entries)
    (hgt : growLoadFactorThreshold < (m.cur_size + 1) * 100 / m.buckets.length)
    (fuel : Nat) : index_fuel hasher fuel m key = none := by
  cases fuel with
  | zero => rfl
  | succ fuel =>
    obtain ⟨b, hb⟩ := h.sound.bucket key
    obtain ⟨hs1, _, hsz⟩ := insert_mid_sound h (key, (default : V)) habs hb
    have hbd := h.size_bound
    rw [index_unfold_absent h habs hb, trySizeUp_overrun hs1 hcap]
    · simp only
      rw [hsz]
      unfold size_t_mod
      omega
    · simp only [List.length_set]
      rw [hsz]
      exact hgt

end HashMap

open HashMap

theorem tall_map_length {L : Nat} (hL : 0 < L) (N : Nat) :
    (tall_map L N).buckets.length = L := by
  simp only [tall_map, List.length_cons, List.length_replicate]
  omega

theorem tall_map_entries (L N : Nat) :
    (tall_map L N).entries = (List.range N).map (fun j => (j * L, 0)) := by
  simp only [entries, tall_map, List.flatten_cons, List.flatten_replicate_nil,
    List.append_nil]

theorem tall_map_sound {L : Nat} (hL : sizes[23]? = some L) (N : Nat) :
    Sound id (tall_map L N) := by
  have hpos : 0 < L := by have := (sizes_bounds hL).2.1; omega
  have hlen := tall_map_length hpos N
  have hent := tall_map_entries L N
  unfold entries at hent
  refine ⟨?_, ?_, ?_, ?_⟩
  · rw [hlen]
    exact hL
  · intro i b hb e he
    rw [hlen]
    cases i with
    | zero =>
      simp only [tall_map, List.getElem?_cons_zero, Option.some.injEq] at hb
      subst hb
      obtain ⟨j, _, rfl⟩ := List.mem_map.1 he
      simp only [id]
      exact Nat.mul_mod_left j L
    | succ i =>
      simp only [tall_map, List.getElem?_cons_succ, List.getElem?_replicate] at hb
      split at hb
      · simp only [Option.some.injEq] at hb
        subst hb
        cases he
      · cases hb
  · rw [hent, List.map_map]
    refine List.Nodup.map ?_ (List.nodup_range N)
    intro j1 j2 h12
    simp only [Function.comp] at h12
    exact Nat.eq_of_mul_eq_mul_right hpos h12
  · rw [hent, List.length_map, List.length_range]
    rfl

theorem tall_map_absent {L : Nat} (hL : 0 < L) (N v : Nat) :
    (N * L, v) ∉ (tall_map L N).entries := by
  rw [tall_map_entries]
  intro h
  obtain ⟨j, hj, hjk⟩ := List.mem_map.1 h
  have h1 : j * L = N * L := (Prod.mk.inj hjk).1
  have h2 : j = N := Nat.eq_of_mul_eq_mul_right hL h1
  rw [List.mem_range] at hj
  omega

theorem full_map_wf : WF id full_map := by
  have hL : sizes[23]? = some 52679969 := by decide
  have hs : Sound id (tall_map 52679969 69010759) := tall_map_sound hL 69010759
  have hlen : (tall_map 52679969 69010759).buckets.length = 52679969 :=
    tall_map_length (by omega) 69010759
  have hsz : (tall_map 52679969 69010759).cur_size = 69010759 := rfl
  have hcap : (tall_map 52679969 69010759).cur_capacity = 23 := rfl
  unfold full_map
  refine WF.of_sound hs ?_ (Or.inr ?_)
  · rw [hlen, hsz]
    omega
  · rw [hlen, hsz]
    omega

namespace HashMap

variable {K V : Type} [DecidableEq K]

/-- The call `insert` returns whenever the grow check has a level to go to:
below the last level, or when the load factor with one more entry stays at
most 130. -/
theorem insert_isSome_of_room {hasher : K → Nat} {m : HashMap K V} (h : WF hasher m)
    (val : K × V)
    (hroom : m.cur_capacity < 23 ∨ (m.cur_size + 1) * 100 < 131 * m.buckets.length) :
    ∃ m1, insert hasher m val = some m1 := by
  rcases hroom with hc | hlt
  · exact insert_isSome h hc val
  · by_cases habs : ∀ v, (val.1, v) ∉ m.entries
    · obtain ⟨b, hb⟩ := h.sound.bucket val.1
      obtain ⟨hs1, _, hsz⟩ := insert_mid_sound h val habs hb
      have hbd := h.size_bound
      have hpos := h.sound.length_pos
      rw [insert_unfold_absent h val habs hb]
      unfold trySizeUp
      rw [load_factor_eq hs1 (by simp only; rw [hsz]; unfold size_t_mod; omega)]
      simp only [List.length_set]
      rw [hsz]
      have hle : ¬ growLoadFactorThreshold < (m.cur_size + 1) * 100 / m.buckets.length := by
        unfold growLoadFactorThreshold
        have : (m.cur_size + 1) * 100 / m.buckets.length < 131 := by
          rw [Nat.div_lt_iff_lt_mul hpos]; omega
        omega
      rw [if_neg hle]
      exact ⟨_, rfl⟩
    · exact ⟨m, insert_present h val (not_absent_iff.1 habs)⟩

/-- A run of `insert` calls returns when the keys of the start map and of the
list together are at most 69010759. -/
theorem foldl_insert_isSome (hasher : K → Nat) (l : List (K × V)) :
    ∀ m0 : HashMap K V, WF hasher m0 →
      ((m0.entries.map Prod.fst).toFinset ∪ (l.map Prod.fst).toFinset).card ≤ 69010759 →
      ∃ m, l.foldl (fun acc val => acc.bind (fun m => insert hasher m val)) (some m0) =
        some m := by
  induction l with
  | nil => intro m0 _ _; exact ⟨m0, rfl⟩
  | cons x l ih =>
    intro m0 h0 hcard
    have hbd := h0.size_bound
    have hb23 := sizes_bounds h0.level
    have hnd : (m0.entries.map Prod.fst).Nodup := h0.nodup
    have hsize : m0.cur_size = (m0.entries.map Prod.fst).toFinset.card := by
      rw [List.toFinset_card_of_nodup hnd, List.length_map]
      exact h0.size
    have hroom : m0.cur_capacity < 23 ∨
        (∃ v, (x.1, v) ∈ m0.entries) ∨ (m0.cur_size + 1) * 100 < 131 * m0.buckets.length := by
      by_cases hc : m0.cur_capacity < 23
      · exact Or.inl hc
      · right
        by_cases habs : ∀ v, (x.1, v) ∉ m0.entries
        · right
          have hc23 : m0.cur_capacity = 23 := by omega
          have hlev := h0.level
          rw [hc23] at hlev
          have h23 : sizes[23]? = some 52679969 := by decide
          rw [h23] at hlev
          have hlen : m0.buckets.length = 52679969 := (Option.some.inj hlev).symm
          have hnotin : x.1 ∉ (m0.entries.map Prod.fst).toFinset := by
            rw [List.mem_toFinset]
            intro hmem
            obtain ⟨e, he, hk⟩ := List.mem_map.1 hmem
            exact habs e.2 (by rw [← hk]; exact he)
          have hsub : Insert.insert x.1 (m0.entries.map Prod.fst).toFinset ⊆
              (m0.entries.map Prod.fst).toFinset ∪ ((x :: l).map Prod.fst).toFinset := by
            intro k hk
            rw [Finset.mem_insert] at hk
            rw [Finset.mem_union]
            rcases hk with hk | hk
            · right
              rw [List.mem_toFinset, hk]
              exact List.mem_map.2 ⟨x, List.mem_cons_self _ _, rfl⟩
            · exact Or.inl hk
          have hcard1 := Finset.card_le_card hsub
          rw [Finset.card_insert_of_not_mem hnotin] at hcard1
          omega
        · exact Or.inl (not_absent_iff.1 habs)
    have hsome : ∃ m1, insert hasher m0 x = some m1 := by
      rcases hroom with hc | hpres | hlt
      · exact insert_isSome_of_room h0 x (Or.inl hc)
      · exact ⟨m0, insert_present h0 x hpres⟩
      · exact insert_isSome_of_room h0 x (Or.inr hlt)
    obtain ⟨m1, hm1⟩ := hsome
    have hwf1 := insert_wf h0 hm1
    have hkeys1 : (m1.entries.map Prod.fst).toFinset ∪ (l.map Prod.fst).toFinset =
        (m0.entries.map Prod.fst).toFinset ∪ ((x :: l).map Prod.fst).toFinset := by
      have hm1keys : ∀ k, k ∈ m1.entries.map Prod.fst ↔
          k = x.1 ∨ k ∈ m0.entries.map Prod.fst := by
        intro k
        by_cases habs : ∀ v, (x.1, v) ∉ m0.entries
        · obtain ⟨_, hperm, _⟩ := insert_absent h0 x habs hm1
          rw [(hperm.map Prod.fst).mem_iff, List.map_cons, List.mem_cons]
        · obtain ⟨w0, hw0⟩ := not_absent_iff.1 habs
          rw [insert_present h0 x ⟨w0, hw0⟩] at hm1
          cases hm1
          constructor
          · exact Or.inr
          · rintro (hk | hk)
            · rw [hk]
              exact List.mem_map.2 ⟨(x.1, w0), hw0, rfl⟩
            · exact hk
      ext k
      simp only [Finset.mem_union, List.mem_toFinset, List.map_cons, List.mem_cons]
      rw [hm1keys k]
      tauto
    simp only [List.foldl_cons, Option.some_bind, hm1]
    exact ih m1 hwf1 (by rw [hkeys1]; exact hcard)

/-- The range constructor returns for every list with at most 69010759
distinct keys. -/
theorem from_range_isSome (hasher : K → Nat) (l : List (K × V))
    (h : (l.map Prod.fst).dedup.length ≤ 69010759) :
    ∃ m, from_range hasher l = some m := by
  apply foldl_insert_isSome hasher l new (new_wf hasher)
  have hnew : ((new : HashMap K V).entries.map Prod.fst).toFinset = ∅ := by
    simp [entries, new]
  rw [hnew, Finset.empty_union, List.card_toFinset]
  exact h

end HashMap

open HashMap

/-- The range constructor on 69010760 distinct keys has no defined result: a
map with that many entries has a load factor above 130 at every level. -/
theorem from_range_overrun :
    from_range id ((List.range 69010760).map (fun i => (i, 0))) =
      (none : Option (HashMap Nat Nat)) := by
  cases h : from_range id ((List.range 69010760).map (fun i => (i, 0))) with
  | none => rfl
  | some m =>
    exfalso
    obtain ⟨hwf, _, hsize⟩ := from_range_spec id _ h
    have hbd := hwf.size_bound
    have hkeys : ((List.range 69010760).map (fun i => ((i, 0) : Nat × Nat))).map Prod.fst =
        List.range 69010760 := by
      rw [List.map_map]
      exact List.map_id _
    rw [hkeys, (List.nodup_range 69010760).dedup, List.length_range] at hsize
    unfold size at hsize
    omega

/-- A map reachable from a fresh one, by 69010759 calls of `insert`, on which
one more `insert` of an absent key has no defined result. -/
theorem reachable_overrun :
    ∃ m : HashMap Nat Nat, Reachable id m ∧
      from_range id ((List.range 69010759).map (fun i => (i, 0))) = some m ∧
      m.cur_capacity = 23 ∧ m.size = 69010759 ∧ count id m 69010759 = some 0 ∧
      insert id m (69010759, 0) = none := by
  have hkeys : ((List.range 69010759).map (fun i => ((i, 0) : Nat × Nat))).map Prod.fst =
      List.range 69010759 := by
    rw [List.map_map]
    exact List.map_id _
  obtain ⟨m, hm⟩ := from_range_isSome id ((List.range 69010759).map (fun i => ((i, 0) : Nat × Nat)))
    (by rw [hkeys, (List.nodup_range 69010759).dedup, List.length_range])
  obtain ⟨hwf, _, hsize⟩ := from_range_spec id _ hm
  rw [hkeys, (List.nodup_range 69010759).dedup, List.length_range] at hsize
  have hsplit : List.range 69010760 = List.range 69010759 ++ [69010759] :=
    List.range_succ 69010759
  have hover := from_range_overrun
  rw [hsplit, List.map_append] at hover
  unfold from_range at hover hm
  rw [List.foldl_append, hm] at hover
  simp only [List.map_cons, List.map_nil, List.foldl_cons, List.foldl_nil,
    Option.some_bind] at hover
  have hcap : m.cur_capacity = 23 := by
    by_contra hne
    have hlt : m.cur_capacity < 23 := by
      have := (sizes_bounds hwf.level).1
      omega
    obtain ⟨m1, hm1⟩ := insert_isSome hwf hlt ((69010759, 0) : Nat × Nat)
    rw [hover] at hm1
    cases hm1
  have hcnt : count id m 69010759 = some 0 := by
    rcases hwf.sound.count_isSome 69010759 with h0 | h1
    · exact h0
    · have hpres := insert_present hwf ((69010759, 0) : Nat × Nat)
        ((hwf.sound.count_eq_one_iff 69010759).1 h1)
      rw [hover] at hpres
      cases hpres
  exact ⟨m, from_range_reachable _ hm, hm, hcap, hsize, hcnt, hover⟩

/-- C17 (the level leaves the schedule). This statement is the code at a
failing input, not the property: `full_map` satisfies the structural
invariants at the last level 23 with 69010759 entries, the key
`69010759 * 52679969` is absent, and the load factor after one more entry is
131. `insert` and `operator[]` of that key then have no defined result:
`trySizeUp()` calls `change_size(24)`, which stores level 24 and reads
`sizes[24]` beyond the last entry `sizes[23]`. -/
theorem C17_level_leaves_schedule :
    WF id full_map ∧ full_map.cur_capacity = 23 ∧ sizes.length = 24 ∧
    sizes[full_map.cur_capacity + 1]? = none ∧
    count id full_map (69010759 * 52679969) = some 0 ∧
    (full_map.cur_size + 1) * 100 / 52679969 = 131 ∧
    insert id full_map (69010759 * 52679969, 0) = none ∧
    (∀ fuel, index_fuel id fuel full_map (69010759 * 52679969) = none) ∧
    (∀ m1 : HashMap Nat Nat, m1.cur_capacity = 23 → change_size id m1 24 = none) ∧
    (∃ m : HashMap Nat Nat, Reachable id m ∧ m.cur_capacity = 23 ∧ m.size = 69010759 ∧
      count id m 69010759 = some 0 ∧ insert id m (69010759, 0) = none) := by
  have hwf := full_map_wf
  have hlen : full_map.buckets.length = 52679969 := tall_map_length (by omega) 69010759
  have hsz : full_map.cur_size = 69010759 := rfl
  have hcap : full_map.cur_capacity = 23 := rfl
  have habs : ∀ v, (69010759 * 52679969, v) ∉ full_map.entries :=
    fun v => tall_map_absent (by omega) 69010759 v
  have hgt : growLoadFactorThreshold <
      (full_map.cur_size + 1) * 100 / full_map.buckets.length := by
    rw [hlen, hsz]
    decide
  refine ⟨hwf, hcap, rfl, by rw [hcap]; decide,
    (hwf.sound.count_eq_zero_iff _).2 habs, by rw [hsz], ?_, ?_, ?_, ?_⟩
  · exact insert_overrun hwf hcap (69010759 * 52679969, 0) habs hgt
  · exact fun fuel => index_overrun hwf hcap (69010759 * 52679969) habs hgt fuel
  · intro m1 h1
    have h24 : sizes[24]? = none := by decide
    unfold change_size
    rw [h1]
    simp only [Nat.reduceEqDiff, if_false, h24]
  · obtain ⟨m, hr, _, hc, hs, hcnt, hins⟩ := reachable_overrun
    exact ⟨m, hr, hc, hs, hcnt, hins⟩

/-- C12 (range constructor) at a failing input, not the property: for the
list of the 69010760 pairs `(i, 0)`, `i < 69010760`, with the identity hash
the construction has no defined result, because its last `insert` reads
`sizes[24]` (the defect of the failing input of C17); the
construction from the first 69010759 pairs returns. -/
theorem C12_range_constructor_overrun :
    from_range id ((List.range 69010760).map (fun i => (i, 0))) =
      (none : Option (HashMap Nat Nat)) ∧
    (∃ m : HashMap Nat Nat,
      from_range id ((List.range 69010759).map (fun i => (i, 0))) = some m ∧
      m.size = 69010759 ∧ insert id m (69010759, 0) = none) := by
  obtain ⟨m, _, hm, _, hs, _, hins⟩ := reachable_overrun
  exact ⟨from_range_overrun, m, hm, hs, hins⟩

end Aads

/-! # The two source files -/

namespace Aads

set_option linter.unusedSectionVars false

namespace Alt

theorem sizes_eq : Alt.sizes = Aads.sizes := rfl

namespace HashMap

variable {K V : Type} [DecidableEq K]

theorem change_size_to_main (hasher : K → Nat) (m : HashMap K V) (c : Nat) :
    (change_size hasher m c).map to_main = Aads.HashMap.change_size hasher m.to_main c := by
  unfold change_size Aads.HashMap.change_size
  simp only [to_main, sizes_eq]
  by_cases hc : c = m.cur_len
  · simp only [hc, if_true, Option.map_some']
    rfl
  · simp only [hc, if_false]
    cases hs : Aads.sizes[c]? with
    | none => rfl
    | some n => rfl

theorem load_factor_to_main (m : HashMap K V) :
    load_factor m = Aads.HashMap.load_factor m.to_main := by
  unfold load_factor Aads.HashMap.load_factor
  simp only [to_main, sizes_eq]

theorem trySizeUp_to_main (hasher : K → Nat) (m : HashMap K V) :
    (trySizeUp hasher m).map (fun p => (p.1.to_main, p.2)) =
      Aads.HashMap.trySizeUp hasher m.to_main := by
  unfold trySizeUp Aads.HashMap.trySizeUp
  rw [load_factor_to_main]
  cases hl : Aads.HashMap.load_factor m.to_main with
  | none => rfl
  | some lf =>
    simp only [growLoadFactorThreshold]
    by_cases hgt : lf > 130
    · simp only [hgt, if_true]
      have h := change_size_to_main hasher m (m.cur_len + 1)
      simp only [to_main] at h
      simp only [to_main]
      rw [← h]
      cases change_size hasher m (m.cur_len + 1) <;> rfl
    · simp only [hgt, if_false]
      rfl

theorem trySizeDown_to_main (hasher : K → Nat) (m : HashMap K V) :
    (trySizeDown hasher m).map (fun p => (p.1.to_main, p.2)) =
      Aads.HashMap.trySizeDown hasher m.to_main := by
  unfold trySizeDown Aads.HashMap.trySizeDown
  rw [load_factor_to_main]
  cases hl : Aads.HashMap.load_factor m.to_main with
  | none => rfl
  | some lf =>
    have hiff : (lf < 30 ∧ m.cur_len ≠ 0) ↔
        (lf < shrintLoadFactorThreshold ∧ m.to_main.cur_capacity > 0) := by
      simp only [shrintLoadFactorThreshold, to_main]
      constructor
      · rintro ⟨h1, h2⟩; exact ⟨h1, Nat.pos_of_ne_zero h2⟩
      · rintro ⟨h1, h2⟩; exact ⟨h1, Nat.pos_iff_ne_zero.1 h2⟩
    simp only
    by_cases hc : lf < 30 ∧ m.cur_len ≠ 0
    · rw [if_pos hc, if_pos (hiff.1 hc)]
      have h := change_size_to_main hasher m (m.cur_len - 1)
      simp only [to_main] at h
      simp only [to_main]
      rw [← h]
      cases change_size hasher m (m.cur_len - 1) <;> rfl
    · rw [if_neg hc, if_neg (fun h => hc (hiff.2 h))]
      rfl

theorem count_to_main (hasher : K → Nat) (m : HashMap K V) (key : K) :
    count hasher m key = Aads.HashMap.count hasher m.to_main key := rfl

theorem at_to_main (hasher : K → Nat) (m : HashMap K V) (key : K) :
    at_ hasher m key = Aads.HashMap.at_ hasher m.to_main key := rfl

theorem insert_to_main (hasher : K → Nat) (m : HashMap K V) (val : K × V) :
    (insert hasher m val).map to_main = Aads.HashMap.insert hasher m.to_main val := by
  unfold insert Aads.HashMap.insert
  rw [count_to_main]
  cases hcnt : Aads.HashMap.count hasher m.to_main val.1 with
  | none => rfl
  | some c =>
    simp only
    by_cases hc : c ≠ 0
    · rw [if_pos hc, if_pos hc]
      rfl
    · rw [if_neg hc, if_neg hc]
      show Option.map to_main (Option.map Prod.fst (trySizeUp hasher
          { m with
            buckets := m.buckets.modify (fun c => val :: c) (hasher val.1 % m.buckets.length)
            cur_size := (m.cur_size + 1) % size_t_mod })) =
        Option.map Prod.fst (Aads.HashMap.trySizeUp hasher
          (to_main { m with
            buckets := m.buckets.modify (fun c => val :: c) (hasher val.1 % m.buckets.length)
            cur_size := (m.cur_size + 1) % size_t_mod }))
      rw [← trySizeUp_to_main]
      cases trySizeUp hasher
          { m with
            buckets := m.buckets.modify (fun c => val :: c) (hasher val.1 % m.buckets.length)
            cur_size := (m.cur_size + 1) % size_t_mod } <;> rfl

theorem erase_to_main (hasher : K → Nat) (m : HashMap K V) (key : K) :
    (erase hasher m key).map to_main = Aads.HashMap.erase hasher m.to_main key := by
  unfold erase Aads.HashMap.erase
  show Option.map to_main
      (match m.buckets[hasher key % m.buckets.length]? with
      | none => none
      | some b =>
        Option.map Prod.fst (trySizeDown hasher
          (match erase_first key b with
          | some b1 =>
            { m with
              buckets := m.buckets.set (hasher key % m.buckets.length) b1
              cur_size := (m.cur_size + size_t_mod - 1) % size_t_mod }
          | none => m))) =
    (match m.buckets[hasher key % m.buckets.length]? with
      | none => none
      | some b =>
        Option.map Prod.fst (Aads.HashMap.trySizeDown hasher
          (match erase_first key b with
          | some b1 =>
            to_main { m with
              buckets := m.buckets.set (hasher key % m.buckets.length) b1
              cur_size := (m.cur_size + size_t_mod - 1) % size_t_mod }
          | none => m.to_main)))
  cases hb : m.buckets[hasher key % m.buckets.length]? with
  | none => rfl
  | some b =>
    simp only
    cases hef : erase_first key b with
    | none =>
      simp only
      rw [← trySizeDown_to_main]
      cases trySizeDown hasher m <;> rfl
    | some b1 =>
      simp only
      rw [← trySizeDown_to_main]
      cases trySizeDown hasher
          { m with
            buckets := m.buckets.set (hasher key % m.buckets.length) b1
            cur_size := (m.cur_size + size_t_mod - 1) % size_t_mod } <;> rfl

theorem index_to_main [Inhabited V] (hasher : K → Nat) (fuel : Nat) :
    ∀ (m : HashMap K V) (key : K),
      (index_fuel hasher fuel m key).map (fun p => (p.1.to_main, p.2)) =
        Aads.HashMap.index_fuel hasher fuel m.to_main key := by
  induction fuel with
  | zero => intro m key; rfl
  | succ fuel ih =>
    intro m key
    simp only [index_fuel, Aads.HashMap.index_fuel, to_main, sizes_eq]
    cases Aads.sizes[m.cur_len]? with
    | none => rfl
    | some n =>
      simp only
      cases m.buckets[hasher key % n]? with
      | none => rfl
      | some b =>
        simp only
        cases chain_scan key b with
        | some r => rfl
        | none =>
          simp only
          have h := trySizeUp_to_main hasher
            ({ m with
                buckets := m.buckets.set (hasher key % n) ((key, default) :: b)
                cur_size := (m.cur_size + 1) % size_t_mod } : HashMap K V)
          simp only [to_main] at h
          rw [← h]
          cases trySizeUp hasher
            ({ m with
                buckets := m.buckets.set (hasher key % n) ((key, default) :: b)
                cur_size := (m.cur_size + 1) % size_t_mod } : HashMap K V) with
          | none => rfl
          | some res =>
            obtain ⟨m1, flag⟩ := res
            cases flag with
            | false => rfl
            | true =>
              simp only [Option.map_some']
              exact ih m1 key

theorem clear_to_main (hasher : K → Nat) (m : HashMap K V) :
    (clear hasher m).map to_main = Aads.HashMap.clear hasher m.to_main := by
  unfold clear Aads.HashMap.clear
  rw [change_size_to_main]
  rfl

theorem run_call_to_main [Inhabited V] (hasher : K → Nat) (fuel : Nat) (c : call K V)
    (m : HashMap K V) :
    (run_call hasher fuel c m).map to_main =
      Aads.HashMap.run_call hasher fuel c m.to_main := by
  cases c with
  | insert val => exact insert_to_main hasher m val
  | erase key => exact erase_to_main hasher m key
  | index key =>
    simp only [run_call, Aads.HashMap.run_call]
    rw [← index_to_main, Option.map_map, Option.map_map]
    rfl
  | clear => exact clear_to_main hasher m

theorem run_to_main [Inhabited V] (hasher : K → Nat) (fuel : Nat) (cs : List (call K V)) :
    ∀ (a : Option (HashMap K V)),
      (cs.foldl (fun acc c => acc.bind (run_call hasher fuel c)) a).map to_main =
        cs.foldl (fun acc c => acc.bind (Aads.HashMap.run_call hasher fuel c))
          (a.map to_main) := by
  induction cs with
  | nil => intro a; rfl
  | cons c cs ih =>
    intro a
    simp only [List.foldl_cons]
    rw [ih]
    congr 1
    cases a with
    | none => rfl
    | some m => exact run_call_to_main hasher fuel c m

end HashMap

namespace iterator

variable {K V : Type}

theorem push_fuel_to_main (bs : List (List (K × V))) (fuel : Nat) :
    ∀ it : iterator, (push_fuel bs fuel it).map to_main =
      base_hashmap_iterator.push_fuel bs fuel it.to_main := by
  induction fuel with
  | zero => intro it; rfl
  | succ fuel ih =>
    intro it
    simp only [push_fuel, base_hashmap_iterator.push_fuel, to_main]
    split
    · rfl
    · cases bs[it.cur]? with
      | none => rfl
      | some b =>
        simp only
        split
        · split
          · cases bs[it.cur + 1]? with
            | none => rfl
            | some b1 => exact ih _
          · exact ih _
        · rfl

end iterator

namespace HashMap

variable {K V : Type} [DecidableEq K]

theorem begin_to_main (m : HashMap K V) :
    (begin_ m).map iterator.to_main = Aads.HashMap.begin_ m.to_main := by
  unfold begin_ Aads.HashMap.begin_ iterator.of_map base_hashmap_iterator.mk_from
  simp only [to_main]
  cases m.buckets[0]? with
  | none => rfl
  | some b0 =>
    simp only [Bool.not_false, if_true]
    exact iterator.push_fuel_to_main m.buckets _ _

theorem end_to_main (m : HashMap K V) :
    (end_ m).map iterator.to_main = Aads.HashMap.end_ m.to_main := by
  unfold end_ Aads.HashMap.end_ iterator.of_map base_hashmap_iterator.mk_from
  simp only [to_main]
  cases m.buckets[0]? with
  | none => rfl
  | some b0 =>
    simp only [Bool.not_true, Bool.false_eq_true, if_false]
    cases m.buckets.getLast? with
    | none => rfl
    | some last => rfl

/-- The cursor `find` builds directly in `src/hashmap.h` is the one
`src/hash_map.h` builds from the pair of `base_find`. -/
theorem find_to_main (hasher : K → Nat) (m : HashMap K V) (val : K) :
    (find hasher m val).map iterator.to_main = Aads.HashMap.find hasher m.to_main val := by
  unfold find Aads.HashMap.find Aads.HashMap.base_find
  simp only [to_main]
  cases hb : m.buckets[hasher val % m.buckets.length]? with
  | none => rfl
  | some b =>
    have hlt : hasher val % m.buckets.length < m.buckets.length :=
      (List.getElem?_eq_some.1 hb).1
    have hpos : 0 < m.buckets.length := by omega
    have hb0 : m.buckets[0]? = some m.buckets[0] := List.getElem?_eq_getElem hpos
    simp only
    cases hsc : chain_scan val b with
    | some r =>
      have hr : r.1 ≤ b.length :=
        Nat.le_of_lt (List.getElem?_eq_some.1 (chain_scan_some_getElem? hsc)).1
      have hmin : min (hasher val % m.buckets.length) (m.buckets.length - 1) =
          hasher val % m.buckets.length := by omega
      simp only [iterator.of_map, hb0, hmin, hb, hr, if_true]
      rfl
    | none =>
      have hl : m.buckets[m.buckets.length - 1]? = some m.buckets[m.buckets.length - 1] :=
        List.getElem?_eq_getElem (by omega)
      have hlast : m.buckets.getLast? = some m.buckets[m.buckets.length - 1] := by
        rw [List.getLast?_eq_getElem?, hl]
      have hmin : min m.buckets.length (m.buckets.length - 1) = m.buckets.length - 1 := by
        omega
      simp only [end_, iterator.of_map, hb0, hlast, hmin, hl, le_refl, if_true]
      rfl

end HashMap

end Alt

/-- C20 (the two files implement the same container). For every hash
function and every sequence of `insert`, `erase`, `operator[]` and `clear`
calls from the freshly constructed maps, the map of `src/hashmap.h` and the
map of `src/hash_map.h` come to the same outcome: the same chains in the
same order, size counter and capacity level, or no defined state for both.
On every pair of equal states `size`, `empty`, `count`, `at`, `operator[]`
(state and reference) and the cursors `begin()`, `end()` and `find(k)` give
the same results, the cursors with the same bucket number, end marker and
chain position. -/
theorem C20_two_files_agree {K V : Type} [DecidableEq K] [Inhabited V] (hasher : K → Nat) :
    (Alt.HashMap.new : Alt.HashMap K V).to_main = HashMap.new ∧
    (∀ (fuel : Nat) (cs : List (call K V)),
      (Alt.HashMap.run hasher fuel cs Alt.HashMap.new).map Alt.HashMap.to_main =
        HashMap.run hasher fuel cs HashMap.new) ∧
    (∀ (m : Alt.HashMap K V),
      m.to_main.buckets = m.buckets ∧ m.to_main.cur_size = m.cur_size ∧
      m.to_main.cur_capacity = m.cur_len ∧
      m.size = m.to_main.size ∧ m.empty = m.to_main.empty ∧
      (∀ k, Alt.HashMap.count hasher m k = HashMap.count hasher m.to_main k) ∧
      (∀ k, Alt.HashMap.at_ hasher m k = HashMap.at_ hasher m.to_main k) ∧
      (∀ fuel k, (Alt.HashMap.index_fuel hasher fuel m k).map
          (fun p => (p.1.to_main, p.2)) = HashMap.index_fuel hasher fuel m.to_main k) ∧
      (Alt.HashMap.begin_ m).map Alt.iterator.to_main = HashMap.begin_ m.to_main ∧
      (Alt.HashMap.end_ m).map Alt.iterator.to_main = HashMap.end_ m.to_main ∧
      (∀ k, (Alt.HashMap.find hasher m k).map Alt.iterator.to_main =
        HashMap.find hasher m.to_main k)) := by
  refine ⟨rfl, fun fuel cs => ?_, fun m => ?_⟩
  · exact Alt.HashMap.run_to_main hasher fuel cs (some Alt.HashMap.new)
  · exact ⟨rfl, rfl, rfl, rfl, rfl, fun k => Alt.HashMap.count_to_main hasher m k,
      fun k => Alt.HashMap.at_to_main hasher m k,
      fun fuel k => Alt.HashMap.index_to_main hasher fuel m k,
      Alt.HashMap.begin_to_main m, Alt.HashMap.end_to_main m,
      fun k => Alt.HashMap.find_to_main hasher m k⟩

end Aads
